import Mathlib

/-!
# Cache simulator (`sim.c`): shallow embedding and verified properties

The C program is embedded as pure functions over explicit state.

* `int` fields are mathematical integers (`Int`); every arithmetic step is exact, which
  agrees with C as long as no intermediate value leaves the 32-bit range.
* `unsigned int` fields (`cpi_cycles`, `num_instructions`) are `Nat` values reduced
  modulo `2^32` at every update.
* Behaviour the C standard leaves undefined (array index outside the block array,
  division or remainder by zero, `Log2` of a non-positive number, a field buffer that
  does not fit) is the result `Fault.undefined`.
* `exit(...)` is the result `Fault.exit`, which carries the state at the moment of exit.
* `rand()` is an explicit stream `rnd : Nat → Nat` together with the number of draws
  already made.
* The state carries a history variable `log` that records every completed cache access;
  no program step reads it, it only serves to state properties of whole runs.
* The `float`/`double` report fields (rates, cost, CPI) are not part of the embedding.
* `parse_args` runs over the argument vector as a list of strings; `argument_error` is
  the result `ArgFault.usage`.
-/

namespace Sim

/-! ## Data model -/

/-- Enum value `RR = 1`. -/
def RR : Int := 1
/-- Enum value `RND = 2`. -/
def RND : Int := 2
/-- Enum value `LRU = 3`. -/
def LRU : Int := 3

/-- The integer fields of `struct _args` (lines 22-60). -/
structure _args where
  cache_size : Int
  block_size : Int
  associativity : Int
  replacement_policy : Int
  num_blocks : Int
  tag_size : Int
  index_size : Int
  offset_size : Int
  num_rows : Int
  overhead_size : Int
  mem_size_bytes : Int
  total_cache_accesses : Int
  total_addresses : Int
  cache_hits : Int
  cache_misses : Int
  compulsory_misses : Int
  conflict_misses : Int
  cpi_cycles : Nat
  num_instructions : Nat
  unused_cache_blocks : Int
  cpu_cycle : Int
deriving DecidableEq

/-- The `struct block` of lines 63-68; `tag` is the C string held in the tag buffer. -/
structure block where
  valid : Int
  tag : List Char
  timestamp : Int
  rr : Int
deriving DecidableEq

/-- Which branch of the loop body of `handle_address` a cache access took: a hit on the
block at offset `j` of the row, a compulsory miss filling the block at offset `j`, or a
conflict miss replacing the block at `offset`. -/
inductive Kind where
  | hit (j : Nat)
  | compulsory (j : Nat)
  | conflict (offset : Int)
deriving DecidableEq

/-- History record of one cache access: the tag string, the index value `idx`, the row
start `row` and the branch taken. -/
structure Event where
  tag : List Char
  idx : Int
  row : Int
  kind : Kind
deriving DecidableEq

/-- The mutable state of a simulation: the argument/statistics structure, the block
array and the number of `rand()` draws made so far.  `log` is a history variable, not
program state: the completed cache accesses, most recent first.  No program step reads it. -/
structure State where
  args : _args
  cache : List block
  rand_calls : Nat
  log : List Event
deriving DecidableEq

/-- The three `exit` sites reachable from `handle_address`. -/
inductive ExitCode where
  | unknown_hex
  | lru_not_implemented
  | invalid_policy
deriving DecidableEq

/-- Abnormal results: process exit (with the state at that moment) or undefined behaviour. -/
inductive Fault where
  | exit (code : ExitCode) (s : State)
  | undefined
deriving DecidableEq

/-- Reduction of an integer to an `unsigned int`. -/
def wrap32 (x : Int) : Nat := (x % 4294967296).toNat

/-! ## Geometry: `Log2` and `calculate_cache` -/

/-- `Log2` (lines 77-79): `log(n)/log(2)` truncated to `int`.  The double-precision
quotient is taken as the exact truncated base-2 logarithm; it is undefined (`none`) for
`n ≤ 0`, where `log` yields `-inf` or NaN. -/
def Log2 (n : Int) : Option Int :=
  if 1 ≤ n then some (Nat.log 2 n.toNat : Nat) else none

/-- `calculate_cache` (lines 433-444), integer fields only. -/
def calculate_cache (args : _args) : Option _args :=
  if args.block_size = 0 then none else
  let num_blocks := Int.tdiv (args.cache_size * 1024) args.block_size
  if args.associativity = 0 then none else
  let num_rows := Int.tdiv num_blocks args.associativity
  match Log2 num_rows, Log2 args.block_size with
  | some index_size, some offset_size =>
    let tag_size := 32 - index_size - offset_size
    let overhead_size := Int.tdiv (num_blocks * (tag_size + 1)) 8
    some { args with
      num_blocks := num_blocks
      num_rows := num_rows
      index_size := index_size
      offset_size := offset_size
      tag_size := tag_size
      overhead_size := overhead_size
      mem_size_bytes := args.cache_size * 1024 + overhead_size
      cpu_cycle := 0 }
  | _, _ => none

/-- The ranges `parse_args` enforces on the three numeric options (lines 501-512). -/
def validated (args : _args) : Prop :=
  (1 ≤ args.cache_size ∧ args.cache_size ≤ 8192) ∧
  (4 ≤ args.block_size ∧ args.block_size ≤ 64) ∧
  (args.associativity = 1 ∨ args.associativity = 2 ∨ args.associativity = 4 ∨
    args.associativity = 8 ∨ args.associativity = 16)

instance (args : _args) : Decidable (validated args) := by
  unfold validated; infer_instance

/-! ## Address decoding: `hex2bin` and the field conversion of `handle_address` -/

/-- One `case` of the `switch` in `hex2bin` (lines 164-185); `none` is the `default` branch. -/
def hex_digit (c : Char) : Option (List Char) :=
  if c = '0' then some ['0', '0', '0', '0']
  else if c = '1' then some ['0', '0', '0', '1']
  else if c = '2' then some ['0', '0', '1', '0']
  else if c = '3' then some ['0', '0', '1', '1']
  else if c = '4' then some ['0', '1', '0', '0']
  else if c = '5' then some ['0', '1', '0', '1']
  else if c = '6' then some ['0', '1', '1', '0']
  else if c = '7' then some ['0', '1', '1', '1']
  else if c = '8' then some ['1', '0', '0', '0']
  else if c = '9' then some ['1', '0', '0', '1']
  else if c = 'a' then some ['1', '0', '1', '0']
  else if c = 'b' then some ['1', '0', '1', '1']
  else if c = 'c' then some ['1', '1', '0', '0']
  else if c = 'd' then some ['1', '1', '0', '1']
  else if c = 'e' then some ['1', '1', '1', '0']
  else if c = 'f' then some ['1', '1', '1', '1']
  else none

/-- The loop of `hex2bin` from position `i`, `n` iterations left.  A position past the
end of the string reads the terminating NUL. -/
def hex2bin_loop (hex : List Char) : Nat → Nat → Option (List Char)
  | 0, _ => some []
  | n + 1, i =>
    match hex_digit (hex.getD i (Char.ofNat 0)) with
    | none => none
    | some page =>
      match hex2bin_loop hex n (i + 1) with
      | none => none
      | some rest => some (page ++ rest)

/-- `hex2bin` (lines 160-189): the 32-character binary string of an 8-digit address;
`none` when the `default` branch calls `exit(EXIT_FAILURE)`. -/
def hex2bin (hex : List Char) : Option (List Char) := hex2bin_loop hex 8 0

/-- The conversion loop of lines 226-229 (and 232-235, 238-241) over the characters
from last to first: `exp_index` is the current exponent, `value` the running sum. -/
def to_decimal_loop : List Char → Nat → Int → Int
  | [], _, value => value
  | c :: cs, exp_index, value =>
    to_decimal_loop cs (exp_index + 1) (if c = '1' then value + 2 ^ exp_index else value)

/-- The value of a field string, as computed by the "Convert to decimal" loops. -/
def to_decimal (field : List Char) : Int := to_decimal_loop field.reverse 0 0

/-! ## The block array and one cache access -/

/-- Reading `cache[i]`; `none` when `i` lies outside the allocated array. -/
def read (cache : List block) (i : Int) : Option block :=
  if 0 ≤ i then cache[i.toNat]? else none

/-- The lookup loop of lines 256-264 from offset `j`, `n` iterations left: the offset of
the first block of the row with `strcmp(tag) == 0 && valid == 1`, if any. -/
def find_tag (cache : List block) (row_start_index : Int) (tag : List Char) :
    Nat → Nat → Except Fault (Option Nat)
  | 0, _ => .ok none
  | n + 1, j =>
    match read cache (row_start_index + j) with
    | none => .error .undefined
    | some b =>
      if b.tag = tag ∧ b.valid = 1 then .ok (some j)
      else find_tag cache row_start_index tag n (j + 1)

/-- The empty-block loop of lines 271-282 from offset `j`, `n` iterations left: the
offset of the first block of the row with `valid == 0`, if any. -/
def find_empty (cache : List block) (row_start_index : Int) :
    Nat → Nat → Except Fault (Option Nat)
  | 0, _ => .ok none
  | n + 1, j =>
    match read cache (row_start_index + j) with
    | none => .error .undefined
    | some b =>
      if b.valid = 0 then .ok (some j)
      else find_empty cache row_start_index n (j + 1)

/-- The three stores of lines 277-279 (and 319-321) into `cache[i]`. -/
def install (cache : List block) (i : Int) (tag : List Char) (cpu_cycle : Int) :
    Option (List block) :=
  match read cache i with
  | none => none
  | some b => some (cache.set i.toNat { b with valid := 1, timestamp := cpu_cycle, tag := tag })

/-- The loop of lines 323-327 from offset `q`, `n` iterations left: store `new_rr` into
the `rr` field of every block of the row. -/
def set_rr (row_start_index new_rr : Int) : Nat → Nat → List block → Option (List block)
  | 0, _, cache => some cache
  | n + 1, q, cache =>
    match read cache (row_start_index + q) with
    | none => none
    | some b =>
      set_rr row_start_index new_rr n (q + 1)
        (cache.set (row_start_index + q).toNat { b with rr := new_rr })

/-- The `switch` of lines 302-317: the replacement offset and the new number of
`rand()` draws, or the exit of the `LRU` and `default` branches. -/
def replacement_offset (rnd : Nat → Nat) (row_start_index : Int) (s : State) :
    Except Fault (Int × Nat) :=
  if s.args.replacement_policy = RR then
    match read s.cache row_start_index with
    | none => .error .undefined
    | some b => .ok (b.rr, s.rand_calls)
  else if s.args.replacement_policy = RND then
    if s.args.associativity = 0 then .error .undefined
    else .ok (Int.tmod (rnd s.rand_calls) s.args.associativity, s.rand_calls + 1)
  else if s.args.replacement_policy = LRU then .error (.exit .lru_not_implemented s)
  else .error (.exit .invalid_policy s)

/-- The conflict branch after its two counter increments (lines 286-327).  The
`max_ts`/`min_ts` loop of lines 291-301 only re-reads blocks the two earlier loops have
read and its results are never used, so it leaves no trace here. -/
def replace_block (rnd : Nat → Nat) (tag : List Char) (idx row_start_index : Int)
    (s : State) : Except Fault State :=
  match replacement_offset rnd row_start_index s with
  | .error e => .error e
  | .ok (offset, rand_calls) =>
    match install s.cache (row_start_index + offset) tag s.args.cpu_cycle with
    | none => .error .undefined
    | some cache =>
      match read cache row_start_index with
      | none => .error .undefined
      | some b0 =>
        if s.args.associativity = 0 then .error .undefined else
        let new_rr := Int.tmod (b0.rr + 1) s.args.associativity
        match set_rr row_start_index new_rr s.args.associativity.toNat 0 cache with
        | none => .error .undefined
        | some cache =>
          .ok { s with
            cache := cache
            rand_calls := rand_calls
            log := ⟨tag, idx, row_start_index, .conflict offset⟩ :: s.log }

/-- The row start of line 252 for index value `idx`. -/
def row_start (args : _args) (idx : Int) : Int :=
  Int.tmod (idx * args.associativity) args.num_blocks

/-- One iteration of the loop of lines 249-330: the cache access for index value `idx`. -/
def cache_access (rnd : Nat → Nat) (tag : List Char) (idx : Int) (s : State) :
    Except Fault State :=
  let args := { s.args with total_cache_accesses := s.args.total_cache_accesses + 1 }
  if args.num_blocks = 0 then .error .undefined else
  let row_start_index := row_start args idx
  match find_tag s.cache row_start_index tag args.associativity.toNat 0 with
  | .error e => .error e
  | .ok (some j) =>
    .ok { s with
      args := { args with
        cache_hits := args.cache_hits + 1
        cpi_cycles := wrap32 (args.cpi_cycles + 1) }
      log := ⟨tag, idx, row_start_index, .hit j⟩ :: s.log }
  | .ok none =>
    let args := { args with cpi_cycles := wrap32 (args.cpi_cycles + 4 * Int.tdiv args.block_size 4) }
    match find_empty s.cache row_start_index args.associativity.toNat 0 with
    | .error e => .error e
    | .ok (some j) =>
      let args := { args with
        cache_misses := args.cache_misses + 1
        compulsory_misses := args.compulsory_misses + 1 }
      match install s.cache (row_start_index + j) tag args.cpu_cycle with
      | none => .error .undefined
      | some cache =>
        .ok { s with
          args := args
          cache := cache
          log := ⟨tag, idx, row_start_index, .compulsory j⟩ :: s.log }
    | .ok none =>
      let args := { args with
        cache_misses := args.cache_misses + 1
        conflict_misses := args.conflict_misses + 1 }
      replace_block rnd tag idx row_start_index { s with args := args }

/-! ## `handle_address` -/

/-- The loop of lines 249-330 from iteration `i`, `n` iterations left. -/
def overrun_loop (rnd : Nat → Nat) (tag : List Char) (index_value : Int) :
    Nat → Nat → State → Except Fault State
  | 0, _, s => .ok s
  | n + 1, i, s =>
    match cache_access rnd tag (index_value + i) s with
    | .error e => .error e
    | .ok s1 => overrun_loop rnd tag index_value n (i + 1) s1

/-- A condition under which the three field buffers of lines 197-220 are filled without
leaving `bin` or overflowing `offset`; every geometry `calculate_cache` derives with a
non-negative `tag_size` satisfies it.  Outside it `handle_address` is taken as undefined. -/
def fields_fit (args : _args) : Prop :=
  0 ≤ args.tag_size ∧ 0 ≤ args.index_size ∧ 0 ≤ args.offset_size ∧
  args.tag_size + args.index_size ≤ 32 ∧
  32 ≤ args.tag_size + args.index_size + args.offset_size

instance (args : _args) : Decidable (fields_fit args) := by
  unfold fields_fit; infer_instance

/-- The tag field: the first `tag_size` characters of `bin` (lines 203-208). -/
def tag_field (args : _args) (bin : List Char) : List Char :=
  bin.take args.tag_size.toNat

/-- The index field: the next `index_size` characters of `bin` (lines 209-214). -/
def index_field (args : _args) (bin : List Char) : List Char :=
  (bin.drop args.tag_size.toNat).take args.index_size.toNat

/-- The offset field: the characters of `bin` from `tag_size + index_size` on (lines 215-220). -/
def offset_field (args : _args) (bin : List Char) : List Char :=
  bin.drop (args.tag_size + args.index_size).toNat

/-- Lines 202-241: the tag string and the decimal values of the tag, index and offset
fields (`tag`, `tag_value`, `index_value`, `offset_value`). -/
def decode (args : _args) (bin : List Char) : List Char × Int × Int × Int :=
  (tag_field args bin, to_decimal (tag_field args bin), to_decimal (index_field args bin),
    to_decimal (offset_field args bin))

/-- Line 243: `ceil((offset_value + bytes_read) / (float) block_size)` as an `int`.  The
single-precision quotient is taken as the exact rational one. -/
def num_overruns (args : _args) (offset_value bytes_read : Int) : Int :=
  -(Int.fdiv (-(offset_value + bytes_read)) args.block_size)

/-- `handle_address` (lines 192-336). -/
def handle_address (rnd : Nat → Nat) (s : State) (address : List Char) (bytes_read : Int)
    (is_eip : Bool) : Except Fault State :=
  let s := { s with args := { s.args with cpu_cycle := s.args.cpu_cycle + 1 } }
  match hex2bin address with
  | none => .error (.exit .unknown_hex s)
  | some bin =>
    if ¬ fields_fit s.args then .error .undefined else
    let (tag, _tag_value, index_value, offset_value) := decode s.args bin
    if s.args.block_size = 0 then .error .undefined else
    match overrun_loop rnd tag index_value (num_overruns s.args offset_value bytes_read).toNat 0 s with
    | .error e => .error e
    | .ok s1 =>
      if is_eip then
        .ok { s1 with args := { s1.args with
                cpi_cycles := wrap32 (s1.args.cpi_cycles + 2)
                num_instructions := wrap32 (s1.args.num_instructions + 1) } }
      else
        .ok { s1 with args := { s1.args with cpi_cycles := wrap32 (s1.args.cpi_cycles + 1) } }

/-! ## `trace_cache` -/

/-- The NUL character that terminates a C string. -/
def NUL : Char := Char.ofNat 0

/-- The cache initialisation of lines 352-364: `num_blocks` invalid blocks with `rr = 0`
and a tag buffer of `tag_size` characters `0`.  The `timestamp` field is left
uninitialised by the program and is zero here. -/
def init_cache (args : _args) : List block :=
  List.replicate args.num_blocks.toNat
    { valid := 0, tag := List.replicate args.tag_size.toNat '0', timestamp := 0, rr := 0 }

/-- The state in which the `while` loop of `trace_cache` starts. -/
def init_state (args : _args) : State :=
  { args := args, cache := init_cache args, rand_calls := 0, log := [] }

/-- The digit loop of the C library function `atoi`. -/
def atoi_digits : List Char → Int → Int
  | [], acc => acc
  | c :: cs, acc =>
    if '0' ≤ c ∧ c ≤ '9' then atoi_digits cs (acc * 10 + ((c.toNat : Int) - 48)) else acc

/-- The white space `atoi` skips (`isspace` in the C locale). -/
def isspace (c : Char) : Bool :=
  c = ' ' || (9 ≤ c.toNat && c.toNat ≤ 13)

/-- The C library function `strtol(str, NULL, 10)` on a string without its terminator,
for a 64-bit `long`: leading white space, an optional sign and the decimal digits; a
value outside the range of `long` is replaced by `LONG_MIN` or `LONG_MAX`. -/
def strtol (str : List Char) : Int :=
  let value : Int :=
    match str.dropWhile isspace with
    | '-' :: cs => -(atoi_digits cs 0)
    | '+' :: cs => atoi_digits cs 0
    | cs => atoi_digits cs 0
  if value < -9223372036854775808 then -9223372036854775808
  else if value > 9223372036854775807 then 9223372036854775807
  else value

/-- The conversion of a `long` to the 32-bit `int`: the two's complement value of the low
32 bits. -/
def long_to_int (x : Int) : Int := (x + 2147483648) % 4294967296 - 2147483648

/-- The C library function `atoi` on a string without its terminator, as the C library
the program is built with defines it: `(int) strtol(str, NULL, 10)`.  The result is
always a 32-bit `int`; a digit string beyond that range wraps (`4294967297` reads as 1). -/
def atoi (str : List Char) : Int := long_to_int (strtol str)

/-- `strlen(buffer)`. -/
def strlen (buffer : List Char) : Nat := (buffer.takeWhile (fun c => c ≠ NUL)).length

/-- The effect of `fgets(buffer, 256, trace_file)` delivering `line`: the line and its
terminator overwrite the start of the buffer, the rest keeps its earlier content. -/
def fgets (buffer line : List Char) : List Char :=
  line ++ NUL :: buffer.drop (line.length + 1)

/-- The characters `buffer[i] .. buffer[i + 7]` copied by lines 381, 389 and 400. -/
def address_at (buffer : List Char) (i : Nat) : List Char :=
  (List.range 8).map (fun k => buffer.getD (i + k) NUL)

/-- The body of the `while` loop of lines 370-408 for a buffer already filled by `fgets`. -/
def trace_line (rnd : Nat → Nat) (buffer : List Char) (s : State) : Except Fault State :=
  if strlen buffer ≤ 5 then .ok s
  else if buffer.take 3 = ['E', 'I', 'P'] then
    let bytes_read := atoi ([buffer.getD 5 NUL, buffer.getD 6 NUL].takeWhile (fun c => c ≠ NUL))
    match handle_address rnd s (address_at buffer 10) bytes_read true with
    | .error e => .error e
    | .ok s1 => .ok { s1 with args := { s1.args with total_addresses := s1.args.total_addresses + 1 } }
  else
    let dst_address := address_at buffer 6
    let after_dst : Except Fault State :=
      if dst_address ≠ ['0', '0', '0', '0', '0', '0', '0', '0'] then
        match handle_address rnd s dst_address 4 false with
        | .error e => .error e
        | .ok s1 =>
          .ok { s1 with args := { s1.args with total_addresses := s1.args.total_addresses + 1 } }
      else .ok s
    match after_dst with
    | .error e => .error e
    | .ok s1 =>
      let src_address := address_at buffer 33
      if src_address ≠ ['0', '0', '0', '0', '0', '0', '0', '0'] then
        match handle_address rnd s1 src_address 4 false with
        | .error e => .error e
        | .ok s2 =>
          .ok { s2 with args := { s2.args with total_addresses := s2.args.total_addresses + 1 } }
      else .ok s1

/-- The `while` loop of lines 370-408 over the lines `fgets` delivers, in order. -/
def trace_loop (rnd : Nat → Nat) : List (List Char) → List Char → State → Except Fault State
  | [], _, s => .ok s
  | line :: rest, buffer, s =>
    match trace_line rnd (fgets buffer line) s with
    | .error e => .error e
    | .ok s1 => trace_loop rnd rest (fgets buffer line) s1

/-- Lines 417-421: the number of blocks with `valid == 0`. -/
def num_blocks_wasted (cache : List block) : Int :=
  ((cache.filter (fun b => b.valid = 0)).length : Nat)

/-- `trace_cache` (lines 343-426) on an opened trace file whose lines are `trace`;
`buffer` is the initial content of the line buffer. -/
def trace_cache (rnd : Nat → Nat) (trace : List (List Char)) (buffer : List Char)
    (args : _args) : Except Fault State :=
  match trace_loop rnd trace buffer (init_state args) with
  | .error e => .error e
  | .ok s => .ok { s with args := { s.args with unused_cache_blocks := num_blocks_wasted s.cache } }

/-! ## Auxiliary definitions used to state the properties -/

/-- The structure once `parse_args` has stored the four numeric options, every other
field being zero (the program leaves them as `malloc` returned them); the geometry
fields are then filled by `calculate_cache`. -/
def config (cache_size block_size associativity replacement_policy : Int) : _args :=
  { cache_size := cache_size, block_size := block_size, associativity := associativity,
    replacement_policy := replacement_policy, num_blocks := 0, tag_size := 0,
    index_size := 0, offset_size := 0, num_rows := 0, overhead_size := 0,
    mem_size_bytes := 0, total_cache_accesses := 0, total_addresses := 0, cache_hits := 0,
    cache_misses := 0, compulsory_misses := 0, conflict_misses := 0, cpi_cycles := 0,
    num_instructions := 0, unused_cache_blocks := 0, cpu_cycle := 0 }

/-- The sixteen characters `hex2bin` has a `case` for. -/
def lower_hex_digits : List Char := "0123456789abcdef".toList

/-- The upper-case hexadecimal letters. -/
def upper_hex_letters : List Char := "ABCDEF".toList

/-- The value of a hexadecimal digit: its position among `0123456789abcdef`. -/
def hex_digit_value (c : Char) : Nat := lower_hex_digits.indexOf c

/-- The number an address denotes, read as a hexadecimal numeral. -/
def hex_value (address : List Char) : Nat :=
  address.foldl (fun acc c => 16 * acc + hex_digit_value c) 0

/-- The geometry `calculate_cache` derives for 1 KB, 4-byte blocks, direct-mapped, `RR`. -/
def direct_mapped_1k : _args :=
  { config 1 4 1 RR with
    num_blocks := 256, num_rows := 256, index_size := 8, offset_size := 2, tag_size := 22,
    overhead_size := 736, mem_size_bytes := 1760 }

/-- One call of `handle_address`: the address string, `bytes_read` and `is_eip`. -/
structure Access where
  address : List Char
  bytes_read : Int
  is_eip : Bool
deriving DecidableEq

/-- `handle_address` run on a sequence of addresses, in order. -/
def handle_addresses (rnd : Nat → Nat) : List Access → State → Except Fault State
  | [], s => .ok s
  | x :: rest, s =>
    match handle_address rnd s x.address x.bytes_read x.is_eip with
    | .error e => .error e
    | .ok s1 => handle_addresses rnd rest s1

/-- The state a run ends in: the returned state, or the state at the moment of `exit`. -/
def final_state : Except Fault State → Option State
  | .ok s => some s
  | .error (.exit _ s) => some s
  | .error .undefined => none

/-- Geometry a cache array is laid out for: positive associativity dividing a positive
number of blocks, and an array of exactly `num_blocks` blocks. -/
def well_formed (s : State) : Prop :=
  0 < s.args.associativity ∧ 0 < s.args.num_blocks ∧
  s.args.associativity ∣ s.args.num_blocks ∧ (s.cache.length : Int) = s.args.num_blocks

/-- Whether an event is a conflict miss in the row starting at `row`. -/
def is_conflict_in (row : Int) (e : Event) : Bool :=
  match e.kind with
  | .conflict _ => decide (e.row = row)
  | _ => false

/-- The number of conflict misses recorded in `log` for the row starting at `row`. -/
def conflicts_in (row : Int) (log : List Event) : Nat := (log.filter (is_conflict_in row)).length

/-- The common shape of the two search loops of `handle_address`: the offset of the first
block of the row satisfying `p`, from offset `j`, `n` iterations left. -/
def find_first (p : block → Bool) (cache : List block) (row_start_index : Int) :
    Nat → Nat → Except Fault (Option Nat)
  | 0, _ => .ok none
  | n + 1, j =>
    match read cache (row_start_index + j) with
    | none => .error .undefined
    | some b =>
      if p b then .ok (some j) else find_first p cache row_start_index n (j + 1)

/-- The address `7c809764`: tag `0111110010000000100101`, index 217, offset 0 under
`direct_mapped_1k`. -/
def example_address : List Char := ['7', 'c', '8', '0', '9', '7', '6', '4']

/-- The 22-bit tag string of `example_address` under `direct_mapped_1k`. -/
def example_tag : List Char :=
  ['0', '1', '1', '1', '1', '1', '0', '0', '1', '0', '0', '0', '0', '0', '0', '0', '1', '0',
    '0', '1', '0', '1']

/-- The state reached from `init_state direct_mapped_1k` by the instruction fetch of
4 bytes at `example_address`: one compulsory miss that filled block 217. -/
def one_access_state : State :=
  { args := { direct_mapped_1k with
      total_cache_accesses := 1, cache_misses := 1, compulsory_misses := 1,
      cpi_cycles := 6, num_instructions := 1, cpu_cycle := 1 }
    cache := (init_cache direct_mapped_1k).set 217
      { valid := 1, tag := example_tag, timestamp := 1, rr := 0 }
    rand_calls := 0
    log := [⟨example_tag, 217, 217, .compulsory 0⟩] }

/-- Two argument structures that agree on everything except the four fields
`handle_address` and `trace_cache` update outside the cache-access loop: `cpu_cycle`,
`cpi_cycles`, `num_instructions` and `total_addresses`. -/
def same_core (a b : _args) : Prop :=
  b = { a with
    cpu_cycle := b.cpu_cycle, cpi_cycles := b.cpi_cycles,
    num_instructions := b.num_instructions, total_addresses := b.total_addresses }

/-- The geometry and policy fields of `a` are those of `g`. -/
def same_geometry (g a : _args) : Prop :=
  a.associativity = g.associativity ∧ a.num_blocks = g.num_blocks ∧
  a.replacement_policy = g.replacement_policy ∧ a.block_size = g.block_size ∧
  a.tag_size = g.tag_size ∧ a.index_size = g.index_size ∧ a.offset_size = g.offset_size

/-- The start of the row that block `i` belongs to when rows are aligned groups of
`associativity` blocks. -/
def row_of (g : _args) (i : Nat) : Int := g.associativity * ((i : Int) / g.associativity)

/-- What the history must satisfy, event by event from the most recent: the row is the
row start of the index value; a hit was preceded by an access with the same tag to the
same row; under `RR` a conflict replaced the offset given by the number of earlier
conflicts in its row, modulo the associativity. -/
def log_ok (g : _args) : List Event → Prop
  | [] => True
  | e :: pre =>
    log_ok g pre ∧ 0 ≤ e.idx ∧ e.row = row_start g e.idx ∧
    (∀ j, e.kind = .hit j → ∃ e2 ∈ pre, e2.tag = e.tag ∧ e2.row = e.row) ∧
    (∀ off, e.kind = .conflict off → g.replacement_policy = RR →
      off = (conflicts_in e.row pre : Int) % g.associativity)

/-- The invariant of a run over geometry `g`: the geometry is unchanged and well formed,
the `rr` field of every block is the number of conflicts recorded for its row modulo the
associativity, every block is invalid or valid with a tag that an earlier access brought
to its row, and the history satisfies `log_ok`. -/
def Inv (g : _args) (s : State) : Prop :=
  same_geometry g s.args ∧ well_formed s ∧
  (∀ (i : Nat) (b : block), s.cache[i]? = some b →
    b.rr = (conflicts_in (row_of g i) s.log : Int) % g.associativity) ∧
  (∀ (i : Nat) (b : block), s.cache[i]? = some b →
    b.valid = 0 ∨ (b.valid = 1 ∧ ∃ e ∈ s.log, e.tag = b.tag ∧ e.row = row_of g i)) ∧
  log_ok g s.log

/-- Counter conservation: every access is counted as exactly one of hit, compulsory miss
or conflict miss, and the misses are the compulsory and conflict misses together. -/
def conserved (a : _args) : Prop :=
  a.cache_hits + a.compulsory_misses + a.conflict_misses = a.total_cache_accesses ∧
  a.cache_misses = a.compulsory_misses + a.conflict_misses

/-- The geometry `calculate_cache` derives for 1 KB, 4-byte blocks, 2-way, `RR`. -/
def two_way_1k : _args :=
  { config 1 4 2 RR with
    num_blocks := 256, num_rows := 128, index_size := 7, offset_size := 2, tag_size := 23,
    overhead_size := 768, mem_size_bytes := 1792 }

/-- Four instruction fetches of 4 bytes whose addresses share index value 0 and differ
in the tag: `00000000`, `00000200`, `00000400`, `00000600`. -/
def same_row_accesses : List Access :=
  [⟨['0', '0', '0', '0', '0', '0', '0', '0'], 4, true⟩,
   ⟨['0', '0', '0', '0', '0', '2', '0', '0'], 4, true⟩,
   ⟨['0', '0', '0', '0', '0', '4', '0', '0'], 4, true⟩,
   ⟨['0', '0', '0', '0', '0', '6', '0', '0'], 4, true⟩]

/-- The policy branch of `parse_args` (lines 513-517): the enum value stored for the
value of `-r`, or `none` where `argument_error` is called. -/
def parse_policy (arg : List Char) : Option Int :=
  if arg = "RR".toList then some RR
  else if arg = "RND".toList then some RND
  else if arg = "LRU".toList then some LRU
  else none

/-- The state `s` with `replacement_policy` set to `p`. -/
def with_policy (p : Int) (s : State) : State :=
  { s with args := { s.args with replacement_policy := p } }

/-- A run result with `replacement_policy` set to `p` in the state it carries. -/
def result_with_policy (p : Int) : Except Fault State → Except Fault State
  | .ok s => .ok (with_policy p s)
  | .error (.exit c s) => .error (.exit c (with_policy p s))
  | .error .undefined => .error .undefined

/-- No event of the history is a conflict miss. -/
def no_conflict (log : List Event) : Prop :=
  ∀ e ∈ log, ∀ off, e.kind ≠ .conflict off

/-- The state `b` comes after the state `a` in a run: no conflict miss has been
uncounted and the history of `b` extends the history of `a`. -/
def grows (a b : State) : Prop :=
  a.args.conflict_misses ≤ b.args.conflict_misses ∧ ∃ post, b.log = post ++ a.log

/-- How a run `L` under `LRU` relates to the run `R` of the same steps under `RR`, where
`c0` is the number of conflict misses counted before.  Either `L` stopped in the `LRU`
branch of the `switch` with exactly one more conflict counted and no conflict in its
history, and then every state `R` ends in has counted a conflict and has a history that
continues the history of `L` with a conflict miss; or `R` counted no conflict (and kept
its policy) and `L` is `R` up to the policy field. -/
def lru_sim (c0 : Int) (L R : Except Fault State) : Prop :=
  (∃ s, L = .error (.exit .lru_not_implemented s) ∧ s.args.conflict_misses = c0 + 1 ∧
    no_conflict s.log ∧
    ∀ sR, final_state R = some sR → c0 < sR.args.conflict_misses ∧
      ∃ post e off, sR.log = post ++ e :: s.log ∧ e.kind = .conflict off) ∨
  (L = result_with_policy LRU R ∧
    ∀ s, final_state R = some s → s.args.conflict_misses = c0 ∧
      s.args.replacement_policy = RR ∧ no_conflict s.log)

/-- A trace of two instruction fetches whose addresses share the index 217 and differ in
the tag: on the direct-mapped cache the second is a conflict miss. -/
def conflict_trace : List (List Char) :=
  ["EIP (04): 7c809764 83 60 34 00 \n", "EIP (04): 7c809b64 83 60 34 00 \n"].map String.toList

/-- Line 193: `args->cpu_cycle++`. -/
def tick (s : State) : State :=
  { s with args := { s.args with cpu_cycle := s.args.cpu_cycle + 1 } }

/-- Lines 331-335: the cycles charged after the cache-access loop, and the instruction
count of an instruction fetch. -/
def retire (is_eip : Bool) (s : State) : State :=
  if is_eip then
    { s with args := { s.args with
        cpi_cycles := wrap32 (s.args.cpi_cycles + 2)
        num_instructions := wrap32 (s.args.num_instructions + 1) } }
  else
    { s with args := { s.args with cpi_cycles := wrap32 (s.args.cpi_cycles + 1) } }

/-- Lines 385, 394 and 405: `args->total_addresses++`. -/
def count_address (s : State) : State :=
  { s with args := { s.args with total_addresses := s.args.total_addresses + 1 } }

/-- An instruction-fetch line of a trace: width `04`, address `7c809764`. -/
def example_line : List Char := "EIP (04): 7c809764 83 60 34 00 \n".toList

/-- The cycles one cache access charges to `cpi_cycles`: 1 on a hit (line 260),
`4 * (block_size / 4)` on a miss (line 268). -/
def access_cost (args : _args) (k : Kind) : Int :=
  match k with
  | .hit _ => 1
  | _ => 4 * Int.tdiv args.block_size 4

/-- The cycles charged by a list of recorded cache accesses. -/
def log_cost (args : _args) (events : List Event) : Int :=
  (events.map (fun e => access_cost args e.kind)).sum

/-- Two argument structures that agree on everything except the six statistics a cache
access updates: `total_cache_accesses`, `cache_hits`, `cache_misses`,
`compulsory_misses`, `conflict_misses` and `cpi_cycles`. -/
def access_frame (a b : _args) : Prop :=
  b = { a with
    total_cache_accesses := b.total_cache_accesses, cache_hits := b.cache_hits,
    cache_misses := b.cache_misses, compulsory_misses := b.compulsory_misses,
    conflict_misses := b.conflict_misses, cpi_cycles := b.cpi_cycles }

/-- An address field whose last character is not a hexadecimal digit. -/
def malformed_address : List Char := "7c80976g".toList

/-- The contribution of one cache access to `cache_hits`: 1 on a hit (line 259), 0 on a
miss; a miss contributes `1 - hit_delta` to `cache_misses` (lines 280 and 289). -/
def hit_delta (k : Kind) : Int :=
  match k with
  | .hit _ => 1
  | _ => 0

/-- An address whose offset is 2 under 4-byte blocks: a 4-byte access at it ends in the
next block. -/
def spanning_address : List Char := "7c809766".toList

/-- The operand field `00000000` that lines 390 and 401 compare with: no operand. -/
def no_operand : List Char := List.replicate 8 '0'

/-- A memory-operand line of a trace with no destination and the source `0012f9a8`. -/
def operand_line : List Char :=
  "dstM: 00000000 --------    srcM: 0012f9a8 7c809767    \n".toList

/-- A complete trace record, as `fgets` delivers it: a line without a NUL that is blank
(at most 5 characters, skipped by line 373), or an instruction-fetch line reaching to the
end of its address at columns 10-17, or a memory-operand line reaching to the end of its
source address at columns 33-40; the address fields are lower-case hexadecimal. -/
def complete_record (line : List Char) : Prop :=
  NUL ∉ line ∧
  (line.length ≤ 5 ∨
   (line.take 3 = ['E', 'I', 'P'] ∧ 18 ≤ line.length ∧
      ∀ c ∈ (line.drop 10).take 8, c ∈ lower_hex_digits) ∨
   (line.take 3 ≠ ['E', 'I', 'P'] ∧ 41 ≤ line.length ∧
      (∀ c ∈ (line.drop 6).take 8, c ∈ lower_hex_digits) ∧
      ∀ c ∈ (line.drop 33).take 8, c ∈ lower_hex_digits))

instance (line : List Char) : Decidable (complete_record line) := by
  unfold complete_record; infer_instance

/-- The closed form of the cycle counter: `cpi_cycles` is, modulo `2^32`, one cycle per
hit, `4 * (block_size / 4)` per miss, two per instruction and one per other address. -/
def cycle_closed_form (a : _args) : Prop :=
  (a.cpi_cycles : Int) % 4294967296 =
    (a.cache_hits + a.cache_misses * (4 * Int.tdiv a.block_size 4) +
      2 * (a.num_instructions : Int) + (a.total_addresses - (a.num_instructions : Int))) %
      4294967296

/-- The counters of the closed form are all zero. -/
def zeroed (a : _args) : Prop :=
  a.cpi_cycles = 0 ∧ a.cache_hits = 0 ∧ a.cache_misses = 0 ∧ a.num_instructions = 0 ∧
  a.total_addresses = 0

instance (a : _args) : Decidable (zeroed a) := by
  unfold zeroed; infer_instance

/-- A short trace: an instruction fetch, a blank line, and a memory-operand line with
no destination. -/
def example_trace : List (List Char) := [example_line, ['\n'], operand_line]

/-- The number of blocks with `valid == 1`. -/
def num_blocks_valid (cache : List block) : Int :=
  ((cache.filter (fun b => b.valid = 1)).length : Nat)

/-- The blocks that line 417-421 would count as unused and the compulsory misses
together account for every block of the cache, in a state satisfying the run invariant. -/
def blocks_accounted (g : _args) (s : State) : Prop :=
  Inv g s ∧
  num_blocks_wasted s.cache + s.args.compulsory_misses = g.num_blocks + g.compulsory_misses

/-! ## `parse_args` -/

/-- How `parse_args` can end other than by returning: `argument_error` (the usage
message and `exit(1)`, lines 529-532), or undefined behaviour (the `strcpy` of line 500
with a file name that does not fit `trace_file[64]`). -/
inductive ArgFault where
  | usage
  | undefined
deriving DecidableEq

/-- The local variables of `parse_args` (lines 468-469; the `int` flags hold only 0 and 1)
together with the structure being filled and the content of its `trace_file` buffer. -/
structure ParseState where
  args : _args
  trace_file : List Char
  num_filled : Int
  hit_f : Bool
  hit_s : Bool
  hit_b : Bool
  hit_a : Bool
  hit_r : Bool
  hit_any : Bool

/-- Lines 498-519: the value `arg` is stored for the flag that was hit. -/
def assign_value (p : ParseState) (arg : List Char) : Except ArgFault ParseState :=
  if p.hit_f then
    if arg.length < 64 then .ok { p with trace_file := arg } else .error .undefined
  else if p.hit_s then
    if atoi arg < 1 ∨ atoi arg > 8192 then .error .usage
    else .ok { p with args := { p.args with cache_size := atoi arg } }
  else if p.hit_b then
    if atoi arg < 4 ∨ atoi arg > 64 then .error .usage
    else .ok { p with args := { p.args with block_size := atoi arg } }
  else if p.hit_a then
    if atoi arg ≠ 1 ∧ atoi arg ≠ 2 ∧ atoi arg ≠ 4 ∧ atoi arg ≠ 8 ∧ atoi arg ≠ 16 then
      .error .usage
    else .ok { p with args := { p.args with associativity := atoi arg } }
  else if p.hit_r then
    match parse_policy arg with
    | some v => .ok { p with args := { p.args with replacement_policy := v } }
    | none => .error .usage
  else .error .usage

/-- One iteration of the loop of lines 472-521, for the argument `arg`. -/
def parse_arg (p : ParseState) (arg : List Char) : Except ArgFault ParseState :=
  if arg = "-f".toList then
    if p.hit_any then .error .usage else .ok { p with hit_f := true, hit_any := true }
  else if arg = "-s".toList then
    if p.hit_any then .error .usage else .ok { p with hit_s := true, hit_any := true }
  else if arg = "-b".toList then
    if p.hit_any then .error .usage else .ok { p with hit_b := true, hit_any := true }
  else if arg = "-a".toList then
    if p.hit_any then .error .usage else .ok { p with hit_a := true, hit_any := true }
  else if arg = "-r".toList then
    if p.hit_any then .error .usage else .ok { p with hit_r := true, hit_any := true }
  else if p.hit_any then
    match assign_value { p with num_filled := p.num_filled + 1 } arg with
    | .error e => .error e
    | .ok q =>
      .ok { q with
        hit_f := false, hit_s := false, hit_b := false, hit_a := false, hit_r := false,
        hit_any := false }
  else .error .usage

/-- The loop of lines 472-521 over the arguments after `argv[0]`. -/
def parse_loop : List (List Char) → ParseState → Except ArgFault ParseState
  | [], p => .ok p
  | arg :: rest, p =>
    match parse_arg p arg with
    | .error e => .error e
    | .ok q => parse_loop rest q

/-- `parse_args` (lines 466-523) on the argument vector `argv`, filling the structure
`args` whose `trace_file` buffer holds `trace_file`: the structure and the buffer at the
return. -/
def parse_args (args : _args) (trace_file : List Char) (argv : List (List Char)) :
    Except ArgFault (_args × List Char) :=
  match parse_loop (argv.drop 1)
      { args := args, trace_file := trace_file, num_filled := 0, hit_f := false,
        hit_s := false, hit_b := false, hit_a := false, hit_r := false, hit_any := false } with
  | .error e => .error e
  | .ok p => if p.num_filled ≠ 5 then .error .usage else .ok (p.args, p.trace_file)

/-- The five flags of `parse_args`. -/
def is_flag (arg : List Char) : Prop :=
  arg = "-f".toList ∨ arg = "-s".toList ∨ arg = "-b".toList ∨ arg = "-a".toList ∨
  arg = "-r".toList

instance (arg : List Char) : Decidable (is_flag arg) := by
  unfold is_flag; infer_instance

/-- A value that `parse_args` stores for the flag `flag`: not itself a flag, and within
the bounds checked for that flag (for `-f`, short enough for the `trace_file` buffer). -/
def value_ok (flag value : List Char) : Prop :=
  ¬ is_flag value ∧
  (flag = "-f".toList → value.length < 64) ∧
  (flag = "-s".toList → 1 ≤ atoi value ∧ atoi value ≤ 8192) ∧
  (flag = "-b".toList → 4 ≤ atoi value ∧ atoi value ≤ 64) ∧
  (flag = "-a".toList → atoi value = 1 ∨ atoi value = 2 ∨ atoi value = 4 ∨ atoi value = 8 ∨
    atoi value = 16) ∧
  (flag = "-r".toList → value = "RR".toList ∨ value = "RND".toList ∨ value = "LRU".toList)

instance (flag value : List Char) : Decidable (value_ok flag value) := by
  unfold value_ok; infer_instance

/-- A list of `n` flag/value pairs, each value good for its flag, followed by nothing or
by one more flag. -/
def flag_value_pairs : Nat → List (List Char) → Prop
  | 0, rest => rest = [] ∨ ∃ flag, is_flag flag ∧ rest = [flag]
  | n + 1, flag :: value :: rest =>
    is_flag flag ∧ value_ok flag value ∧ flag_value_pairs n rest
  | _ + 1, _ => False

/-- The command line `sim -s 1 -s 2 -s 3 -s 4 -s 5`: one flag five times, the other four
flags missing. -/
def repeated_flag_argv : List (List Char) :=
  ["sim", "-s", "1", "-s", "2", "-s", "3", "-s", "4", "-s", "5"].map String.toList

/-- A command line with each of the five flags once. -/
def five_flags_argv : List (List Char) :=
  ["sim", "-f", "trace.trc", "-s", "1", "-b", "4", "-a", "1", "-r", "RR"].map String.toList

/-- A command line whose cache size, `4294967297`, is beyond the range of `int`: `atoi`
returns 1 for it. -/
def wrapped_size_argv : List (List Char) :=
  ["sim", "-f", "trace.trc", "-s", "4294967297", "-b", "4", "-a", "1", "-r",
    "RR"].map String.toList

/-- No flag is waiting for its value (`hit_any == 0` and every `hit_` flag 0). -/
def no_flag_hit (p : ParseState) : Prop :=
  p.hit_f = false ∧ p.hit_s = false ∧ p.hit_b = false ∧ p.hit_a = false ∧ p.hit_r = false ∧
  p.hit_any = false

/-- The flag `flag` is waiting for its value: `hit_any == 1` and of the five `hit_`
flags exactly the one of `flag` is 1. -/
def flag_hit (flag : List Char) (p : ParseState) : Prop :=
  p.hit_any = true ∧ p.hit_f = decide (flag = "-f".toList) ∧
  p.hit_s = decide (flag = "-s".toList) ∧ p.hit_b = decide (flag = "-b".toList) ∧
  p.hit_a = decide (flag = "-a".toList) ∧ p.hit_r = decide (flag = "-r".toList)

/-- An instruction-fetch line of width `00` at an address with offset 0. -/
def zero_width_line : List Char := "EIP (00): 7c809764 \n".toList

/-- What the processing of one present operand `address` has done between the states `s`
and `r`: the address was converted and decoded, its sub-accesses, 4 bytes from its
offset on (at least one), were made and recorded in order, the `k`-th with the decoded
tag against index value `index_value + k`; `total_cache_accesses` has grown by their
number, `cpi_cycles` by their costs plus 1; the clock `cpu_cycle` has advanced by 1;
`total_addresses` has grown by 1 and `num_instructions` is unchanged. -/
def operand_processed (s r : State) (address : List Char) : Prop :=
  ∃ bin events, hex2bin address = some bin ∧ r.log = events ++ s.log ∧
    events.length = (num_overruns s.args (decode s.args bin).2.2.2 4).toNat ∧
    (0 < s.args.block_size → 1 ≤ events.length) ∧
    (∀ k, k < events.length → ∃ ev, events.reverse[k]? = some ev ∧
      ev.tag = (decode s.args bin).1 ∧ ev.idx = (decode s.args bin).2.2.1 + (k : Int) ∧
      ev.row = Int.tmod (((decode s.args bin).2.2.1 + (k : Int)) * s.args.associativity)
        s.args.num_blocks) ∧
    r.args.total_cache_accesses = s.args.total_cache_accesses + (events.length : Int) ∧
    r.args.cpi_cycles = wrap32 (s.args.cpi_cycles +
      (r.args.cache_hits - s.args.cache_hits) +
      (r.args.cache_misses - s.args.cache_misses) * (4 * Int.tdiv s.args.block_size 4) + 1) ∧
    r.args.cpu_cycle = s.args.cpu_cycle + 1 ∧
    r.args.total_addresses = s.args.total_addresses + 1 ∧
    r.args.num_instructions = s.args.num_instructions

/-! # Verified properties -/

theorem Log2_eq_some {n : Int} (h : 1 ≤ n) : Log2 n = some ((Nat.log 2 n.toNat : Nat) : Int) := by
  simp [Log2, h]

/-- Characterisation of the value of `Log2` as a floor logarithm. -/
theorem Log2_spec {n k : Int} (h : Log2 n = some k) :
    ∃ e : Nat, k = e ∧ (2 : Int) ^ e ≤ n ∧ n < (2 : Int) ^ (e + 1) := by
  unfold Log2 at h
  split at h
  · rename_i hn
    simp at h
    refine ⟨Nat.log 2 n.toNat, h.symm, ?_, ?_⟩
    · have h1 : 2 ^ Nat.log 2 n.toNat ≤ n.toNat := Nat.pow_log_le_self 2 (by omega)
      have h2 : ((2 ^ Nat.log 2 n.toNat : Nat) : Int) ≤ (n.toNat : Int) := by exact_mod_cast h1
      have h3 : (n.toNat : Int) = n := Int.toNat_of_nonneg (by omega)
      rw [h3] at h2
      exact_mod_cast h2
    · have h1 : n.toNat < 2 ^ (Nat.log 2 n.toNat + 1) := Nat.lt_pow_succ_log_self (by decide) _
      have h2 : (n.toNat : Int) < ((2 ^ (Nat.log 2 n.toNat + 1) : Nat) : Int) := by exact_mod_cast h1
      have h3 : (n.toNat : Int) = n := Int.toNat_of_nonneg (by omega)
      rw [h3] at h2
      exact_mod_cast h2
  · simp at h

theorem validated_num_blocks {args : _args} (h : validated args) :
    Int.tdiv (args.cache_size * 1024) args.block_size = args.cache_size * 1024 / args.block_size ∧
    16 ≤ args.cache_size * 1024 / args.block_size := by
  obtain ⟨⟨h1, h2⟩, ⟨h3, h4⟩, _⟩ := h
  refine ⟨Int.tdiv_eq_ediv (by omega) (by omega), ?_⟩
  rw [Int.le_ediv_iff_mul_le (by omega)]
  omega

theorem validated_num_rows {args : _args} (h : validated args) :
    Int.tdiv (args.cache_size * 1024 / args.block_size) args.associativity =
      args.cache_size * 1024 / args.block_size / args.associativity ∧
    1 ≤ args.cache_size * 1024 / args.block_size / args.associativity := by
  have hb := (validated_num_blocks h).2
  obtain ⟨_, _, ha⟩ := h
  refine ⟨Int.tdiv_eq_ediv (by omega) (by omega), ?_⟩
  rcases ha with ha | ha | ha | ha | ha <;> rw [ha] <;> omega

theorem pow_two_le_imp_lt {e : Nat} {n : Int} {m : Nat} (h : (2 : Int) ^ e ≤ n) (hn : n < 2 ^ m) :
    e < m := by
  by_contra hc
  have h1 : (2 : Int) ^ m ≤ 2 ^ e := pow_le_pow_right₀ (by norm_num) (by omega)
  omega

/-- On a validated configuration `calculate_cache` is defined; its result in closed form,
with `o` and `i` the floor base-2 logarithms of `block_size` and `num_rows`. -/
theorem calculate_cache_validated (args : _args) (h : validated args) :
    ∃ (o i : Nat), (2 : Int) ^ o ≤ args.block_size ∧ args.block_size < 2 ^ (o + 1) ∧
      (2 : Int) ^ i ≤ args.cache_size * 1024 / args.block_size / args.associativity ∧
      args.cache_size * 1024 / args.block_size / args.associativity < 2 ^ (i + 1) ∧
      calculate_cache args = some { args with
        num_blocks := args.cache_size * 1024 / args.block_size
        num_rows := args.cache_size * 1024 / args.block_size / args.associativity
        index_size := i
        offset_size := o
        tag_size := 32 - i - o
        overhead_size :=
          args.cache_size * 1024 / args.block_size * (32 - (i : Int) - (o : Int) + 1) / 8
        mem_size_bytes := args.cache_size * 1024 +
          args.cache_size * 1024 / args.block_size * (32 - (i : Int) - (o : Int) + 1) / 8
        cpu_cycle := 0 } := by
  obtain ⟨hnb, hnb16⟩ := validated_num_blocks h
  obtain ⟨hnr, hnr1⟩ := validated_num_rows h
  have hv := h
  obtain ⟨⟨hc1, hc2⟩, ⟨hb1, hb2⟩, ha⟩ := hv
  have hbs : 1 ≤ args.block_size := by omega
  have hL1 := Log2_eq_some hnr1
  have hL2 := Log2_eq_some hbs
  obtain ⟨i, hi, hi1, hi2⟩ := Log2_spec hL1
  obtain ⟨o, ho, ho1, ho2⟩ := Log2_spec hL2
  have hnb_le : args.cache_size * 1024 / args.block_size < 2 ^ 22 :=
    Int.ediv_lt_of_lt_mul (by omega) (by omega)
  have hnr_le : args.cache_size * 1024 / args.block_size / args.associativity < 2 ^ 22 := by
    have : args.cache_size * 1024 / args.block_size / args.associativity ≤
        args.cache_size * 1024 / args.block_size := Int.ediv_le_self _ (by omega)
    omega
  have hi22 : i < 22 := pow_two_le_imp_lt hi1 hnr_le
  have ho7 : o < 7 := pow_two_le_imp_lt ho1 (by norm_num; omega)
  have hov : Int.tdiv (args.cache_size * 1024 / args.block_size * (32 - (i : Int) - (o : Int) + 1)) 8 =
      args.cache_size * 1024 / args.block_size * (32 - (i : Int) - (o : Int) + 1) / 8 :=
    Int.tdiv_eq_ediv (mul_nonneg (by omega) (by omega)) (by norm_num)
  have hb0 : args.block_size ≠ 0 := by omega
  have ha0 : args.associativity ≠ 0 := by omega
  have hcalc : calculate_cache args = some { args with
      num_blocks := args.cache_size * 1024 / args.block_size
      num_rows := args.cache_size * 1024 / args.block_size / args.associativity
      index_size := i
      offset_size := o
      tag_size := 32 - i - o
      overhead_size := args.cache_size * 1024 / args.block_size * (32 - (i : Int) - (o : Int) + 1) / 8
      mem_size_bytes := args.cache_size * 1024 +
        args.cache_size * 1024 / args.block_size * (32 - (i : Int) - (o : Int) + 1) / 8
      cpu_cycle := 0 } := by
    simp only [calculate_cache, hb0, ha0, if_false, hnb, hnr, hL1, hL2, hi, ho, hov]
  exact ⟨o, i, ho1, ho2, hi1, hi2, hcalc⟩

/-- C2: for every validated configuration `calculate_cache` is defined and implements the
geometry formulas: `num_blocks = cache_size*1024 / block_size`, `num_rows = num_blocks /
associativity`, `offset_size` and `index_size` are the floor base-2 logarithms of
`block_size` and `num_rows`, `tag_size = 32 - index_size - offset_size`, `overhead_size =
num_blocks*(tag_size+1)/8`, `mem_size_bytes = cache_size*1024 + overhead_size`; and the
configuration 1 KB / 4 bytes / direct-mapped yields 256 blocks, 256 rows, offset 2,
index 8, tag 22. -/
theorem calculate_cache_formulas (args : _args) (h : validated args) :
    ∃ (g : _args) (o i : Nat), calculate_cache args = some g ∧
      g.num_blocks = args.cache_size * 1024 / args.block_size ∧
      g.num_rows = g.num_blocks / args.associativity ∧
      g.offset_size = o ∧ (2 : Int) ^ o ≤ args.block_size ∧ args.block_size < 2 ^ (o + 1) ∧
      g.index_size = i ∧ (2 : Int) ^ i ≤ g.num_rows ∧ g.num_rows < 2 ^ (i + 1) ∧
      g.tag_size = 32 - g.index_size - g.offset_size ∧
      g.overhead_size = g.num_blocks * (g.tag_size + 1) / 8 ∧
      g.mem_size_bytes = args.cache_size * 1024 + g.overhead_size ∧
      (args.cache_size = 1 → args.block_size = 4 → args.associativity = 1 →
        g.num_blocks = 256 ∧ g.num_rows = 256 ∧ g.offset_size = 2 ∧ g.index_size = 8 ∧
        g.tag_size = 22) := by
  obtain ⟨o, i, ho1, ho2, hi1, hi2, hcalc⟩ := calculate_cache_validated args h
  refine ⟨_, o, i, hcalc, ?_⟩
  · refine ⟨rfl, rfl, rfl, ho1, ho2, rfl, hi1, hi2, rfl, rfl, rfl, ?_⟩
    · intro e1 e2 e3
      simp only [e1, e2, e3] at hi1 hi2 ho1 ho2 ⊢
      norm_num at hi1 hi2 ho1 ho2 ⊢
      have hi8 : i = 8 := by
        have a1 : i < 9 := pow_two_le_imp_lt hi1 (by norm_num)
        have a2 : 7 < i := by
          by_contra hc
          have : (2 : Int) ^ (i + 1) ≤ 2 ^ 8 := pow_le_pow_right₀ (by norm_num) (by omega)
          omega
        omega
      have ho2 : o = 2 := by
        have a1 : o < 3 := pow_two_le_imp_lt ho1 (by norm_num)
        have a2 : 1 < o := by
          by_contra hc
          have : (2 : Int) ^ (o + 1) ≤ 2 ^ 2 := pow_le_pow_right₀ (by norm_num) (by omega)
          omega
        omega
      subst hi8 ho2
      omega

/-- C3: whenever `calculate_cache` is defined on a configuration (any integers at all),
the geometry it yields satisfies `tag_size + index_size + offset_size = 32`; and it is
defined on every validated configuration. -/
theorem calculate_cache_field_sum (args : _args) :
    (∀ g, calculate_cache args = some g → g.tag_size + g.index_size + g.offset_size = 32) ∧
    (validated args → ∃ g, calculate_cache args = some g) := by
  constructor
  · intro g hg
    unfold calculate_cache at hg
    split at hg
    · simp at hg
    · split at hg
      · simp at hg
      · simp only at hg
        split at hg
        · simp only [Option.some.injEq] at hg
          subst hg
          simp only
          omega
        · simp at hg
  · intro h
    obtain ⟨o, i, -, -, -, -, hg⟩ := calculate_cache_validated args h
    exact ⟨_, hg⟩

/-- An integer written as `T * 2^(i+o) + I * 2^o + O` with `I < 2^i`, `O < 2^o` has
quotient and remainder fields `T`, `I`, `O`. -/
theorem bit_fields_unique (a T I O : Int) (i o : Nat) (ha : T * 2 ^ (i + o) + I * 2 ^ o + O = a)
    (hI : 0 ≤ I ∧ I < 2 ^ i) (hO : 0 ≤ O ∧ O < 2 ^ o) :
    T = a / 2 ^ (i + o) ∧ I = a / 2 ^ o % 2 ^ i ∧ O = a % 2 ^ o := by
  have po : (0 : Int) < 2 ^ o := by positivity
  have pi : (0 : Int) < 2 ^ i := by positivity
  have pio : (0 : Int) < 2 ^ (i + o) := by positivity
  have e1 : (2 : Int) ^ (i + o) = 2 ^ i * 2 ^ o := pow_add 2 i o
  have h1 : a / 2 ^ o = T * 2 ^ i + I ∧ a % 2 ^ o = O := by
    rw [Int.ediv_emod_unique po]
    refine ⟨?_, hO.1, hO.2⟩
    rw [← ha, e1]; ring
  have h2 : (T * 2 ^ i + I) / 2 ^ i = T ∧ (T * 2 ^ i + I) % 2 ^ i = I := by
    rw [Int.ediv_emod_unique pi]
    refine ⟨by ring, hI.1, hI.2⟩
  have h3 : a / 2 ^ (i + o) = T ∧ a % 2 ^ (i + o) = I * 2 ^ o + O := by
    rw [Int.ediv_emod_unique pio]
    refine ⟨?_, ?_, ?_⟩
    · rw [← ha]; ring
    · have := mul_nonneg hI.1 po.le
      omega
    · rw [e1]
      have : (I + 1) * 2 ^ o ≤ 2 ^ i * 2 ^ o := mul_le_mul_of_nonneg_right (by omega) po.le
      nlinarith
  refine ⟨h3.1.symm, ?_, h1.2.symm⟩
  rw [h1.1, h2.2]

theorem hex_digit_lower {c : Char} (h : c ∈ lower_hex_digits) :
    ∃ page, hex_digit c = some page ∧ page.length = 4 ∧
      to_decimal page = (hex_digit_value c : Int) := by
  simp only [lower_hex_digits] at h
  simp at h
  rcases h with h | h | h | h | h | h | h | h | h | h | h | h | h | h | h | h <;> subst h <;>
    exact ⟨_, rfl, by decide, by decide⟩

theorem hex_digit_none {c : Char} (h : c ∉ lower_hex_digits) : hex_digit c = none := by
  simp only [lower_hex_digits] at h
  simp at h
  obtain ⟨h0, h1, h2, h3, h4, h5, h6, h7, h8, h9, ha, hb, hc, hd, he, hf⟩ := h
  simp [hex_digit, *]

theorem hex2bin_loop_cons (c : Char) (cs : List Char) (n i : Nat) :
    hex2bin_loop (c :: cs) n (i + 1) = hex2bin_loop cs n i := by
  induction n generalizing i with
  | zero => rfl
  | succ n ih => simp only [hex2bin_loop, List.getD_cons_succ, ih]

theorem hex2bin_loop_nil (n i : Nat) : hex2bin_loop [] (n + 1) i = none := by
  have : hex_digit (Char.ofNat 0) = none := by decide
  simp [hex2bin_loop, this]

theorem to_decimal_loop_shift (cs : List Char) (e : Nat) (v : Int) :
    to_decimal_loop cs e v = v + 2 ^ e * to_decimal_loop cs 0 0 := by
  induction cs generalizing e v with
  | nil => simp [to_decimal_loop]
  | cons c cs ih =>
    simp only [to_decimal_loop]
    rw [ih (e + 1), ih (0 + 1)]
    split <;> ring

theorem to_decimal_loop_append (xs ys : List Char) (e : Nat) (v : Int) :
    to_decimal_loop (xs ++ ys) e v = to_decimal_loop ys (e + xs.length) (to_decimal_loop xs e v) := by
  induction xs generalizing e v with
  | nil => simp [to_decimal_loop]
  | cons c cs ih =>
    have : e + 1 + cs.length = e + (cs.length + 1) := by omega
    simp only [List.cons_append, to_decimal_loop, List.length_cons]
    show to_decimal_loop (cs ++ ys) _ _ = _
    rw [ih, this]

theorem to_decimal_append (xs ys : List Char) :
    to_decimal (xs ++ ys) = to_decimal xs * 2 ^ ys.length + to_decimal ys := by
  simp only [to_decimal, List.reverse_append, to_decimal_loop_append, List.length_reverse,
    Nat.zero_add]
  rw [to_decimal_loop_shift]
  ring

theorem to_decimal_loop_bounds (cs : List Char) :
    0 ≤ to_decimal_loop cs 0 0 ∧ to_decimal_loop cs 0 0 < 2 ^ cs.length := by
  induction cs with
  | nil => simp [to_decimal_loop]
  | cons c cs ih =>
    simp only [to_decimal_loop, List.length_cons]
    rw [to_decimal_loop_shift]
    have : (2 : Int) ^ (cs.length + 1) = 2 * 2 ^ cs.length := by ring
    rw [this]
    split <;> simp <;> omega

theorem to_decimal_bounds (xs : List Char) :
    0 ≤ to_decimal xs ∧ to_decimal xs < 2 ^ xs.length := by
  have := to_decimal_loop_bounds xs.reverse
  simpa [to_decimal] using this

theorem hex_value_foldl (cs : List Char) (acc : Nat) :
    cs.foldl (fun acc c => 16 * acc + hex_digit_value c) acc =
      acc * 16 ^ cs.length + hex_value cs := by
  induction cs generalizing acc with
  | nil => simp [hex_value]
  | cons c cs ih =>
    simp only [List.foldl_cons, hex_value, List.length_cons]
    rw [ih, ih (16 * 0 + hex_digit_value c)]
    ring

theorem hex_value_cons (c : Char) (cs : List Char) :
    hex_value (c :: cs) = hex_digit_value c * 16 ^ cs.length + hex_value cs := by
  simp only [hex_value, List.foldl_cons]
  rw [hex_value_foldl]
  simp [hex_value]

/-- On a string of `n` lower-case hexadecimal digits the loop of `hex2bin` succeeds with
`4 * n` binary digits of the same value. -/
theorem hex2bin_loop_lower (address : List Char) (h : ∀ c ∈ address, c ∈ lower_hex_digits) :
    ∃ bin, hex2bin_loop address address.length 0 = some bin ∧ bin.length = 4 * address.length ∧
      to_decimal bin = (hex_value address : Int) := by
  induction address with
  | nil => exact ⟨[], rfl, rfl, by decide⟩
  | cons c cs ih =>
    obtain ⟨page, hp, hpl, hpv⟩ := hex_digit_lower (h c (List.mem_cons_self _ _))
    obtain ⟨rest, hr, hrl, hrv⟩ := ih (fun d hd => h d (List.mem_cons_of_mem _ hd))
    refine ⟨page ++ rest, ?_, ?_, ?_⟩
    · simp only [List.length_cons, hex2bin_loop, List.getD_cons_zero, hp, hex2bin_loop_cons, hr]
    · simp only [List.length_append, hpl, hrl, List.length_cons]; omega
    · rw [to_decimal_append, hpv, hrv, hrl, hex_value_cons]
      push_cast
      rw [pow_mul]
      norm_num

/-- On a string with a character outside `0-9a-f` among its first `n` the loop of
`hex2bin` takes the `default` branch. -/
theorem hex2bin_loop_bad (address : List Char) (n : Nat) (hn : n = address.length)
    (h : ∃ c ∈ address, c ∉ lower_hex_digits) : hex2bin_loop address n 0 = none := by
  induction address generalizing n with
  | nil => simp at h
  | cons c cs ih =>
    subst hn
    simp only [List.length_cons, hex2bin_loop, List.getD_cons_zero, hex2bin_loop_cons]
    by_cases hc : c ∈ lower_hex_digits
    · obtain ⟨d, hd, hdn⟩ := h
      have hd2 : d ∈ cs := by
        rcases List.mem_cons.mp hd with e | e
        · subst e; exact absurd hc hdn
        · exact e
      rw [ih cs.length rfl ⟨d, hd2, hdn⟩]
      split <;> rfl
    · rw [hex_digit_none hc]


/-- C4: for an address of 8 lower-case hexadecimal digits denoting `a` and a geometry
whose three field widths are non-negative, sum to 32 and have `tag_size ≤ 30`, `hex2bin`
succeeds and the values computed by the decoding part of `handle_address` are the bit
fields of `a`: `tag_value = a / 2^(index_size+offset_size)`, `index_value = (a /
2^offset_size) mod 2^index_size`, `offset_value = a mod 2^offset_size`; they recompose
to `a`, `index_value < 2^index_size`, `offset_value < 2^offset_size`, and `tag_value`
fits in an `int`. -/
theorem decode_bit_fields (args : _args) (address : List Char)
    (hlen : address.length = 8) (hhex : ∀ c ∈ address, c ∈ lower_hex_digits)
    (hnn : 0 ≤ args.tag_size ∧ 0 ≤ args.index_size ∧ 0 ≤ args.offset_size)
    (hsum : args.tag_size + args.index_size + args.offset_size = 32)
    (htag : args.tag_size ≤ 30) :
    ∃ bin, hex2bin address = some bin ∧
      (decode args bin).1 = bin.take args.tag_size.toNat ∧
      (decode args bin).2.1 =
        (hex_value address : Int) / 2 ^ (args.index_size + args.offset_size).toNat ∧
      (decode args bin).2.2.1 =
        (hex_value address : Int) / 2 ^ args.offset_size.toNat % 2 ^ args.index_size.toNat ∧
      (decode args bin).2.2.2 = (hex_value address : Int) % 2 ^ args.offset_size.toNat ∧
      (decode args bin).2.1 * 2 ^ (args.index_size + args.offset_size).toNat +
        (decode args bin).2.2.1 * 2 ^ args.offset_size.toNat + (decode args bin).2.2.2 =
        (hex_value address : Int) ∧
      (0 ≤ (decode args bin).2.2.1 ∧ (decode args bin).2.2.1 < 2 ^ args.index_size.toNat) ∧
      (0 ≤ (decode args bin).2.2.2 ∧ (decode args bin).2.2.2 < 2 ^ args.offset_size.toNat) ∧
      (0 ≤ (decode args bin).2.1 ∧ (decode args bin).2.1 < 2 ^ 31) := by
  obtain ⟨bin, hbin, hbl, hbv⟩ := hex2bin_loop_lower address hhex
  rw [hlen] at hbin hbl
  obtain ⟨h0t, h0i, h0o⟩ := hnn
  have eio : (args.index_size + args.offset_size).toNat =
      args.index_size.toNat + args.offset_size.toNat := Int.toNat_add h0i h0o
  have eti : (args.tag_size + args.index_size).toNat =
      args.tag_size.toNat + args.index_size.toNat := Int.toNat_add h0t h0i
  have hsplit : bin = tag_field args bin ++ (index_field args bin ++ offset_field args bin) := by
    simp only [tag_field, index_field, offset_field, eti]
    rw [← List.drop_drop, List.take_append_drop, List.take_append_drop]
  have hli : (index_field args bin).length = args.index_size.toNat := by
    simp only [index_field, List.length_take, List.length_drop, hbl]; omega
  have hlo : (offset_field args bin).length = args.offset_size.toNat := by
    simp only [offset_field, List.length_drop, hbl]; omega
  have hlt : (tag_field args bin).length = args.tag_size.toNat := by
    simp only [tag_field, List.length_take, hbl]; omega
  have hval : to_decimal (tag_field args bin) * 2 ^ (args.index_size.toNat + args.offset_size.toNat)
      + to_decimal (index_field args bin) * 2 ^ args.offset_size.toNat
      + to_decimal (offset_field args bin) = (hex_value address : Int) := by
    rw [← hbv]
    conv_rhs => rw [hsplit]
    rw [to_decimal_append, to_decimal_append, List.length_append, hli, hlo]
    ring
  have bI := to_decimal_bounds (index_field args bin)
  have bO := to_decimal_bounds (offset_field args bin)
  have bT := to_decimal_bounds (tag_field args bin)
  rw [hli] at bI
  rw [hlo] at bO
  rw [hlt] at bT
  obtain ⟨f1, f2, f3⟩ := bit_fields_unique _ _ _ _ _ _ hval bI bO
  have hT31 : to_decimal (tag_field args bin) < 2 ^ 31 := by
    have : (2 : Int) ^ args.tag_size.toNat ≤ 2 ^ 31 := pow_le_pow_right₀ (by norm_num) (by omega)
    omega
  refine ⟨bin, hbin, rfl, ?_, ?_, ?_, ?_, bI, bO, bT.1, hT31⟩
  · simp only [decode, eio]; exact f1
  · simp only [decode]; exact f2
  · simp only [decode]; exact f3
  · simp only [decode, eio]; exact hval

theorem Log2_256 : Log2 256 = some 8 := by
  have h : Nat.log 2 256 = 8 := by simp [Nat.log]
  have := Log2_eq_some (n := 256) (by decide)
  rw [this]
  have e : (256 : Int).toNat = 256 := rfl
  rw [e, h]
  rfl

theorem Log2_4 : Log2 4 = some 2 := by
  have h : Nat.log 2 4 = 2 := by simp [Nat.log]
  have := Log2_eq_some (n := 4) (by decide)
  rw [this]
  have e : (4 : Int).toNat = 4 := rfl
  rw [e, h]
  rfl

theorem calculate_cache_direct_mapped_1k (p : Int) :
    calculate_cache (config 1 4 1 p) = some { direct_mapped_1k with replacement_policy := p } := by
  have e1 : Int.tdiv (1 * 1024) 4 = 256 := by decide
  have e2 : Int.tdiv 256 1 = 256 := by decide
  simp only [calculate_cache, config, e1, e2, Log2_256, Log2_4]
  rfl

theorem Log2_128 : Log2 128 = some 7 := by
  have h : Nat.log 2 128 = 7 := by simp [Nat.log]
  have := Log2_eq_some (n := 128) (by decide)
  rw [this]
  have e : (128 : Int).toNat = 128 := rfl
  rw [e, h]
  rfl

theorem calculate_cache_two_way_1k : calculate_cache (config 1 4 2 RR) = some two_way_1k := by
  have e1 : Int.tdiv (1 * 1024) 4 = 256 := by decide
  have e2 : Int.tdiv 256 2 = 128 := by decide
  simp only [calculate_cache, config, e1, e2, Log2_128, Log2_4]
  rfl

theorem calculate_cache_formulas_witness :
    validated (config 1 4 1 RR) ∧
      ∃ g, calculate_cache (config 1 4 1 RR) = some g ∧ g.num_blocks = 256 ∧ g.num_rows = 256 ∧
        g.offset_size = 2 ∧ g.index_size = 8 ∧ g.tag_size = 22 := by
  refine ⟨by decide, ?_⟩
  obtain ⟨g, o, i, hg, -, -, -, -, -, -, -, -, -, -, -, h3⟩ :=
    calculate_cache_formulas (config 1 4 1 RR) (by decide)
  exact ⟨g, hg, h3 rfl rfl rfl⟩

theorem calculate_cache_field_sum_witness :
    validated (config 8192 64 16 RND) ∧
      ∃ g, calculate_cache (config 8192 64 16 RND) = some g ∧
        g.tag_size + g.index_size + g.offset_size = 32 := by
  refine ⟨by decide, ?_⟩
  obtain ⟨g, hg⟩ := (calculate_cache_field_sum (config 8192 64 16 RND)).2 (by decide)
  exact ⟨g, hg, (calculate_cache_field_sum (config 8192 64 16 RND)).1 g hg⟩

theorem decode_bit_fields_witness :
    ∃ bin, hex2bin ['0', '0', '0', '0', 'a', 'b', 'c', 'd'] = some bin ∧
      (decode direct_mapped_1k bin).2.1 = 42 ∧ (decode direct_mapped_1k bin).2.2.1 = 243 ∧
      (decode direct_mapped_1k bin).2.2.2 = 1 := by
  obtain ⟨bin, h1, -, h2, h3, h4, -⟩ :=
    decode_bit_fields direct_mapped_1k ['0', '0', '0', '0', 'a', 'b', 'c', 'd'] rfl
      (by decide) (by decide) (by decide) (by decide)
  refine ⟨bin, h1, ?_, ?_, ?_⟩
  · rw [h2]; decide
  · rw [h3]; decide
  · rw [h4]; decide


theorem upper_not_lower {c : Char} (h : c ∈ upper_hex_letters) : c ∉ lower_hex_digits := by
  simp only [upper_hex_letters] at h
  simp at h
  rcases h with h | h | h | h | h | h <;> subst h <;> decide

theorem handle_address_bad_hex (rnd : Nat → Nat) (s : State) (address : List Char)
    (bytes_read : Int) (is_eip : Bool) (h : hex2bin address = none) :
    handle_address rnd s address bytes_read is_eip =
      .error (.exit .unknown_hex { s with args := { s.args with cpu_cycle := s.args.cpu_cycle + 1 } }) := by
  simp only [handle_address, h]

/-- C5 (counterexample): `hex2bin` rejects the address `0000ABCD` although it accepts
`0000abcd`, so upper-case digits are not decoded like their lower-case forms. -/
theorem hex2bin_upper_case_counterexample :
    hex2bin ['0', '0', '0', '0', 'A', 'B', 'C', 'D'] = none ∧
    hex2bin ['0', '0', '0', '0', 'a', 'b', 'c', 'd'] =
      some ['0', '0', '0', '0', '0', '0', '0', '0', '0', '0', '0', '0', '0', '0', '0', '0',
        '1', '0', '1', '0', '1', '0', '1', '1', '1', '1', '0', '0', '1', '1', '0', '1'] := by
  decide

/-- C5 (amended): hexadecimal digits are accepted in lower case only.  For every
8-character address made of `0-9`, `a-f`, `hex2bin` succeeds with a 32-character binary
string of the same value; for every 8-character address containing an upper-case letter
`A-F`, `hex2bin` takes its `default` branch and `handle_address` exits with the
unknown-hex error, having changed nothing but `cpu_cycle`. -/
theorem hex2bin_lower_case_only (address : List Char) (hlen : address.length = 8) :
    ((∀ c ∈ address, c ∈ lower_hex_digits) →
      ∃ bin, hex2bin address = some bin ∧ bin.length = 32 ∧
        to_decimal bin = (hex_value address : Int)) ∧
    ((∃ c ∈ address, c ∈ upper_hex_letters) →
      hex2bin address = none ∧
      ∀ (rnd : Nat → Nat) (s : State) (bytes_read : Int) (is_eip : Bool),
        handle_address rnd s address bytes_read is_eip =
          .error (.exit .unknown_hex
            { s with args := { s.args with cpu_cycle := s.args.cpu_cycle + 1 } })) := by
  constructor
  · intro h
    obtain ⟨bin, h1, h2, h3⟩ := hex2bin_loop_lower address h
    rw [hlen] at h1 h2
    exact ⟨bin, h1, h2, h3⟩
  · rintro ⟨c, hc, hu⟩
    have hn : hex2bin address = none :=
      hex2bin_loop_bad address 8 hlen.symm ⟨c, hc, upper_not_lower hu⟩
    exact ⟨hn, fun rnd s b e => handle_address_bad_hex rnd s address b e hn⟩

theorem hex2bin_lower_case_only_witness :
    (∃ bin, hex2bin ['7', 'c', '8', '0', '9', '7', '6', '7'] = some bin ∧ bin.length = 32 ∧
      to_decimal bin = 2088802151) ∧
    hex2bin ['7', 'C', '8', '0', '9', '7', '6', '7'] = none := by
  constructor
  · obtain ⟨bin, h1, h2, h3⟩ :=
      (hex2bin_lower_case_only ['7', 'c', '8', '0', '9', '7', '6', '7'] rfl).1 (by decide)
    exact ⟨bin, h1, h2, by rw [h3]; decide⟩
  · exact ((hex2bin_lower_case_only ['7', 'C', '8', '0', '9', '7', '6', '7'] rfl).2
      ⟨'C', by decide, by decide⟩).1

theorem read_nat (cache : List block) (r j : Nat) :
    read cache ((r : Int) + (j : Int)) = cache[r + j]? := by
  have h : 0 ≤ (r : Int) + (j : Int) := by omega
  have e : ((r : Int) + (j : Int)).toNat = r + j := by omega
  simp only [read, h, if_true, e]

theorem read_nat0 (cache : List block) (r : Nat) : read cache (r : Int) = cache[r]? := by
  simp only [read, Int.toNat_ofNat, Int.ofNat_nonneg, if_true]

theorem find_tag_eq (cache : List block) (r : Int) (tag : List Char) (n j : Nat) :
    find_tag cache r tag n j =
      find_first (fun b => decide (b.tag = tag ∧ b.valid = 1)) cache r n j := by
  induction n generalizing j with
  | zero => rfl
  | succ n ih =>
    simp only [find_tag, find_first, ih, decide_eq_true_eq]

theorem find_empty_eq (cache : List block) (r : Int) (n j : Nat) :
    find_empty cache r n j = find_first (fun b => decide (b.valid = 0)) cache r n j := by
  induction n generalizing j with
  | zero => rfl
  | succ n ih =>
    simp only [find_empty, find_first, ih, decide_eq_true_eq]

/-- On a row that lies inside the array the search loop returns the first offset whose
block satisfies `p`, or `none` when no block of the row does. -/
theorem find_first_spec (p : block → Bool) (cache : List block) (r n j : Nat)
    (hb : r + j + n ≤ cache.length) :
    ∃ res, find_first p cache (r : Int) n j = .ok res ∧
      (res = none → ∀ k, j ≤ k → k < j + n → ∀ b, cache[r + k]? = some b → p b = false) ∧
      (∀ k, res = some k → j ≤ k ∧ k < j + n ∧ (∃ b, cache[r + k]? = some b ∧ p b = true) ∧
        ∀ k2, j ≤ k2 → k2 < k → ∀ b, cache[r + k2]? = some b → p b = false) := by
  induction n generalizing j with
  | zero =>
    refine ⟨none, rfl, ?_, ?_⟩
    · intro _ k h1 h2; omega
    · intro k h; simp at h
  | succ n ih =>
    have hlt : r + j < cache.length := by omega
    have hget : cache[r + j]? = some cache[r + j] := List.getElem?_eq_getElem hlt
    simp only [find_first, read_nat, hget]
    by_cases hp : p cache[r + j] = true
    · refine ⟨some j, by simp [hp], by simp, ?_⟩
      intro k hk
      simp only [Option.some.injEq] at hk
      subst hk
      exact ⟨le_refl _, by omega, ⟨_, hget, hp⟩, fun k2 h1 h2 => by omega⟩
    · obtain ⟨res, h1, h2, h3⟩ := ih (j + 1) (by omega)
      simp only [Bool.not_eq_true] at hp
      refine ⟨res, by simp [hp, h1], ?_, ?_⟩
      · intro hn k hk1 hk2 b hb2
        by_cases e : k = j
        · subst e
          rw [hget] at hb2
          simp only [Option.some.injEq] at hb2
          subst hb2; exact hp
        · exact h2 hn k (by omega) (by omega) b hb2
      · intro k hk
        obtain ⟨a1, a2, a3, a4⟩ := h3 k hk
        refine ⟨by omega, by omega, a3, ?_⟩
        intro k2 hk1 hk2 b hb2
        by_cases e : k2 = j
        · subst e
          rw [hget] at hb2
          simp only [Option.some.injEq] at hb2
          subst hb2; exact hp
        · exact a4 k2 (by omega) hk2 b hb2


theorem install_nat (cache : List block) (i : Nat) (tag : List Char) (ts : Int) (b : block)
    (hb : cache[i]? = some b) :
    install cache (i : Int) tag ts =
      some (cache.set i { b with valid := 1, timestamp := ts, tag := tag }) := by
  simp only [install, read_nat0, hb, Int.toNat_ofNat]

/-- The `rr` loop on a row inside the array rewrites the `rr` field of exactly the blocks
it visits. -/
theorem set_rr_spec (r : Nat) (v : Int) (n q : Nat) (cache : List block)
    (hb : r + q + n ≤ cache.length) :
    ∃ cache2, set_rr (r : Int) v n q cache = some cache2 ∧ cache2.length = cache.length ∧
      ∀ i, cache2[i]? =
        if r + q ≤ i ∧ i < r + q + n then (cache[i]?).map (fun b => { b with rr := v })
        else cache[i]? := by
  induction n generalizing q cache with
  | zero =>
    refine ⟨cache, rfl, rfl, ?_⟩
    intro i
    have : ¬ (r + q ≤ i ∧ i < r + q + 0) := by omega
    simp only [this, if_false]
  | succ n ih =>
    have hlt : r + q < cache.length := by omega
    have hget : cache[r + q]? = some cache[r + q] := List.getElem?_eq_getElem hlt
    have e : ((r : Int) + (q : Int)).toNat = r + q := by omega
    obtain ⟨cache2, h1, h2, h3⟩ :=
      ih (q + 1) (cache.set (r + q) { cache[r + q] with rr := v })
        (by rw [List.length_set]; omega)
    refine ⟨cache2, ?_, ?_, ?_⟩
    · simp only [set_rr, read_nat, hget, e]
      exact_mod_cast h1
    · rw [h2, List.length_set]
    · intro i
      rw [h3 i, List.getElem?_set]
      by_cases c1 : r + q = i
      · subst c1
        have a1 : ¬ (r + (q + 1) ≤ r + q ∧ r + q < r + (q + 1) + n) := by omega
        have a2 : (r + q ≤ r + q ∧ r + q < r + q + (n + 1)) := by omega
        have a3 : r + q < r + q + (n + 1) := by omega
        simp [a3, hlt, hget]
      · by_cases c2 : r + (q + 1) ≤ i ∧ i < r + (q + 1) + n
        · have a2 : (r + q ≤ i ∧ i < r + q + (n + 1)) := by omega
          simp only [c1, c2, a2, if_false, if_true, and_self]
        · have a2 : ¬ (r + q ≤ i ∧ i < r + q + (n + 1)) := by omega
          simp only [c1, c2, a2, if_false]

/-- Under a well-formed geometry the row start of a non-negative index value is a
multiple of the associativity and the whole row lies inside the array. -/
theorem row_start_spec (args : _args) (idx : Int) (a n : Nat)
    (hA : args.associativity = a) (hN : args.num_blocks = n) (ha : 0 < a) (hn : 0 < n)
    (hdvd : a ∣ n) (hidx : 0 ≤ idx) :
    ∃ m : Nat, row_start args idx = ((a * m : Nat) : Int) ∧ a * m + a ≤ n := by
  obtain ⟨c, hc⟩ := hdvd
  have hcpos : 0 < c := by
    rcases Nat.eq_zero_or_pos c with h | h
    · subst h; omega
    · exact h
  have h1 : row_start args idx = (idx * args.associativity) % args.num_blocks := by
    unfold row_start
    rw [Int.tmod_eq_emod (mul_nonneg hidx (by omega)) (by omega)]
  have h2 : (idx * args.associativity) % args.num_blocks = (a : Int) * (idx % (c : Int)) := by
    rw [hA, hN, hc]
    push_cast
    rw [mul_comm idx (a : Int)]
    exact Int.mul_emod_mul_of_pos _ _ (by exact_mod_cast ha)
  have h3 : 0 ≤ idx % (c : Int) := Int.emod_nonneg _ (by omega)
  have h4 : idx % (c : Int) < c := Int.emod_lt_of_pos _ (by exact_mod_cast hcpos)
  refine ⟨(idx % (c : Int)).toNat, ?_, ?_⟩
  · rw [h1, h2]
    push_cast
    rw [Int.toNat_of_nonneg h3]
  · have h5 : (idx % (c : Int)).toNat < c := by omega
    rw [hc]
    calc a * (idx % (c : Int)).toNat + a = a * ((idx % (c : Int)).toNat + 1) := by ring
      _ ≤ a * c := Nat.mul_le_mul_left a h5


theorem row_start_congr (args args2 : _args) (idx : Int)
    (h1 : args2.associativity = args.associativity) (h2 : args2.num_blocks = args.num_blocks) :
    row_start args2 idx = row_start args idx := by
  simp only [row_start, h1, h2]

/-- The conflict branch once the replacement offset `o` is chosen inside the row: the
block at that offset receives the tag, and every block of the row the new `rr`. -/
theorem replace_block_of_offset (rnd : Nat → Nat) (tag : List Char) (idx : Int) (s : State)
    (a r o rc : Nat) (off : Int)
    (hA : s.args.associativity = a) (ha : 0 < a) (hrow : r + a ≤ s.cache.length)
    (hoff : replacement_offset rnd (r : Int) s = .ok (off, rc)) (ho : off = (o : Int))
    (hoa : o < a) :
    ∃ cache2 b0, s.cache[r]? = some b0 ∧
      replace_block rnd tag idx (r : Int) s =
        .ok { s with
          cache := cache2, rand_calls := rc,
          log := ⟨tag, idx, (r : Int), .conflict off⟩ :: s.log } ∧
      cache2.length = s.cache.length ∧
      ∀ i, cache2[i]? =
        if r ≤ i ∧ i < r + a then
          (s.cache[i]?).map (fun b =>
            { (if i = r + o then { b with valid := 1, timestamp := s.args.cpu_cycle, tag := tag }
                else b) with rr := Int.tmod (b0.rr + 1) a })
        else s.cache[i]? := by
  have hlt0 : r < s.cache.length := by omega
  have hlto : r + o < s.cache.length := by omega
  have hget0 : s.cache[r]? = some s.cache[r] := List.getElem?_eq_getElem hlt0
  have hgeto : s.cache[r + o]? = some s.cache[r + o] := List.getElem?_eq_getElem hlto
  have hinst := install_nat s.cache (r + o) tag s.args.cpu_cycle _ hgeto
  have hA0 : ¬ ((a : Int) = 0) := by omega
  set cache1 := s.cache.set (r + o)
    { s.cache[r + o] with valid := 1, timestamp := s.args.cpu_cycle, tag := tag } with hc1
  have hlen1 : cache1.length = s.cache.length := List.length_set _ _ _
  have hrr1 : ∃ b1, cache1[r]? = some b1 ∧ b1.rr = s.cache[r].rr := by
    by_cases e : o = 0
    · subst e
      refine ⟨_, List.getElem?_set_self hlt0, rfl⟩
    · refine ⟨s.cache[r], ?_, rfl⟩
      rw [hc1, List.getElem?_set_ne (by omega)]
      exact hget0
  obtain ⟨b1, hb1, hb1rr⟩ := hrr1
  obtain ⟨cache2, h1, h2, h3⟩ := set_rr_spec r (Int.tmod (s.cache[r].rr + 1) a) a 0 cache1
    (by rw [hlen1]; omega)
  refine ⟨cache2, s.cache[r], hget0, ?_, by rw [h2, hlen1], ?_⟩
  · have e1 : (r : Int) + off = ((r + o : Nat) : Int) := by rw [ho]; push_cast; rfl
    simp only [replace_block, hoff, e1, hinst, read_nat0, hb1, hA0, if_false, hb1rr, hA,
      Int.toNat_ofNat, h1]
  · intro i
    rw [h3 i]
    simp only [Nat.add_zero]
    by_cases c : r ≤ i ∧ i < r + a
    · simp only [c, and_self, if_true, hc1, List.getElem?_set]
      by_cases e : r + o = i
      · subst e
        simp [hlto, hgeto]
      · have e2 : ¬ i = r + o := fun h => e h.symm
        simp only [e, e2, if_false]
    · simp only [c, if_false, hc1]
      rw [List.getElem?_set_ne (by omega)]

theorem replacement_offset_RR (rnd : Nat → Nat) (s : State) (r : Nat) (b0 : block)
    (hp : s.args.replacement_policy = RR) (hb : s.cache[r]? = some b0) :
    replacement_offset rnd (r : Int) s = .ok (b0.rr, s.rand_calls) := by
  simp only [replacement_offset, hp, if_true, read_nat0, hb]

theorem replacement_offset_RND (rnd : Nat → Nat) (s : State) (r a : Nat)
    (hp : s.args.replacement_policy = RND) (hA : s.args.associativity = a) (ha : 0 < a) :
    replacement_offset rnd (r : Int) s =
      .ok (((rnd s.rand_calls % a : Nat) : Int), s.rand_calls + 1) := by
  have h1 : ¬ (RND = RR) := by decide
  have h2 : ¬ ((a : Int) = 0) := by omega
  have h3 : Int.tmod (rnd s.rand_calls : Int) (a : Int) = ((rnd s.rand_calls % a : Nat) : Int) := by
    rw [Int.tmod_eq_emod (by omega) (by omega)]
    norm_cast
  simp only [replacement_offset, hp, h1, if_false, if_true, h2, hA, h3]

theorem replacement_offset_LRU (rnd : Nat → Nat) (s : State) (r : Int)
    (hp : s.args.replacement_policy = LRU) :
    replacement_offset rnd r s = .error (.exit .lru_not_implemented s) := by
  have h1 : ¬ (LRU = RR) := by decide
  have h2 : ¬ (LRU = RND) := by decide
  simp only [replacement_offset, hp, h1, h2, if_false, if_true]

theorem replace_block_LRU (rnd : Nat → Nat) (tag : List Char) (idx r : Int) (s : State)
    (hp : s.args.replacement_policy = LRU) :
    replace_block rnd tag idx r s = .error (.exit .lru_not_implemented s) := by
  simp only [replace_block, replacement_offset_LRU rnd s r hp]

/-- Case analysis of one cache access under a well-formed geometry: with `r` the row
start, the access is a hit on the first matching valid block, or a compulsory miss
filling the first invalid block, or it enters the conflict branch. -/
theorem cache_access_cases (rnd : Nat → Nat) (tag : List Char) (idx : Int) (s : State)
    (a n : Nat) (hA : s.args.associativity = a) (hN : s.args.num_blocks = n) (ha : 0 < a)
    (hn : 0 < n) (hdvd : a ∣ n) (hlen : s.cache.length = n) (hidx : 0 ≤ idx) :
    ∃ m : Nat, row_start s.args idx = ((a * m : Nat) : Int) ∧ a * m + a ≤ n ∧
      ((∃ j b, j < a ∧ s.cache[a * m + j]? = some b ∧ b.tag = tag ∧ b.valid = 1 ∧
          (∀ k, k < j → ∀ b2, s.cache[a * m + k]? = some b2 → ¬ (b2.tag = tag ∧ b2.valid = 1)) ∧
          cache_access rnd tag idx s = .ok { s with
            args := { s.args with
              total_cache_accesses := s.args.total_cache_accesses + 1
              cache_hits := s.args.cache_hits + 1
              cpi_cycles := wrap32 (s.args.cpi_cycles + 1) }
            log := ⟨tag, idx, ((a * m : Nat) : Int), .hit j⟩ :: s.log }) ∨
       ((∀ k, k < a → ∀ b2, s.cache[a * m + k]? = some b2 → ¬ (b2.tag = tag ∧ b2.valid = 1)) ∧
        ((∃ j b, j < a ∧ s.cache[a * m + j]? = some b ∧ b.valid = 0 ∧
            (∀ k, k < j → ∀ b2, s.cache[a * m + k]? = some b2 → ¬ b2.valid = 0) ∧
            cache_access rnd tag idx s = .ok { s with
              args := { s.args with
                total_cache_accesses := s.args.total_cache_accesses + 1
                cpi_cycles := wrap32 (s.args.cpi_cycles + 4 * Int.tdiv s.args.block_size 4)
                cache_misses := s.args.cache_misses + 1
                compulsory_misses := s.args.compulsory_misses + 1 }
              cache := s.cache.set (a * m + j)
                { b with valid := 1, timestamp := s.args.cpu_cycle, tag := tag }
              log := ⟨tag, idx, ((a * m : Nat) : Int), .compulsory j⟩ :: s.log }) ∨
         ((∀ k, k < a → ∀ b2, s.cache[a * m + k]? = some b2 → ¬ b2.valid = 0) ∧
          cache_access rnd tag idx s =
            replace_block rnd tag idx ((a * m : Nat) : Int) { s with
              args := { s.args with
                total_cache_accesses := s.args.total_cache_accesses + 1
                cpi_cycles := wrap32 (s.args.cpi_cycles + 4 * Int.tdiv s.args.block_size 4)
                cache_misses := s.args.cache_misses + 1
                conflict_misses := s.args.conflict_misses + 1 } })))) := by
  obtain ⟨m, hm, hmb⟩ := row_start_spec s.args idx a n hA hN ha hn hdvd hidx
  refine ⟨m, hm, hmb, ?_⟩
  have hN0 : ¬ (s.args.num_blocks = 0) := by omega
  have hrs : row_start { s.args with total_cache_accesses := s.args.total_cache_accesses + 1 } idx
      = ((a * m : Nat) : Int) := by
    rw [← hm]; rfl
  have hAn : s.args.associativity.toNat = a := by omega
  obtain ⟨res, f1, f2, f3⟩ := find_first_spec (fun b => decide (b.tag = tag ∧ b.valid = 1))
    s.cache (a * m) a 0 (by omega)
  rw [← find_tag_eq] at f1
  cases res with
  | some j =>
    left
    obtain ⟨-, g2, ⟨b, g3, g4⟩, g5⟩ := f3 j rfl
    simp only [decide_eq_true_eq] at g4
    refine ⟨j, b, by omega, g3, g4.1, g4.2, ?_, ?_⟩
    · intro k hk b2 hb2
      have := g5 k (by omega) hk b2 hb2
      simpa using this
    · simp only [cache_access, hN0, if_false, hrs, hAn, f1]
  | none =>
    right
    have hno : ∀ k, k < a → ∀ b2, s.cache[a * m + k]? = some b2 → ¬ (b2.tag = tag ∧ b2.valid = 1) := by
      intro k hk b2 hb2
      have := f2 rfl k (by omega) (by omega) b2 hb2
      simpa using this
    refine ⟨hno, ?_⟩
    obtain ⟨res2, e1, e2, e3⟩ := find_first_spec (fun b => decide (b.valid = 0))
      s.cache (a * m) a 0 (by omega)
    rw [← find_empty_eq] at e1
    cases res2 with
    | some j =>
      left
      obtain ⟨-, g2, ⟨b, g3, g4⟩, g5⟩ := e3 j rfl
      simp only [decide_eq_true_eq] at g4
      refine ⟨j, b, by omega, g3, g4, ?_, ?_⟩
      · intro k hk b2 hb2
        have := g5 k (by omega) hk b2 hb2
        simpa using this
      · have hinst := install_nat s.cache (a * m + j) tag s.args.cpu_cycle b g3
        have ecast : ((a * m : Nat) : Int) + (j : Int) = ((a * m + j : Nat) : Int) := by
          push_cast; rfl
        simp only [cache_access, hN0, if_false, hrs, hAn, f1, e1, ecast, hinst]
    | none =>
      right
      refine ⟨?_, ?_⟩
      · intro k hk b2 hb2
        have := e2 rfl k (by omega) (by omega) b2 hb2
        simpa using this
      · simp only [cache_access, hN0, if_false, hrs, hAn, f1, e1]

theorem well_formed_nat {s : State} (h : well_formed s) :
    ∃ a n : Nat, s.args.associativity = a ∧ s.args.num_blocks = n ∧ 0 < a ∧ 0 < n ∧ a ∣ n ∧
      s.cache.length = n := by
  obtain ⟨h1, h2, h3, h4⟩ := h
  refine ⟨s.args.associativity.toNat, s.args.num_blocks.toNat, by omega, by omega, by omega,
    by omega, ?_, by omega⟩
  have e1 : s.args.associativity = (s.args.associativity.toNat : Int) := by omega
  have e2 : s.args.num_blocks = (s.args.num_blocks.toNat : Int) := by omega
  rw [e1, e2] at h3
  exact Int.natCast_dvd_natCast.mp h3

set_option maxRecDepth 100000

theorem first_access_eval :
    handle_address (fun _ => 0) (init_state direct_mapped_1k) example_address 4 true =
      .ok one_access_state := by
  rfl

theorem second_access_eval :
    handle_address (fun _ => 0) one_access_state example_address 4 true =
      .ok { one_access_state with
        args := { one_access_state.args with
          total_cache_accesses := 2, cache_hits := 1, cpi_cycles := 9, num_instructions := 2,
          cpu_cycle := 2 }
        log := ⟨example_tag, 217, 217, .hit 0⟩ :: one_access_state.log } := by
  rfl

theorem same_core_refl (a : _args) : same_core a a := rfl

theorem final_state_ok {s r : State} (h : final_state (.ok s) = some r) : s = r := by
  simpa [final_state] using h

/-- A property of states that every cache access preserves (also when the access ends in
`exit`) and that does not depend on the four bookkeeping fields is preserved by the
cache-access loop. -/
theorem overrun_loop_lift (rnd : Nat → Nat) (P : State → Prop)
    (hstep : ∀ tag idx s r, 0 ≤ idx → P s → final_state (cache_access rnd tag idx s) = some r → P r)
    (tag : List Char) (index_value : Int) (hidx : 0 ≤ index_value) (n i : Nat) (s r : State)
    (hP : P s) (h : final_state (overrun_loop rnd tag index_value n i s) = some r) : P r := by
  induction n generalizing i s with
  | zero =>
    simp only [overrun_loop] at h
    rw [← final_state_ok h]; exact hP
  | succ n ih =>
    simp only [overrun_loop] at h
    cases hc : cache_access rnd tag (index_value + i) s with
    | error e =>
      rw [hc] at h
      exact hstep tag (index_value + i) s r (by omega) hP (by rw [hc]; exact h)
    | ok s1 =>
      rw [hc] at h
      have hP1 : P s1 := hstep tag (index_value + i) s s1 (by omega) hP (by rw [hc]; rfl)
      exact ih (i + 1) s1 hP1 h

theorem decode_index_nonneg (args : _args) (bin : List Char) : 0 ≤ (decode args bin).2.2.1 :=
  (to_decimal_bounds _).1

/-- Lifting of an invariant of cache accesses to `handle_address`. -/
theorem handle_address_lift (rnd : Nat → Nat) (P : State → Prop)
    (hframe : ∀ s args2, P s → same_core s.args args2 → P { s with args := args2 })
    (hstep : ∀ tag idx s r, 0 ≤ idx → P s → final_state (cache_access rnd tag idx s) = some r → P r)
    (s r : State) (address : List Char) (bytes_read : Int) (is_eip : Bool) (hP : P s)
    (h : final_state (handle_address rnd s address bytes_read is_eip) = some r) : P r := by
  have hP0 : P { s with args := { s.args with cpu_cycle := s.args.cpu_cycle + 1 } } :=
    hframe s _ hP rfl
  unfold handle_address at h
  simp only at h
  split at h
  · simp only [final_state, Option.some.injEq] at h
    rw [← h]; exact hP0
  · rename_i bin hbin
    split at h
    · simp [final_state] at h
    · split at h
      · simp [final_state] at h
      · split at h
        · rename_i e he
          have := overrun_loop_lift rnd P hstep _ _ (decode_index_nonneg _ bin) _ _ _ r hP0
            (by rw [he]; exact h)
          exact this
        · rename_i s1 hs1
          have hP1 : P s1 := overrun_loop_lift rnd P hstep _ _ (decode_index_nonneg _ bin) _ _ _ s1
            hP0 (by rw [hs1]; rfl)
          split at h
          · rw [← final_state_ok h]
            exact hframe s1 _ hP1 rfl
          · rw [← final_state_ok h]
            exact hframe s1 _ hP1 rfl

/-- Lifting of an invariant of cache accesses to a sequence of `handle_address` calls. -/
theorem handle_addresses_lift (rnd : Nat → Nat) (P : State → Prop)
    (hframe : ∀ s args2, P s → same_core s.args args2 → P { s with args := args2 })
    (hstep : ∀ tag idx s r, 0 ≤ idx → P s → final_state (cache_access rnd tag idx s) = some r → P r)
    (accesses : List Access) (s r : State) (hP : P s)
    (h : final_state (handle_addresses rnd accesses s) = some r) : P r := by
  induction accesses generalizing s with
  | nil =>
    simp only [handle_addresses] at h
    rw [← final_state_ok h]; exact hP
  | cons x rest ih =>
    simp only [handle_addresses] at h
    cases hc : handle_address rnd s x.address x.bytes_read x.is_eip with
    | error e =>
      rw [hc] at h
      exact handle_address_lift rnd P hframe hstep s r _ _ _ hP (by rw [hc]; exact h)
    | ok s1 =>
      rw [hc] at h
      exact ih s1 (handle_address_lift rnd P hframe hstep s s1 _ _ _ hP (by rw [hc]; rfl)) h


theorem final_state_of_defined {x : Except Fault State} (h : x ≠ .error .undefined) :
    ∃ r, final_state x = some r := by
  cases x with
  | ok s => exact ⟨s, rfl⟩
  | error e =>
    cases e with
    | exit c s => exact ⟨s, rfl⟩
    | undefined => exact absurd rfl h

theorem overrun_loop_defined (rnd : Nat → Nat) (P : State → Prop)
    (hstep : ∀ tag idx s r, 0 ≤ idx → P s → final_state (cache_access rnd tag idx s) = some r → P r)
    (hdef : ∀ tag idx s, 0 ≤ idx → P s → cache_access rnd tag idx s ≠ .error .undefined)
    (tag : List Char) (index_value : Int) (hidx : 0 ≤ index_value) (n i : Nat) (s : State)
    (hP : P s) : overrun_loop rnd tag index_value n i s ≠ .error .undefined := by
  induction n generalizing i s with
  | zero => simp [overrun_loop]
  | succ n ih =>
    simp only [overrun_loop]
    cases hc : cache_access rnd tag (index_value + i) s with
    | error e =>
      intro h
      simp only [Except.error.injEq] at h
      exact hdef tag (index_value + i) s (by omega) hP (by rw [hc, h])
    | ok s1 =>
      exact ih (i + 1) s1 (hstep tag (index_value + i) s s1 (by omega) hP (by rw [hc]; rfl))

theorem handle_address_defined (rnd : Nat → Nat) (P : State → Prop)
    (hframe : ∀ s args2, P s → same_core s.args args2 → P { s with args := args2 })
    (hstep : ∀ tag idx s r, 0 ≤ idx → P s → final_state (cache_access rnd tag idx s) = some r → P r)
    (hgeom : ∀ s, P s → fields_fit s.args ∧ s.args.block_size ≠ 0)
    (hdef : ∀ tag idx s, 0 ≤ idx → P s → cache_access rnd tag idx s ≠ .error .undefined)
    (s : State) (address : List Char) (bytes_read : Int) (is_eip : Bool) (hP : P s) :
    handle_address rnd s address bytes_read is_eip ≠ .error .undefined := by
  have hP0 : P { s with args := { s.args with cpu_cycle := s.args.cpu_cycle + 1 } } :=
    hframe s _ hP rfl
  obtain ⟨hfit, hbs⟩ := hgeom _ hP0
  intro h
  unfold handle_address at h
  simp only at h
  split at h
  · simp at h
  · rename_i bin hbin
    simp only [hfit, not_true_eq_false, if_false, hbs] at h
    split at h
    · rename_i e he
      simp only [Except.error.injEq] at h
      exact overrun_loop_defined rnd P hstep hdef _ _ (decode_index_nonneg _ bin) _ _ _ hP0
        (by rw [he, h])
    · split at h <;> simp at h

theorem handle_addresses_defined (rnd : Nat → Nat) (P : State → Prop)
    (hframe : ∀ s args2, P s → same_core s.args args2 → P { s with args := args2 })
    (hstep : ∀ tag idx s r, 0 ≤ idx → P s → final_state (cache_access rnd tag idx s) = some r → P r)
    (hgeom : ∀ s, P s → fields_fit s.args ∧ s.args.block_size ≠ 0)
    (hdef : ∀ tag idx s, 0 ≤ idx → P s → cache_access rnd tag idx s ≠ .error .undefined)
    (accesses : List Access) (s : State) (hP : P s) :
    handle_addresses rnd accesses s ≠ .error .undefined := by
  induction accesses generalizing s with
  | nil => simp [handle_addresses]
  | cons x rest ih =>
    simp only [handle_addresses]
    cases hc : handle_address rnd s x.address x.bytes_read x.is_eip with
    | error e =>
      intro h
      simp only [Except.error.injEq] at h
      exact handle_address_defined rnd P hframe hstep hgeom hdef s _ _ _ hP (by rw [hc, h])
    | ok s1 =>
      exact ih s1 (handle_address_lift rnd P hframe hstep s s1 _ _ _ hP (by rw [hc]; rfl))

theorem conflicts_in_cons (row : Int) (e : Event) (log : List Event) :
    conflicts_in row (e :: log) =
      conflicts_in row log + (if is_conflict_in row e = true then 1 else 0) := by
  unfold conflicts_in
  rw [List.filter_cons]
  split <;> simp

theorem conflicts_in_hit (row : Int) (tag : List Char) (idx r : Int) (j : Nat)
    (log : List Event) : conflicts_in row (⟨tag, idx, r, .hit j⟩ :: log) = conflicts_in row log := by
  rw [conflicts_in_cons]; rfl

theorem conflicts_in_compulsory (row : Int) (tag : List Char) (idx r : Int) (j : Nat)
    (log : List Event) :
    conflicts_in row (⟨tag, idx, r, .compulsory j⟩ :: log) = conflicts_in row log := by
  rw [conflicts_in_cons]; rfl

theorem conflicts_in_conflict (row : Int) (tag : List Char) (idx r off : Int)
    (log : List Event) :
    conflicts_in row (⟨tag, idx, r, .conflict off⟩ :: log) =
      conflicts_in row log + (if r = row then 1 else 0) := by
  rw [conflicts_in_cons]
  simp [is_conflict_in]

theorem row_of_nat (g : _args) (a i : Nat) (hA : g.associativity = a) :
    row_of g i = ((a * (i / a) : Nat) : Int) := by
  unfold row_of
  rw [hA]
  push_cast
  rfl

theorem row_of_in_row (g : _args) (a m k : Nat) (hA : g.associativity = a) (hk : k < a) :
    row_of g (a * m + k) = ((a * m : Nat) : Int) := by
  rw [row_of_nat g a _ hA]
  have : (a * m + k) / a = m := by
    rw [Nat.mul_add_div (by omega), Nat.div_eq_of_lt hk]; rfl
  rw [this]

theorem row_of_outside (g : _args) (a m i : Nat) (hA : g.associativity = a) (ha : 0 < a)
    (hi : ¬ (a * m ≤ i ∧ i < a * m + a)) : ¬ (((a * m : Nat) : Int) = row_of g i) := by
  rw [row_of_nat g a _ hA]
  intro h
  have h2 : a * m = a * (i / a) := by exact_mod_cast h
  have h3 : m = i / a := Nat.eq_of_mul_eq_mul_left ha h2
  have h4 : a * (i / a) ≤ i := Nat.mul_div_le i a
  have h5 : i < a * (i / a) + a := by
    have := Nat.lt_mul_div_succ i ha
    rw [Nat.mul_add, Nat.mul_one] at this
    exact this
  rw [← h3] at h4 h5
  exact hi ⟨h4, h5⟩

theorem Inv_args (g : _args) (s : State) (args2 : _args) (hI : Inv g s)
    (hg : same_geometry g args2) : Inv g { s with args := args2 } := by
  obtain ⟨hsg, hwf, hrr, hval, hlog⟩ := hI
  have g1 := hg.1
  have g2 := hg.2.1
  obtain ⟨s1, s2, -⟩ := hsg
  refine ⟨hg, ?_, hrr, hval, hlog⟩
  unfold well_formed at hwf ⊢
  simp only
  rw [g1, g2, ← s1, ← s2]
  exact hwf

theorem Inv_frame (g : _args) (s : State) (args2 : _args) (hI : Inv g s)
    (h : same_core s.args args2) : Inv g { s with args := args2 } := by
  apply Inv_args g s args2 hI
  obtain ⟨h1, h2, h3, h4, h5, h6, h7⟩ := hI.1
  unfold same_core at h
  rw [h]
  exact ⟨h1, h2, h3, h4, h5, h6, h7⟩

/-- The invariant after a hit: the cache is untouched and the history gains a hit event. -/
theorem Inv_hit (g : _args) (s : State) (args2 : _args) (tag : List Char) (idx : Int)
    (a m j : Nat) (b : block) (hI : Inv g s) (hg : same_geometry g args2)
    (hA : g.associativity = a) (hidx : 0 ≤ idx) (hrow : row_start g idx = ((a * m : Nat) : Int))
    (hj : j < a) (hb : s.cache[a * m + j]? = some b) (htag : b.tag = tag) (hv : b.valid = 1) :
    Inv g { s with args := args2, log := ⟨tag, idx, ((a * m : Nat) : Int), .hit j⟩ :: s.log } := by
  obtain ⟨hsg, hwf, hrr, hval, hlog⟩ := Inv_args g s args2 hI hg
  refine ⟨hsg, hwf, ?_, ?_, ?_⟩
  · intro i b2 hb2
    simp only [conflicts_in_hit]
    exact hrr i b2 hb2
  · intro i b2 hb2
    rcases hval i b2 hb2 with h | ⟨h1, e, he, h2⟩
    · exact Or.inl h
    · exact Or.inr ⟨h1, e, List.mem_cons_of_mem _ he, h2⟩
  · refine ⟨hlog, hidx, hrow.symm, ?_, ?_⟩
    · intro _ _
      rcases hval (a * m + j) b hb with h | ⟨-, e, he, h2, h3⟩
      · rw [hv] at h; exact absurd h (by decide)
      · refine ⟨e, he, ?_, ?_⟩
        · rw [h2, htag]
        · rw [h3, row_of_in_row g a m j hA hj]
    · intro off h
      simp at h

/-- The invariant after a compulsory miss. -/
theorem Inv_compulsory (g : _args) (s : State) (args2 : _args) (tag : List Char) (idx : Int)
    (a m j : Nat) (b : block) (ts : Int) (hI : Inv g s) (hg : same_geometry g args2)
    (hA : g.associativity = a) (hidx : 0 ≤ idx) (hrow : row_start g idx = ((a * m : Nat) : Int))
    (hj : j < a) (hb : s.cache[a * m + j]? = some b) :
    Inv g { s with
      args := args2
      cache := s.cache.set (a * m + j) { b with valid := 1, timestamp := ts, tag := tag }
      log := ⟨tag, idx, ((a * m : Nat) : Int), .compulsory j⟩ :: s.log } := by
  obtain ⟨hsg, hwf, hrr, hval, hlog⟩ := Inv_args g s args2 hI hg
  have hlt : a * m + j < s.cache.length := by
    by_contra hc
    rw [List.getElem?_eq_none (by omega)] at hb
    simp at hb
  refine ⟨hsg, ?_, ?_, ?_, ?_⟩
  · unfold well_formed at hwf ⊢
    simp only [List.length_set]
    exact hwf
  · intro i b2 hb2
    simp only [conflicts_in_compulsory]
    simp only [List.getElem?_set] at hb2
    by_cases e : a * m + j = i
    · subst e
      simp only [if_true, hlt, Option.some.injEq] at hb2
      rw [← hb2]
      exact hrr _ b hb
    · simp only [e, if_false] at hb2
      exact hrr i b2 hb2
  · intro i b2 hb2
    simp only [List.getElem?_set] at hb2
    by_cases e : a * m + j = i
    · subst e
      simp only [if_true, hlt, Option.some.injEq] at hb2
      rw [← hb2]
      refine Or.inr ⟨rfl, _, List.mem_cons_self _ _, rfl, ?_⟩
      rw [row_of_in_row g a m j hA hj]
    · simp only [e, if_false] at hb2
      rcases hval i b2 hb2 with h | ⟨h1, e2, he, h2⟩
      · exact Or.inl h
      · exact Or.inr ⟨h1, e2, List.mem_cons_of_mem _ he, h2⟩
  · refine ⟨hlog, hidx, hrow.symm, ?_, ?_⟩
    · intro j2 h; simp at h
    · intro off h; simp at h


/-- The invariant after a replacement: the block at offset `o` of the row receives the
tag, every block of the row the successor of the row counter, and the history gains a
conflict event. -/
theorem Inv_replace (g : _args) (s : State) (tag : List Char) (idx off : Int)
    (a m o rc : Nat) (b0 : block) (cache2 : List block) (hI : Inv g s)
    (hA : g.associativity = a) (ha : 0 < a) (hidx : 0 ≤ idx)
    (hrow : row_start g idx = ((a * m : Nat) : Int))
    (hb0 : s.cache[a * m]? = some b0) (hlen : cache2.length = s.cache.length)
    (hRR : g.replacement_policy = RR →
      off = (conflicts_in ((a * m : Nat) : Int) s.log : Int) % g.associativity)
    (hc2 : ∀ i, cache2[i]? =
        if a * m ≤ i ∧ i < a * m + a then
          (s.cache[i]?).map (fun b =>
            { (if i = a * m + o then { b with valid := 1, timestamp := s.args.cpu_cycle, tag := tag }
                else b) with rr := Int.tmod (b0.rr + 1) a })
        else s.cache[i]?) :
    Inv g { s with
      cache := cache2, rand_calls := rc,
      log := ⟨tag, idx, ((a * m : Nat) : Int), .conflict off⟩ :: s.log } := by
  obtain ⟨hsg, hwf, hrr, hval, hlog⟩ := hI
  have hb0rr : b0.rr = (conflicts_in ((a * m : Nat) : Int) s.log : Int) % (a : Int) := by
    have := hrr (a * m) b0 hb0
    have e := row_of_in_row g a m 0 hA ha
    rw [Nat.add_zero] at e
    rw [e, hA] at this
    exact this
  have hnew : Int.tmod (b0.rr + 1) a =
      ((conflicts_in ((a * m : Nat) : Int) s.log + 1 : Nat) : Int) % (a : Int) := by
    have h0 : 0 ≤ b0.rr := by
      rw [hb0rr]; exact Int.emod_nonneg _ (by omega)
    rw [Int.tmod_eq_emod (by omega) (by omega), hb0rr, Int.emod_add_emod]
    push_cast
    rfl
  refine ⟨hsg, ?_, ?_, ?_, ?_⟩
  · unfold well_formed at hwf ⊢
    simp only [hlen]
    exact hwf
  · intro i b hb
    simp only at hb
    rw [hc2 i] at hb
    rw [conflicts_in_conflict]
    by_cases c : a * m ≤ i ∧ i < a * m + a
    · simp only [c, and_self, if_true, Option.map_eq_some'] at hb
      obtain ⟨b1, -, hb1⟩ := hb
      have hk : i = a * m + (i - a * m) := by omega
      have hro : row_of g i = ((a * m : Nat) : Int) := by
        rw [hk]; exact row_of_in_row g a m _ hA (by omega)
      rw [← hb1, hro, hA]
      simp only [if_true]
      exact hnew
    · simp only [c, if_false] at hb
      have hne := row_of_outside g a m i hA ha c
      simp only [hne, if_false, Nat.add_zero]
      exact hrr i b hb
  · intro i b hb
    simp only at hb
    rw [hc2 i] at hb
    by_cases c : a * m ≤ i ∧ i < a * m + a
    · simp only [c, and_self, if_true, Option.map_eq_some'] at hb
      obtain ⟨b1, hb1a, hb1⟩ := hb
      have hk : i = a * m + (i - a * m) := by omega
      have hro : row_of g i = ((a * m : Nat) : Int) := by
        rw [hk]; exact row_of_in_row g a m _ hA (by omega)
      by_cases e : i = a * m + o
      · simp only [e, if_true] at hb1
        rw [← hb1]
        refine Or.inr ⟨rfl, _, List.mem_cons_self _ _, rfl, ?_⟩
        rw [hro]
      · simp only [e, if_false] at hb1
        rw [← hb1]
        rcases hval i b1 hb1a with h | ⟨h1, e2, he, h2⟩
        · exact Or.inl h
        · exact Or.inr ⟨h1, e2, List.mem_cons_of_mem _ he, h2⟩
    · simp only [c, if_false] at hb
      rcases hval i b hb with h | ⟨h1, e2, he, h2⟩
      · exact Or.inl h
      · exact Or.inr ⟨h1, e2, List.mem_cons_of_mem _ he, h2⟩
  · refine ⟨hlog, hidx, hrow.symm, ?_, ?_⟩
    · intro j h; simp at h
    · intro off2 h hp
      simp only [Kind.conflict.injEq] at h
      rw [← h]
      exact hRR hp

/-- The conflict branch under `RR` or `RND` in a state satisfying the invariant: it
succeeds, replacing the block at an offset `o` below the associativity, which under `RR`
is the number of earlier conflicts in the row modulo the associativity. -/
theorem replace_block_ok (rnd : Nat → Nat) (g : _args) (s : State) (tag : List Char)
    (idx : Int) (a m : Nat) (hI : Inv g s) (hA : g.associativity = a) (ha : 0 < a)
    (hbound : a * m + a ≤ s.cache.length)
    (hp : g.replacement_policy = RR ∨ g.replacement_policy = RND) :
    ∃ (o rc : Nat) (cache2 : List block) (b0 : block), o < a ∧
      (g.replacement_policy = RR → o = conflicts_in ((a * m : Nat) : Int) s.log % a) ∧
      s.cache[a * m]? = some b0 ∧
      replace_block rnd tag idx ((a * m : Nat) : Int) s = .ok { s with
          cache := cache2, rand_calls := rc,
          log := ⟨tag, idx, ((a * m : Nat) : Int), .conflict (o : Int)⟩ :: s.log } ∧
      cache2.length = s.cache.length ∧
      ∀ i, cache2[i]? =
        if a * m ≤ i ∧ i < a * m + a then
          (s.cache[i]?).map (fun b =>
            { (if i = a * m + o then { b with valid := 1, timestamp := s.args.cpu_cycle, tag := tag }
                else b) with rr := Int.tmod (b0.rr + 1) a })
        else s.cache[i]? := by
  have hsA : s.args.associativity = a := by rw [hI.1.1, hA]
  have hsP : s.args.replacement_policy = g.replacement_policy := hI.1.2.2.1
  have hlt0 : a * m < s.cache.length := by omega
  have hget0 : s.cache[a * m]? = some s.cache[a * m] := List.getElem?_eq_getElem hlt0
  have hb0rr : (s.cache[a * m]).rr = ((conflicts_in ((a * m : Nat) : Int) s.log % a : Nat) : Int) := by
    have := hI.2.2.1 (a * m) _ hget0
    have e := row_of_in_row g a m 0 hA ha
    rw [Nat.add_zero] at e
    rw [e, hA] at this
    rw [this]
    push_cast
    rfl
  rcases hp with hp | hp
  · have hoff := replacement_offset_RR rnd s (a * m) _ (by rw [hsP, hp]) hget0
    have hoa : conflicts_in ((a * m : Nat) : Int) s.log % a < a := Nat.mod_lt _ ha
    obtain ⟨cache2, b0, h1, h2, h3, h4⟩ :=
      replace_block_of_offset rnd tag idx s a (a * m) _ _ _ hsA ha hbound hoff hb0rr hoa
    rw [hb0rr] at h2
    exact ⟨_, _, cache2, b0, hoa, fun _ => rfl, h1, h2, h3, h4⟩
  · have hoff := replacement_offset_RND rnd s (a * m) a (by rw [hsP, hp]) hsA ha
    have hoa : rnd s.rand_calls % a < a := Nat.mod_lt _ ha
    obtain ⟨cache2, b0, h1, h2, h3, h4⟩ :=
      replace_block_of_offset rnd tag idx s a (a * m) _ _ _ hsA ha hbound hoff rfl hoa
    refine ⟨_, _, cache2, b0, hoa, ?_, h1, h2, h3, h4⟩
    intro h
    rw [h] at hp
    exact absurd hp (by decide)

theorem replacement_offset_other (rnd : Nat → Nat) (s : State) (r : Int)
    (h1 : s.args.replacement_policy ≠ RR) (h2 : s.args.replacement_policy ≠ RND) :
    ∃ c, replacement_offset rnd r s = .error (.exit c s) := by
  by_cases h3 : s.args.replacement_policy = LRU
  · exact ⟨_, replacement_offset_LRU rnd s r h3⟩
  · exact ⟨.invalid_policy, by simp only [replacement_offset, h1, h2, h3, if_false]⟩

/-- The conflict branch in a state satisfying the invariant never has undefined
behaviour, and the state it ends in (returned or at `exit`) satisfies the invariant. -/
theorem replace_block_Inv (rnd : Nat → Nat) (g : _args) (s : State) (tag : List Char)
    (idx : Int) (a m : Nat) (hI : Inv g s) (hA : g.associativity = a) (ha : 0 < a)
    (hidx : 0 ≤ idx) (hrow : row_start g idx = ((a * m : Nat) : Int))
    (hbound : a * m + a ≤ s.cache.length) :
    ∃ r, final_state (replace_block rnd tag idx ((a * m : Nat) : Int) s) = some r ∧ Inv g r := by
  by_cases hp : g.replacement_policy = RR ∨ g.replacement_policy = RND
  · obtain ⟨o, rc, cache2, b0, h1, h2, h3, h4, h5, h6⟩ :=
      replace_block_ok rnd g s tag idx a m hI hA ha hbound hp
    refine ⟨_, by rw [h4]; rfl, ?_⟩
    apply Inv_replace g s tag idx _ a m o rc b0 cache2 hI hA ha hidx hrow h3 h5 _ h6
    intro hr
    rw [h2 hr, hA]
    push_cast
    rfl
  · have hsP : s.args.replacement_policy = g.replacement_policy := hI.1.2.2.1
    obtain ⟨c, hc⟩ := replacement_offset_other rnd s ((a * m : Nat) : Int)
      (by rw [hsP]; exact fun h => hp (Or.inl h)) (by rw [hsP]; exact fun h => hp (Or.inr h))
    refine ⟨s, ?_, hI⟩
    simp only [replace_block, hc, final_state]


/-- Every cache access in a state satisfying the invariant is free of undefined
behaviour, and the state it ends in (returned or at `exit`) satisfies the invariant. -/
theorem cache_access_Inv (rnd : Nat → Nat) (g : _args) (tag : List Char) (idx : Int)
    (s : State) (hidx : 0 ≤ idx) (hI : Inv g s) :
    ∃ r, final_state (cache_access rnd tag idx s) = some r ∧ Inv g r := by
  obtain ⟨a, n, hA, hN, ha, hn, hdvd, hlen⟩ := well_formed_nat hI.2.1
  have hsg := hI.1
  have hgA : g.associativity = a := by rw [← hsg.1, hA]
  have hrs : row_start s.args idx = row_start g idx := row_start_congr g s.args idx hsg.1 hsg.2.1
  obtain ⟨m, hm, hmb, hcases⟩ := cache_access_cases rnd tag idx s a n hA hN ha hn hdvd hlen hidx
  rw [hrs] at hm
  rcases hcases with ⟨j, b, h1, h2, h3, h4, -, h6⟩ | ⟨-, hc2⟩
  · refine ⟨_, by rw [h6]; rfl, ?_⟩
    exact Inv_hit g s _ tag idx a m j b hI hsg hgA hidx hm h1 h2 h3 h4
  · rcases hc2 with ⟨j, b, h1, h2, -, -, h5⟩ | ⟨-, h5⟩
    · refine ⟨_, by rw [h5]; rfl, ?_⟩
      exact Inv_compulsory g s _ tag idx a m j b _ hI hsg hgA hidx hm h1 h2
    · rw [h5]
      exact replace_block_Inv rnd g _ tag idx a m (Inv_args g s _ hI hsg) hgA ha hidx hm
        (by simp only; omega)

theorem Inv_step (rnd : Nat → Nat) (g : _args) (tag : List Char) (idx : Int) (s r : State)
    (hidx : 0 ≤ idx) (hI : Inv g s) (h : final_state (cache_access rnd tag idx s) = some r) :
    Inv g r := by
  obtain ⟨r2, h1, h2⟩ := cache_access_Inv rnd g tag idx s hidx hI
  rw [h1] at h
  simp only [Option.some.injEq] at h
  rw [← h]; exact h2

theorem Inv_defined (rnd : Nat → Nat) (g : _args) (tag : List Char) (idx : Int) (s : State)
    (hidx : 0 ≤ idx) (hI : Inv g s) : cache_access rnd tag idx s ≠ .error .undefined := by
  obtain ⟨r2, h1, -⟩ := cache_access_Inv rnd g tag idx s hidx hI
  intro h
  rw [h] at h1
  simp [final_state] at h1

/-- The initial state of a run over a well-formed geometry satisfies the invariant. -/
theorem Inv_init (g : _args) (hA : 0 < g.associativity) (hN : 0 < g.num_blocks)
    (hdvd : g.associativity ∣ g.num_blocks) : Inv g (init_state g) := by
  refine ⟨⟨rfl, rfl, rfl, rfl, rfl, rfl, rfl⟩, ⟨hA, hN, hdvd, ?_⟩, ?_, ?_, trivial⟩
  · simp only [init_state, init_cache, List.length_replicate]
    omega
  · intro i b hb
    simp only [init_state, init_cache, List.getElem?_replicate] at hb
    split at hb
    · simp only [Option.some.injEq] at hb
      rw [← hb]
      simp [conflicts_in, init_state]
    · simp at hb
  · intro i b hb
    simp only [init_state, init_cache, List.getElem?_replicate] at hb
    split at hb
    · simp only [Option.some.injEq] at hb
      rw [← hb]
      exact Or.inl rfl
    · simp at hb

/-- Every run of `handle_address` over a sequence of addresses, started in the initial
state of a well-formed geometry whose field widths fit, is free of undefined behaviour
and ends (by return or by `exit`) in a state satisfying the invariant. -/
theorem run_Inv (rnd : Nat → Nat) (g : _args) (accesses : List Access)
    (hA : 0 < g.associativity) (hN : 0 < g.num_blocks)
    (hdvd : g.associativity ∣ g.num_blocks) (hfit : fields_fit g) (hbs : g.block_size ≠ 0) :
    ∃ s, final_state (handle_addresses rnd accesses (init_state g)) = some s ∧ Inv g s := by
  have h0 := Inv_init g hA hN hdvd
  have hgeom : ∀ s, Inv g s → fields_fit s.args ∧ s.args.block_size ≠ 0 := by
    intro s hs
    obtain ⟨-, -, -, e4, e5, e6, e7⟩ := hs.1
    unfold fields_fit at hfit ⊢
    rw [e4, e5, e6, e7]
    exact ⟨hfit, hbs⟩
  obtain ⟨s, hs⟩ := final_state_of_defined
    (handle_addresses_defined rnd (Inv g) (Inv_frame g) (Inv_step rnd g) hgeom
      (Inv_defined rnd g) accesses _ h0)
  exact ⟨s, hs, handle_addresses_lift rnd (Inv g) (Inv_frame g) (Inv_step rnd g) accesses _ s h0 hs⟩

theorem replace_block_args (rnd : Nat → Nat) (tag : List Char) (idx r0 : Int) (s r : State)
    (h : final_state (replace_block rnd tag idx r0 s) = some r) : r.args = s.args := by
  unfold replace_block at h
  split at h
  · rename_i e he
    unfold replacement_offset at he
    split at he
    · split at he
      · simp at he; subst he; simp [final_state] at h
      · simp at he
    · split at he
      · split at he
        · simp at he; subst he; simp [final_state] at h
        · simp at he
      · split at he
        · simp at he; subst he
          simp only [final_state, Option.some.injEq] at h
          rw [← h]
        · simp at he; subst he
          simp only [final_state, Option.some.injEq] at h
          rw [← h]
  · split at h
    · simp [final_state] at h
    · split at h
      · simp [final_state] at h
      · split at h
        · simp [final_state] at h
        · simp only at h
          split at h
          · simp [final_state] at h
          · simp only [final_state, Option.some.injEq] at h
            rw [← h]

/-- The counters after one cache access that returns or exits: exactly one of the three
branches has been counted. -/
theorem cache_access_counters (rnd : Nat → Nat) (tag : List Char) (idx : Int) (s r : State)
    (h : final_state (cache_access rnd tag idx s) = some r) :
    r.args = { s.args with
        total_cache_accesses := s.args.total_cache_accesses + 1
        cache_hits := s.args.cache_hits + 1
        cpi_cycles := wrap32 (s.args.cpi_cycles + 1) } ∨
    r.args = { s.args with
        total_cache_accesses := s.args.total_cache_accesses + 1
        cpi_cycles := wrap32 (s.args.cpi_cycles + 4 * Int.tdiv s.args.block_size 4)
        cache_misses := s.args.cache_misses + 1
        compulsory_misses := s.args.compulsory_misses + 1 } ∨
    r.args = { s.args with
        total_cache_accesses := s.args.total_cache_accesses + 1
        cpi_cycles := wrap32 (s.args.cpi_cycles + 4 * Int.tdiv s.args.block_size 4)
        cache_misses := s.args.cache_misses + 1
        conflict_misses := s.args.conflict_misses + 1 } := by
  unfold cache_access at h
  simp only at h
  split at h
  · simp [final_state] at h
  · split at h
    · rename_i e he
      have : e = .undefined := by
        clear h
        generalize s.args.associativity.toNat = n at he
        generalize (0 : Nat) = j at he
        induction n generalizing j with
        | zero => simp [find_tag] at he
        | succ n ih =>
          simp only [find_tag] at he
          split at he
          · simp at he; exact he.symm
          · split at he
            · simp at he
            · exact ih _ he
      subst this
      simp [final_state] at h
    · left
      simp only [final_state, Option.some.injEq] at h
      rw [← h]
    · right
      split at h
      · rename_i e he
        have : e = .undefined := by
          clear h
          generalize s.args.associativity.toNat = n at he
          generalize (0 : Nat) = j at he
          induction n generalizing j with
          | zero => simp [find_empty] at he
          | succ n ih =>
            simp only [find_empty] at he
            split at he
            · simp at he; exact he.symm
            · split at he
              · simp at he
              · exact ih _ he
        subst this
        simp [final_state] at h
      · left
        split at h
        · simp [final_state] at h
        · simp only [final_state, Option.some.injEq] at h
          rw [← h]
      · right
        rw [replace_block_args rnd tag idx _ _ r h]


/-- Under `RR` or `RND` a cache access in a state satisfying the invariant returns. -/
theorem cache_access_ok (rnd : Nat → Nat) (g : _args) (tag : List Char) (idx : Int)
    (s : State) (hidx : 0 ≤ idx) (hI : Inv g s)
    (hp : g.replacement_policy = RR ∨ g.replacement_policy = RND) :
    ∃ r, cache_access rnd tag idx s = .ok r ∧ Inv g r := by
  have key : ∃ r, cache_access rnd tag idx s = .ok r := by
    obtain ⟨a, n, hA, hN, ha, hn, hdvd, hlen⟩ := well_formed_nat hI.2.1
    have hsg := hI.1
    have hgA : g.associativity = a := by rw [← hsg.1, hA]
    obtain ⟨m, hm, hmb, hcases⟩ := cache_access_cases rnd tag idx s a n hA hN ha hn hdvd hlen hidx
    rcases hcases with ⟨j, b, -, -, -, -, -, h6⟩ | ⟨-, hc2⟩
    · exact ⟨_, h6⟩
    · rcases hc2 with ⟨j, b, -, -, -, -, h5⟩ | ⟨-, h5⟩
      · exact ⟨_, h5⟩
      · rw [h5]
        have hIc : Inv g { s with
            args := { s.args with
              total_cache_accesses := s.args.total_cache_accesses + 1
              cpi_cycles := wrap32 (s.args.cpi_cycles + 4 * Int.tdiv s.args.block_size 4)
              cache_misses := s.args.cache_misses + 1
              conflict_misses := s.args.conflict_misses + 1 } } := Inv_args g s _ hI hsg
        obtain ⟨o, rc, cache2, b0, -, -, -, h4, -⟩ :=
          replace_block_ok rnd g _ tag idx a m hIc hgA ha (by simp only; omega) hp
        exact ⟨_, h4⟩
  obtain ⟨r, hr⟩ := key
  exact ⟨r, hr, Inv_step rnd g tag idx s r hidx hI (by rw [hr]; rfl)⟩

theorem overrun_loop_ok (rnd : Nat → Nat) (g : _args) (tag : List Char) (index_value : Int)
    (hidx : 0 ≤ index_value) (hp : g.replacement_policy = RR ∨ g.replacement_policy = RND)
    (n i : Nat) (s : State) (hI : Inv g s) :
    ∃ r, overrun_loop rnd tag index_value n i s = .ok r ∧ Inv g r := by
  induction n generalizing i s with
  | zero => exact ⟨s, rfl, hI⟩
  | succ n ih =>
    obtain ⟨s1, h1, hI1⟩ := cache_access_ok rnd g tag (index_value + i) s (by omega) hI hp
    obtain ⟨r, h2, hI2⟩ := ih (i + 1) s1 hI1
    exact ⟨r, by simp only [overrun_loop, h1, h2], hI2⟩

theorem handle_address_ok (rnd : Nat → Nat) (g : _args) (s : State) (address : List Char)
    (bytes_read : Int) (is_eip : Bool) (hI : Inv g s) (hfit : fields_fit g)
    (hbs : g.block_size ≠ 0) (hp : g.replacement_policy = RR ∨ g.replacement_policy = RND)
    (hlen : address.length = 8) (hhex : ∀ c ∈ address, c ∈ lower_hex_digits) :
    ∃ r, handle_address rnd s address bytes_read is_eip = .ok r ∧ Inv g r := by
  obtain ⟨bin, hbin0, -⟩ := hex2bin_loop_lower address hhex
  rw [hlen] at hbin0
  have hbin : hex2bin address = some bin := hbin0
  have hI0 : Inv g { s with args := { s.args with cpu_cycle := s.args.cpu_cycle + 1 } } :=
    Inv_frame g s _ hI rfl
  obtain ⟨-, -, -, e4, e5, e6, e7⟩ := hI.1
  have hfit2 : fields_fit { s.args with cpu_cycle := s.args.cpu_cycle + 1 } := by
    unfold fields_fit at hfit ⊢
    simp only [e5, e6, e7]
    exact hfit
  have hbs2 : ¬ (s.args.block_size = 0) := by rw [e4]; exact hbs
  obtain ⟨s1, h1, hI1⟩ := overrun_loop_ok rnd g
    (decode { s.args with cpu_cycle := s.args.cpu_cycle + 1 } bin).1
    (decode { s.args with cpu_cycle := s.args.cpu_cycle + 1 } bin).2.2.1
    (decode_index_nonneg _ bin) hp
    (num_overruns { s.args with cpu_cycle := s.args.cpu_cycle + 1 }
      (decode { s.args with cpu_cycle := s.args.cpu_cycle + 1 } bin).2.2.2 bytes_read).toNat
    0 _ hI0
  cases is_eip with
  | true =>
    refine ⟨_, ?_, Inv_frame g s1 { s1.args with
        cpi_cycles := wrap32 (s1.args.cpi_cycles + 2)
        num_instructions := wrap32 (s1.args.num_instructions + 1) } hI1 rfl⟩
    simp only [handle_address, hbin, hfit2, not_true_eq_false, if_false, hbs2, h1, if_true]
  | false =>
    refine ⟨_, ?_, Inv_frame g s1 { s1.args with
        cpi_cycles := wrap32 (s1.args.cpi_cycles + 1) } hI1 rfl⟩
    simp only [handle_address, hbin, hfit2, not_true_eq_false, if_false, hbs2, h1]
    rfl

theorem handle_addresses_ok (rnd : Nat → Nat) (g : _args) (accesses : List Access)
    (hfit : fields_fit g) (hbs : g.block_size ≠ 0)
    (hp : g.replacement_policy = RR ∨ g.replacement_policy = RND)
    (hhex : ∀ x ∈ accesses, x.address.length = 8 ∧ ∀ c ∈ x.address, c ∈ lower_hex_digits)
    (s : State) (hI : Inv g s) :
    ∃ r, handle_addresses rnd accesses s = .ok r ∧ Inv g r := by
  induction accesses generalizing s with
  | nil => exact ⟨s, rfl, hI⟩
  | cons x rest ih =>
    obtain ⟨h1, h2⟩ := hhex x (List.mem_cons_self _ _)
    obtain ⟨s1, e1, hI1⟩ := handle_address_ok rnd g s x.address x.bytes_read x.is_eip hI hfit hbs
      hp h1 h2
    obtain ⟨r, e2, hI2⟩ := ih (fun y hy => hhex y (List.mem_cons_of_mem _ hy)) s1 hI1
    exact ⟨r, by simp only [handle_addresses, e1, e2], hI2⟩

theorem conserved_step (rnd : Nat → Nat) (tag : List Char) (idx : Int) (s r : State)
    (_hidx : 0 ≤ idx) (hc : conserved s.args)
    (h : final_state (cache_access rnd tag idx s) = some r) : conserved r.args := by
  obtain ⟨h1, h2⟩ := hc
  unfold conserved
  rcases cache_access_counters rnd tag idx s r h with e | e | e <;> rw [e] <;> simp only <;>
    constructor <;> omega

theorem conserved_frame (s : State) (args2 : _args) (hc : conserved s.args)
    (h : same_core s.args args2) : conserved ({ s with args := args2 } : State).args := by
  unfold same_core at h
  unfold conserved at hc ⊢
  simp only
  rw [h]
  exact hc

/-- C1: counter conservation.  Starting from zero counters and the all-invalid cache,
whatever the geometry, policy, random draws, addresses, widths and flags, the state in
which a sequence of `handle_address` calls ends (by return or by `exit`) satisfies
`cache_hits + compulsory_misses + conflict_misses = total_cache_accesses` and
`cache_misses = compulsory_misses + conflict_misses`; over a well-formed geometry with
policy `RR` or `RND` and lower-case hexadecimal addresses the sequence does return; and
each single cache access that returns increments `total_cache_accesses` by one and
exactly one of `cache_hits`, `compulsory_misses`, `conflict_misses` by one. -/
theorem counter_conservation (rnd : Nat → Nat) (g : _args) (accesses : List Access)
    (h0 : g.total_cache_accesses = 0 ∧ g.cache_hits = 0 ∧ g.cache_misses = 0 ∧
      g.compulsory_misses = 0 ∧ g.conflict_misses = 0) :
    (∀ s, final_state (handle_addresses rnd accesses (init_state g)) = some s →
      s.args.cache_hits + s.args.compulsory_misses + s.args.conflict_misses =
        s.args.total_cache_accesses ∧
      s.args.cache_misses = s.args.compulsory_misses + s.args.conflict_misses) ∧
    (0 < g.associativity → 0 < g.num_blocks → g.associativity ∣ g.num_blocks →
      fields_fit g → g.block_size ≠ 0 →
      (g.replacement_policy = RR ∨ g.replacement_policy = RND) →
      (∀ x ∈ accesses, x.address.length = 8 ∧ ∀ c ∈ x.address, c ∈ lower_hex_digits) →
      ∃ s, handle_addresses rnd accesses (init_state g) = .ok s) ∧
    (∀ (tag : List Char) (idx : Int) (s r : State), cache_access rnd tag idx s = .ok r →
      r.args.total_cache_accesses = s.args.total_cache_accesses + 1 ∧
      ((r.args.cache_hits = s.args.cache_hits + 1 ∧
          r.args.compulsory_misses = s.args.compulsory_misses ∧
          r.args.conflict_misses = s.args.conflict_misses ∧
          r.args.cache_misses = s.args.cache_misses) ∨
       (r.args.cache_hits = s.args.cache_hits ∧
          r.args.compulsory_misses = s.args.compulsory_misses + 1 ∧
          r.args.conflict_misses = s.args.conflict_misses ∧
          r.args.cache_misses = s.args.cache_misses + 1) ∨
       (r.args.cache_hits = s.args.cache_hits ∧
          r.args.compulsory_misses = s.args.compulsory_misses ∧
          r.args.conflict_misses = s.args.conflict_misses + 1 ∧
          r.args.cache_misses = s.args.cache_misses + 1))) := by
  refine ⟨?_, ?_, ?_⟩
  · intro s hs
    have hinit : conserved (init_state g).args := by
      obtain ⟨a1, a2, a3, a4, a5⟩ := h0
      unfold conserved init_state
      simp only [a1, a2, a3, a4, a5]
      decide
    exact handle_addresses_lift rnd (fun s => conserved s.args) conserved_frame
      (conserved_step rnd) accesses _ s hinit hs
  · intro hA hN hdvd hfit hbs hp hhex
    obtain ⟨r, hr, -⟩ := handle_addresses_ok rnd g accesses hfit hbs hp hhex _
      (Inv_init g hA hN hdvd)
    exact ⟨r, hr⟩
  · intro tag idx s r h
    rcases cache_access_counters rnd tag idx s r (by rw [h]; rfl) with e | e | e <;> rw [e] <;>
      simp

theorem counter_conservation_witness :
    ∃ s, handle_addresses (fun _ => 0)
        [⟨example_address, 4, true⟩, ⟨example_address, 4, true⟩]
        (init_state direct_mapped_1k) = .ok s ∧
      s.args.total_cache_accesses = 2 ∧
      s.args.cache_hits + s.args.compulsory_misses + s.args.conflict_misses = 2 := by
  obtain ⟨h1, h2, -⟩ := counter_conservation (fun _ => 0) direct_mapped_1k
    [⟨example_address, 4, true⟩, ⟨example_address, 4, true⟩]
    ⟨rfl, rfl, rfl, rfl, rfl⟩
  obtain ⟨s, hs⟩ := h2 (by decide) (by decide) ⟨256, by decide⟩ (by decide) (by decide)
    (Or.inl rfl) (by decide)
  have ht : s.args.total_cache_accesses = 2 := by
    have e : handle_addresses (fun _ => 0)
        [⟨example_address, 4, true⟩, ⟨example_address, 4, true⟩]
        (init_state direct_mapped_1k) = .ok { one_access_state with
          args := { one_access_state.args with
            total_cache_accesses := 2, cache_hits := 1, cpi_cycles := 9, num_instructions := 2,
            cpu_cycle := 2 }
          log := ⟨example_tag, 217, 217, .hit 0⟩ :: one_access_state.log } := by
      simp only [handle_addresses, first_access_eval, second_access_eval]
    rw [e] at hs
    cases hs
    rfl
  refine ⟨s, hs, ht, ?_⟩
  rw [← ht]
  exact (h1 s (by rw [hs]; rfl)).1

theorem log_ok_suffix (g : _args) (post : List Event) (e : Event) (pre : List Event)
    (h : log_ok g (post ++ e :: pre)) : log_ok g (e :: pre) := by
  induction post with
  | nil => exact h
  | cons x post ih => exact ih h.1

theorem conflicts_in_append (row : Int) (xs ys : List Event) :
    conflicts_in row (xs ++ ys) = conflicts_in row xs + conflicts_in row ys := by
  simp only [conflicts_in, List.filter_append, List.length_append]

theorem mod_ne_of_lt (k d : Nat) (A : Int) (hd : 0 < d) (hA : (d : Int) < A) :
    (k : Int) % A ≠ ((k + d : Nat) : Int) % A := by
  intro h
  have h1 : (((k + d : Nat) : Int) - (k : Int)) % A = 0 :=
    Int.emod_eq_emod_iff_emod_sub_eq_zero.mp h.symm
  have h2 : A ∣ (d : Int) := by
    have := Int.dvd_of_emod_eq_zero h1
    push_cast at this
    simpa using this
  have h3 := Int.le_of_dvd (by omega) h2
  omega

/-- Under `RR`, in a state satisfying the invariant, an access that finds its row full
and without the tag replaces the block at offset `k mod A`, `k` being the number of
earlier conflicts in the row, and advances the `rr` counter of every block of the row. -/
theorem conflict_step_RR (rnd : Nat → Nat) (g : _args) (s : State) (tag : List Char)
    (idx : Int) (hI : Inv g s) (hp : g.replacement_policy = RR) (hidx : 0 ≤ idx)
    (hfull : ∀ (j : Nat) (b : block), (j : Int) < g.associativity →
      read s.cache (row_start g idx + j) = some b →
        ¬ (b.valid = 1 ∧ b.tag = tag) ∧ ¬ b.valid = 0) :
    ∃ (s2 : State) (o : Nat),
      (o : Int) = (conflicts_in (row_start g idx) s.log : Int) % g.associativity ∧
      cache_access rnd tag idx s = .ok s2 ∧
      s2.log = ⟨tag, idx, row_start g idx, .conflict o⟩ :: s.log ∧
      s2.args.conflict_misses = s.args.conflict_misses + 1 ∧
      (∃ b, read s2.cache (row_start g idx + o) = some b ∧ b.valid = 1 ∧ b.tag = tag ∧
        b.timestamp = s.args.cpu_cycle) ∧
      (∀ (j : Nat) (b : block), (j : Int) < g.associativity →
        read s.cache (row_start g idx + j) = some b →
        ∃ b2, read s2.cache (row_start g idx + j) = some b2 ∧
          b2.rr = (b.rr + 1) % g.associativity) := by
  obtain ⟨a, n, hA, hN, ha, hn, hdvd, hlen⟩ := well_formed_nat hI.2.1
  have hsg := hI.1
  have hgA : g.associativity = a := by rw [← hsg.1, hA]
  have hrs : row_start s.args idx = row_start g idx := row_start_congr g s.args idx hsg.1 hsg.2.1
  obtain ⟨m, hm, hmb, hcases⟩ := cache_access_cases rnd tag idx s a n hA hN ha hn hdvd hlen hidx
  rw [hrs] at hm
  rw [hm, hgA] at hfull ⊢
  rcases hcases with ⟨j, b, h1, h2, h3, h4, -, -⟩ | ⟨-, hc2⟩
  · exact absurd ⟨h4, h3⟩ (hfull j b (by omega) (by rw [read_nat]; exact h2)).1
  · rcases hc2 with ⟨j, b, h1, h2, h3, -, -⟩ | ⟨-, h5⟩
    · exact absurd h3 (hfull j b (by omega) (by rw [read_nat]; exact h2)).2
    · have hIc : Inv g { s with
          args := { s.args with
            total_cache_accesses := s.args.total_cache_accesses + 1
            cpi_cycles := wrap32 (s.args.cpi_cycles + 4 * Int.tdiv s.args.block_size 4)
            cache_misses := s.args.cache_misses + 1
            conflict_misses := s.args.conflict_misses + 1 } } := Inv_args g s _ hI hsg
      obtain ⟨o, rc, cache2, b0, ho, hoRR, hb0, h4, hl2, hc2⟩ :=
        replace_block_ok rnd g _ tag idx a m hIc hgA ha (by simp only; omega) (Or.inl hp)
      simp only at hoRR hb0 h4 hl2 hc2
      have hoe := hoRR hp
      have hb0rr : b0.rr = ((conflicts_in ((a * m : Nat) : Int) s.log % a : Nat) : Int) := by
        have := hI.2.2.1 (a * m) b0 hb0
        have e := row_of_in_row g a m 0 hgA ha
        rw [Nat.add_zero] at e
        rw [e, hgA] at this
        rw [this]; push_cast; rfl
      refine ⟨_, o, ?_, by rw [h5]; exact h4, rfl, rfl, ?_, ?_⟩
      · rw [hoe]; push_cast; rfl
      · have hlt : a * m + o < s.cache.length := by omega
        have c : a * m ≤ a * m + o ∧ a * m + o < a * m + a := by omega
        have hx := hc2 (a * m + o)
        simp only [c, and_self, if_true, List.getElem?_eq_getElem hlt, Option.map_some'] at hx
        exact ⟨_, by rw [read_nat]; exact hx, rfl, rfl, rfl⟩
      · intro j b hj hb
        rw [read_nat] at hb
        have hja : j < a := by omega
        have c : a * m ≤ a * m + j ∧ a * m + j < a * m + a := by omega
        have hbrr : b.rr = b0.rr := by
          have := hI.2.2.1 (a * m + j) b hb
          rw [row_of_in_row g a m j hgA hja, hgA] at this
          rw [this, hb0rr]; push_cast; rfl
        have h0 : 0 ≤ b0.rr := by rw [hb0rr]; omega
        have hx := hc2 (a * m + j)
        simp only [c, and_self, if_true, hb, Option.map_some'] at hx
        refine ⟨_, by rw [read_nat]; exact hx, ?_⟩
        simp only
        rw [hbrr, Int.tmod_eq_emod (by omega) (by omega)]

/-- C8: round-robin cycling.  Over a well-formed geometry with policy `RR`, every run of
`handle_address` over a sequence of addresses from the initial cache is free of
undefined behaviour and ends in a state `s` such that: (a) every conflict miss in the
history replaced the offset `k mod A`, `k` being the number of earlier conflict misses in
its row; (b) two conflict misses of one row with fewer than `A` conflicts of that row
from the first to the second replaced different offsets; (c) the `rr` field of every
block is the number of conflicts of its row modulo `A`; (d) a further access that
conflicts replaces offset `k mod A`, installs the tag there and leaves `(rr+1) mod A` in
the `rr` field of every block of the row. -/
theorem round_robin_cycling (rnd : Nat → Nat) (g : _args) (accesses : List Access)
    (hA : 0 < g.associativity) (hN : 0 < g.num_blocks)
    (hdvd : g.associativity ∣ g.num_blocks) (hfit : fields_fit g) (hbs : g.block_size ≠ 0)
    (hp : g.replacement_policy = RR) :
    ∃ s, final_state (handle_addresses rnd accesses (init_state g)) = some s ∧
      (∀ (post : List Event) (e : Event) (pre : List Event) (off : Int),
        s.log = post ++ e :: pre → e.kind = .conflict off →
        off = (conflicts_in e.row pre : Int) % g.associativity) ∧
      (∀ (post : List Event) (e2 : Event) (mid : List Event) (e1 : Event) (pre : List Event)
        (off1 off2 : Int),
        s.log = post ++ e2 :: (mid ++ e1 :: pre) → e1.kind = .conflict off1 →
        e2.kind = .conflict off2 → e1.row = e2.row →
        (conflicts_in e1.row mid : Int) + 1 < g.associativity → off1 ≠ off2) ∧
      (∀ (i : Nat) (b : block), s.cache[i]? = some b →
        b.rr = (conflicts_in (row_of g i) s.log : Int) % g.associativity) ∧
      (∀ (tag : List Char) (idx : Int), 0 ≤ idx →
        (∀ (j : Nat) (b : block), (j : Int) < g.associativity →
          read s.cache (row_start g idx + j) = some b →
            ¬ (b.valid = 1 ∧ b.tag = tag) ∧ ¬ b.valid = 0) →
        ∃ (s2 : State) (o : Nat),
          (o : Int) = (conflicts_in (row_start g idx) s.log : Int) % g.associativity ∧
          cache_access rnd tag idx s = .ok s2 ∧
          s2.log = ⟨tag, idx, row_start g idx, .conflict o⟩ :: s.log ∧
          s2.args.conflict_misses = s.args.conflict_misses + 1 ∧
          (∃ b, read s2.cache (row_start g idx + o) = some b ∧ b.valid = 1 ∧ b.tag = tag ∧
            b.timestamp = s.args.cpu_cycle) ∧
          (∀ (j : Nat) (b : block), (j : Int) < g.associativity →
            read s.cache (row_start g idx + j) = some b →
            ∃ b2, read s2.cache (row_start g idx + j) = some b2 ∧
              b2.rr = (b.rr + 1) % g.associativity)) := by
  obtain ⟨s, hs, hI⟩ := run_Inv rnd g accesses hA hN hdvd hfit hbs
  have hlog := hI.2.2.2.2
  have ha : ∀ (post : List Event) (e : Event) (pre : List Event) (off : Int),
      s.log = post ++ e :: pre → e.kind = .conflict off →
      off = (conflicts_in e.row pre : Int) % g.associativity := by
    intro post e pre off hsplit hk
    rw [hsplit] at hlog
    exact (log_ok_suffix g post e pre hlog).2.2.2.2 off hk hp
  refine ⟨s, hs, ha, ?_, hI.2.2.1, ?_⟩
  · intro post e2 mid e1 pre off1 off2 hsplit hk1 hk2 hrow hlt
    have h1 := ha (post ++ e2 :: mid) e1 pre off1 (by rw [hsplit]; simp) hk1
    have h2 := ha post e2 (mid ++ e1 :: pre) off2 hsplit hk2
    rw [← hrow, conflicts_in_append, conflicts_in_cons] at h2
    have hc : is_conflict_in e1.row e1 = true := by
      simp [is_conflict_in, hk1]
    simp only [hc, if_true] at h2
    rw [h1, h2]
    have e : conflicts_in e1.row mid + (conflicts_in e1.row pre + 1) =
        conflicts_in e1.row pre + (conflicts_in e1.row mid + 1) := by omega
    rw [e]
    exact mod_ne_of_lt _ _ _ (by omega) (by push_cast; omega)
  · intro tag idx hidx hfull
    exact conflict_step_RR rnd g s tag idx hI hp hidx hfull

/-- C9: the first access to a row/tag combination is never a hit.  Over a well-formed
geometry, every run of `handle_address` over a sequence of addresses from the initial
all-invalid cache is free of undefined behaviour and ends in a state `s` such that:
every hit in the history was preceded by an access with the same tag to the same row;
the row of every recorded access is `(idx * associativity) mod num_blocks`; and a
further access is counted as a hit only if the history holds an access with its tag to
its row. -/
theorem first_access_not_hit (rnd : Nat → Nat) (g : _args) (accesses : List Access)
    (hA : 0 < g.associativity) (hN : 0 < g.num_blocks)
    (hdvd : g.associativity ∣ g.num_blocks) (hfit : fields_fit g) (hbs : g.block_size ≠ 0) :
    ∃ s, final_state (handle_addresses rnd accesses (init_state g)) = some s ∧
      (∀ (post : List Event) (e : Event) (pre : List Event) (j : Nat),
        s.log = post ++ e :: pre → e.kind = .hit j →
        ∃ e2 ∈ pre, e2.tag = e.tag ∧ e2.row = e.row) ∧
      (∀ (post : List Event) (e : Event) (pre : List Event),
        s.log = post ++ e :: pre →
        0 ≤ e.idx ∧ e.row = Int.tmod (e.idx * g.associativity) g.num_blocks) ∧
      (∀ (tag : List Char) (idx : Int) (s2 : State), 0 ≤ idx →
        cache_access rnd tag idx s = .ok s2 → s2.args.cache_hits ≠ s.args.cache_hits →
        ∃ e ∈ s.log, e.tag = tag ∧ e.row = Int.tmod (idx * g.associativity) g.num_blocks) := by
  obtain ⟨s, hs, hI⟩ := run_Inv rnd g accesses hA hN hdvd hfit hbs
  have hlog := hI.2.2.2.2
  refine ⟨s, hs, ?_, ?_, ?_⟩
  · intro post e pre j hsplit hk
    rw [hsplit] at hlog
    exact (log_ok_suffix g post e pre hlog).2.2.2.1 j hk
  · intro post e pre hsplit
    rw [hsplit] at hlog
    obtain ⟨-, h1, h2, -⟩ := log_ok_suffix g post e pre hlog
    exact ⟨h1, h2⟩
  · intro tag idx s2 hidx hacc hne
    obtain ⟨a, n, hsA, hsN, ha, hn, hd, hlen⟩ := well_formed_nat hI.2.1
    have hsg := hI.1
    have hgA : g.associativity = a := by rw [← hsg.1, hsA]
    have hrs : row_start s.args idx = row_start g idx :=
      row_start_congr g s.args idx hsg.1 hsg.2.1
    obtain ⟨m, hm, hmb, hcases⟩ :=
      cache_access_cases rnd tag idx s a n hsA hsN ha hn hd hlen hidx
    rw [hrs] at hm
    rcases hcases with ⟨j, b, h1, h2, h3, h4, -, h6⟩ | ⟨-, hc2⟩
    · rcases hI.2.2.2.1 (a * m + j) b h2 with h | ⟨-, e, he, e1, e2⟩
      · rw [h4] at h; exact absurd h (by decide)
      · refine ⟨e, he, by rw [e1, h3], ?_⟩
        rw [e2, row_of_in_row g a m j hgA h1, ← hm]
        rfl
    · exfalso
      apply hne
      rcases cache_access_counters rnd tag idx s s2 (by rw [hacc]; rfl) with e | e | e
      · rcases hc2 with ⟨j, b, -, -, -, -, h5⟩ | ⟨-, h5⟩
        · rw [h5] at hacc
          simp only [Except.ok.injEq] at hacc
          rw [← hacc]
        · have := replace_block_args rnd tag idx _ _ s2 (by rw [← h5, hacc]; rfl)
          rw [this]
      · rw [e]
      · rw [e]

theorem same_row_run_eval :
    (final_state (handle_addresses (fun _ => 0) same_row_accesses (init_state two_way_1k))).map
        (fun s => s.log.map Event.kind) =
      some [.conflict 1, .conflict 0, .compulsory 1, .compulsory 0] := by
  rfl

theorem round_robin_cycling_witness :
    ∃ s, final_state (handle_addresses (fun _ => 0) same_row_accesses (init_state two_way_1k)) =
        some s ∧
      s.log.map Event.kind = [.conflict 1, .conflict 0, .compulsory 1, .compulsory 0] ∧
      ∀ (post : List Event) (e : Event) (pre : List Event) (off : Int),
        s.log = post ++ e :: pre → e.kind = .conflict off →
        off = (conflicts_in e.row pre : Int) % 2 := by
  obtain ⟨s, hs, ha, -⟩ := round_robin_cycling (fun _ => 0) two_way_1k same_row_accesses
    (by decide) (by decide) ⟨128, by decide⟩ (by decide) (by decide) rfl
  have e := same_row_run_eval
  rw [hs] at e
  simp only [Option.map_some', Option.some.injEq] at e
  exact ⟨s, hs, e, ha⟩

theorem repeated_access_eval :
    (final_state (handle_addresses (fun _ => 0)
        [⟨example_address, 4, true⟩, ⟨example_address, 4, true⟩]
        (init_state direct_mapped_1k))).map (fun s => s.log) =
      some [⟨example_tag, 217, 217, .hit 0⟩, ⟨example_tag, 217, 217, .compulsory 0⟩] := by
  rfl

theorem first_access_not_hit_witness :
    ∃ s, final_state (handle_addresses (fun _ => 0)
        [⟨example_address, 4, true⟩, ⟨example_address, 4, true⟩]
        (init_state direct_mapped_1k)) = some s ∧
      s.log = [⟨example_tag, 217, 217, .hit 0⟩, ⟨example_tag, 217, 217, .compulsory 0⟩] ∧
      ∀ (post : List Event) (e : Event) (pre : List Event) (j : Nat),
        s.log = post ++ e :: pre → e.kind = .hit j →
        ∃ e2 ∈ pre, e2.tag = e.tag ∧ e2.row = e.row := by
  obtain ⟨s, hs, ha, -⟩ := first_access_not_hit (fun _ => 0) direct_mapped_1k
    [⟨example_address, 4, true⟩, ⟨example_address, 4, true⟩]
    (by decide) (by decide) ⟨256, by decide⟩ (by decide) (by decide)
  have e := repeated_access_eval
  rw [hs] at e
  simp only [Option.map_some', Option.some.injEq] at e
  exact ⟨s, hs, e, ha⟩

theorem find_tag_error (cache : List block) (r : Int) (tag : List Char) (n j : Nat) (e : Fault)
    (h : find_tag cache r tag n j = .error e) : e = .undefined := by
  induction n generalizing j with
  | zero => simp [find_tag] at h
  | succ n ih =>
    simp only [find_tag] at h
    split at h
    · simp at h; exact h.symm
    · split at h
      · simp at h
      · exact ih _ h

theorem find_empty_error (cache : List block) (r : Int) (n j : Nat) (e : Fault)
    (h : find_empty cache r n j = .error e) : e = .undefined := by
  induction n generalizing j with
  | zero => simp [find_empty] at h
  | succ n ih =>
    simp only [find_empty] at h
    split at h
    · simp at h; exact h.symm
    · split at h
      · simp at h
      · exact ih _ h

/-- `handle_address` as a composition: tick, decode, the cache-access loop, retire. -/
theorem handle_address_eq (rnd : Nat → Nat) (s : State) (address : List Char)
    (bytes_read : Int) (is_eip : Bool) :
    handle_address rnd s address bytes_read is_eip =
      match hex2bin address with
      | none => .error (.exit .unknown_hex (tick s))
      | some bin =>
        if ¬ fields_fit s.args then .error .undefined
        else if s.args.block_size = 0 then .error .undefined
        else
          match overrun_loop rnd (tag_field s.args bin) (to_decimal (index_field s.args bin))
            (num_overruns s.args (to_decimal (offset_field s.args bin)) bytes_read).toNat 0
            (tick s) with
          | .error e => .error e
          | .ok s1 => .ok (retire is_eip s1) := by
  unfold handle_address
  cases hex2bin address with
  | none => rfl
  | some bin =>
    simp only
    by_cases hfit : fields_fit s.args
    · have hfit0 : fields_fit { s.args with cpu_cycle := s.args.cpu_cycle + 1 } := hfit
      simp only [hfit, hfit0, not_true_eq_false, if_false]
      by_cases hbs : s.args.block_size = 0
      · simp only [hbs, if_true]
      · simp only [hbs, if_false]
        cases is_eip <;> rfl
    · have hfit0 : ¬ fields_fit { s.args with cpu_cycle := s.args.cpu_cycle + 1 } := hfit
      simp only [hfit, hfit0, not_false_eq_true, if_true]

/-- C10 (counterexample): `parse_args` stores `LRU` for `-r LRU` without error, and on
the 1 KB direct-mapped cache configured with `LRU` both the empty trace and the trace
with the single line `EIP (04): 7c809764 ...` are processed to the end: the run returns,
in the second case with one cache access, one miss and one address counted. -/
theorem lru_no_fail_fast_counterexample :
    parse_policy "LRU".toList = some LRU ∧
    (∃ s, trace_cache (fun _ => 0) [] (List.replicate 256 NUL)
        { direct_mapped_1k with replacement_policy := LRU } = .ok s ∧
      s.args.replacement_policy = LRU) ∧
    (∃ s, trace_cache (fun _ => 0) [example_line] (List.replicate 256 NUL)
        { direct_mapped_1k with replacement_policy := LRU } = .ok s ∧
      s.args.replacement_policy = LRU ∧ s.args.total_cache_accesses = 1 ∧
      s.args.cache_misses = 1 ∧ s.args.total_addresses = 1 ∧ s.args.num_instructions = 1) :=
  ⟨by decide, ⟨_, rfl, rfl⟩, ⟨_, rfl, rfl, rfl, rfl, rfl, rfl⟩⟩

/-- The geometry of a validated configuration in closed form, with the bounds on its
fields: at least 16 blocks, at least one row, `offset_size ≥ 2`, and
`index_size + offset_size ≤ 23`. -/
theorem validated_geometry (args : _args) (h : validated args) :
    ∃ (o i : Nat), 2 ≤ o ∧ i + o ≤ 23 ∧
      16 ≤ args.cache_size * 1024 / args.block_size ∧
      1 ≤ args.cache_size * 1024 / args.block_size / args.associativity ∧
      calculate_cache args = some { args with
        num_blocks := args.cache_size * 1024 / args.block_size
        num_rows := args.cache_size * 1024 / args.block_size / args.associativity
        index_size := i
        offset_size := o
        tag_size := 32 - i - o
        overhead_size :=
          args.cache_size * 1024 / args.block_size * (32 - (i : Int) - (o : Int) + 1) / 8
        mem_size_bytes := args.cache_size * 1024 +
          args.cache_size * 1024 / args.block_size * (32 - (i : Int) - (o : Int) + 1) / 8
        cpu_cycle := 0 } := by
  obtain ⟨o, i, ho1, ho2, hi1, hi2, hcalc⟩ := calculate_cache_validated args h
  have hnb := (validated_num_blocks h).2
  have hnr := (validated_num_rows h).2
  obtain ⟨⟨hc1, hc2⟩, ⟨hb1, hb2⟩, ha⟩ := h
  have ho : 2 ≤ o := by
    have : 2 < o + 1 := pow_two_le_imp_lt (e := 2) (n := args.block_size) (by norm_num; omega) ho2
    omega
  have hio : i + o < 24 := by
    apply pow_two_le_imp_lt (n := args.cache_size * 1024)
    · have h1 : args.cache_size * 1024 / args.block_size / args.associativity ≤
          args.cache_size * 1024 / args.block_size := Int.ediv_le_self _ (by omega)
      have h2 : args.cache_size * 1024 / args.block_size * args.block_size ≤
          args.cache_size * 1024 := Int.ediv_mul_le _ (by omega)
      have h3 : (2 : Int) ^ i * 2 ^ o ≤
          args.cache_size * 1024 / args.block_size / args.associativity * args.block_size :=
        mul_le_mul hi1 ho1 (by positivity) (by omega)
      have h4 : args.cache_size * 1024 / args.block_size / args.associativity * args.block_size ≤
          args.cache_size * 1024 / args.block_size * args.block_size :=
        mul_le_mul_of_nonneg_right h1 (by omega)
      rw [pow_add]
      omega
    · norm_num; omega
  exact ⟨o, i, ho, by omega, hnb, hnr, hcalc⟩

/-- For a validated configuration whose block size is a power of two the associativity
divides the number of blocks. -/
theorem validated_assoc_dvd (args : _args) (h : validated args)
    (hpow : args.block_size = 4 ∨ args.block_size = 8 ∨ args.block_size = 16 ∨
      args.block_size = 32 ∨ args.block_size = 64) :
    args.associativity ∣ args.cache_size * 1024 / args.block_size := by
  obtain ⟨-, -, ha⟩ := h
  rcases hpow with hb | hb | hb | hb | hb <;> rcases ha with ha | ha | ha | ha | ha <;>
    rw [hb, ha] <;> omega

/-- The geometry of a validated configuration, with the facts about its fields that the
rest of the program relies on. -/
theorem validated_geometry_fields (args : _args) (h : validated args) :
    ∃ g, calculate_cache args = some g ∧
      g.associativity = args.associativity ∧ g.block_size = args.block_size ∧
      g.num_blocks = args.cache_size * 1024 / args.block_size ∧
      16 ≤ g.num_blocks ∧ 1 ≤ g.num_rows ∧ 0 ≤ g.index_size ∧ 2 ≤ g.offset_size ∧
      g.index_size + g.offset_size ≤ 23 ∧
      g.tag_size = 32 - g.index_size - g.offset_size := by
  obtain ⟨o, i, ho, hio, hnb, hnr, hcalc⟩ := validated_geometry args h
  refine ⟨_, hcalc, rfl, rfl, rfl, hnb, hnr, ?_, ?_, ?_, rfl⟩
  · simp only; omega
  · simp only; omega
  · simp only; omega

/-- C20: for every validated configuration `calculate_cache` is defined and the derived
geometry is well formed: `num_blocks ≥ 16 ≥ associativity ≥ 1`, `num_rows ≥ 1` and
`block_size ≥ 4` (so `Log2` is applied to positive values and the modulus `num_blocks`
is not zero), `index_size ≥ 0`, `offset_size ≥ 2`, `9 ≤ tag_size ≤ 30`, and the three
field buffers of `handle_address` fit. -/
theorem derived_geometry_well_formed (args : _args) (h : validated args) :
    ∃ g, calculate_cache args = some g ∧
      16 ≤ g.num_blocks ∧ g.associativity ≤ 16 ∧ 1 ≤ g.associativity ∧
      1 ≤ g.num_rows ∧ 4 ≤ g.block_size ∧ g.num_blocks ≠ 0 ∧
      0 ≤ g.index_size ∧ 2 ≤ g.offset_size ∧ 9 ≤ g.tag_size ∧ g.tag_size ≤ 30 ∧
      fields_fit g := by
  obtain ⟨g, hcalc, gA, gB, gN, hnb, hnr, hi, ho, hio, ht⟩ := validated_geometry_fields args h
  obtain ⟨-, ⟨hb1, -⟩, ha⟩ := h
  refine ⟨g, hcalc, hnb, by omega, by omega, hnr, by omega, by omega, hi, ho, by omega,
    by omega, ?_⟩
  unfold fields_fit
  omega

theorem derived_geometry_well_formed_witness :
    validated (config 8192 64 16 RND) ∧
      ∃ g, calculate_cache (config 8192 64 16 RND) = some g ∧ 16 ≤ g.num_blocks ∧
        9 ≤ g.tag_size ∧ g.tag_size ≤ 30 := by
  refine ⟨by decide, ?_⟩
  obtain ⟨g, h1, h2, -, -, -, -, -, -, -, h3, h4, -⟩ :=
    derived_geometry_well_formed (config 8192 64 16 RND) (by decide)
  exact ⟨g, h1, h2, h3, h4⟩

/-- C15: index wrap is not a bounds violation.  For every validated configuration whose
block size is 4, 8, 16, 32 or 64, `calculate_cache` yields a geometry whose
associativity divides `num_blocks`; for every decoded address `bin` and every
sub-access `k`, the row start `((index_value + k) * associativity) mod num_blocks` is a
multiple of the associativity, and every block index `row_start + j` with
`0 ≤ j < associativity` lies in `[0, num_blocks)` and is read successfully from any
block array of `num_blocks` blocks; and no run of `handle_address` over a sequence of
addresses from the initial cache has undefined behaviour. -/
theorem index_wrap_in_bounds (args : _args) (h : validated args)
    (hpow : args.block_size = 4 ∨ args.block_size = 8 ∨ args.block_size = 16 ∨
      args.block_size = 32 ∨ args.block_size = 64) :
    ∃ g, calculate_cache args = some g ∧ g.associativity ∣ g.num_blocks ∧
      (∀ (bin : List Char) (k : Nat),
        g.associativity ∣ row_start g ((decode g bin).2.2.1 + k) ∧
        ∀ (j : Nat), (j : Int) < g.associativity →
          0 ≤ row_start g ((decode g bin).2.2.1 + k) + j ∧
          row_start g ((decode g bin).2.2.1 + k) + j < g.num_blocks ∧
          ∀ (cache : List block), (cache.length : Int) = g.num_blocks →
            ∃ b, read cache (row_start g ((decode g bin).2.2.1 + k) + j) = some b) ∧
      (∀ (rnd : Nat → Nat) (accesses : List Access),
        handle_addresses rnd accesses (init_state g) ≠ .error .undefined) := by
  obtain ⟨g, hcalc, gA, gB, gN, hnb, hnr, hi, ho, hio, ht⟩ := validated_geometry_fields args h
  have hdvd := validated_assoc_dvd args h hpow
  rw [← gA, ← gN] at hdvd
  obtain ⟨-, ⟨hb1, -⟩, ha⟩ := h
  have hA : 0 < g.associativity := by omega
  have hdvdN : g.associativity.toNat ∣ g.num_blocks.toNat := by
    have e1 : g.associativity = (g.associativity.toNat : Int) := by omega
    have e2 : g.num_blocks = (g.num_blocks.toNat : Int) := by omega
    rw [e1, e2] at hdvd
    exact Int.natCast_dvd_natCast.mp hdvd
  refine ⟨g, hcalc, hdvd, ?_, ?_⟩
  · intro bin k
    obtain ⟨m, hm, hmb⟩ := row_start_spec g ((decode g bin).2.2.1 + k)
      g.associativity.toNat g.num_blocks.toNat (by omega) (by omega) (by omega) (by omega) hdvdN
      (by have := decode_index_nonneg g bin; omega)
    rw [hm]
    refine ⟨⟨m, by push_cast; rw [Int.toNat_of_nonneg (by omega)]⟩, ?_⟩
    intro j hj
    refine ⟨by omega, by omega, ?_⟩
    intro cache hlen
    have hlt : g.associativity.toNat * m + j < cache.length := by omega
    exact ⟨_, by rw [read_nat]; exact List.getElem?_eq_getElem hlt⟩
  · intro rnd accesses hu
    obtain ⟨s, hs, -⟩ := run_Inv rnd g accesses hA (by omega) hdvd
      (by unfold fields_fit; omega) (by omega)
    rw [hu] at hs
    simp [final_state] at hs

theorem index_wrap_in_bounds_witness :
    ∃ g, calculate_cache (config 1 4 2 RR) = some g ∧ g.associativity ∣ g.num_blocks ∧
      ∀ (rnd : Nat → Nat) (accesses : List Access),
        handle_addresses rnd accesses (init_state g) ≠ .error .undefined := by
  obtain ⟨g, h1, h2, -, h3⟩ := index_wrap_in_bounds (config 1 4 2 RR) (by decide)
    (Or.inl rfl)
  exact ⟨g, h1, h2, h3⟩

theorem replace_block_shape (rnd : Nat → Nat) (tag : List Char) (idx r0 : Int) (s r : State)
    (h : replace_block rnd tag idx r0 s = .ok r) :
    r.args = s.args ∧ ∃ off, r.log = ⟨tag, idx, r0, .conflict off⟩ :: s.log := by
  unfold replace_block at h
  split at h
  · simp at h
  · split at h
    · simp at h
    · split at h
      · simp at h
      · split at h
        · simp at h
        · simp only at h
          split at h
          · simp at h
          · simp only [Except.ok.injEq] at h
            rw [← h]
            exact ⟨rfl, _, rfl⟩

/-- A cache access that returns has recorded one event, with the tag, the index value
and the row start, and has updated the counters of the branch that event names. -/
theorem cache_access_event (rnd : Nat → Nat) (tag : List Char) (idx : Int) (s r : State)
    (h : cache_access rnd tag idx s = .ok r) :
    ∃ k, r.log = ⟨tag, idx, row_start s.args idx, k⟩ :: s.log ∧
      r.args = { s.args with
        total_cache_accesses := s.args.total_cache_accesses + 1
        cache_hits := r.args.cache_hits
        cache_misses := r.args.cache_misses
        compulsory_misses := r.args.compulsory_misses
        conflict_misses := r.args.conflict_misses
        cpi_cycles := wrap32 (s.args.cpi_cycles + access_cost s.args k) } := by
  unfold cache_access at h
  simp only at h
  split at h
  · simp at h
  · split at h
    · simp at h
    · simp only [Except.ok.injEq] at h
      rw [← h]
      exact ⟨_, rfl, rfl⟩
    · split at h
      · simp at h
      · split at h
        · simp at h
        · simp only [Except.ok.injEq] at h
          rw [← h]
          exact ⟨_, rfl, rfl⟩
      · obtain ⟨h1, off, h2⟩ := replace_block_shape rnd tag idx _ _ r h
        refine ⟨_, h2, ?_⟩
        rw [h1]
        rfl

theorem access_frame_refl (a : _args) : access_frame a a := rfl

theorem access_frame_trans {a b c : _args} (h1 : access_frame a b) (h2 : access_frame b c) :
    access_frame a c := by
  unfold access_frame at *
  rw [h2, h1]

theorem access_frame_of_event {s r : State} {k : Kind}
    (h : r.args = { s.args with
        total_cache_accesses := s.args.total_cache_accesses + 1
        cache_hits := r.args.cache_hits
        cache_misses := r.args.cache_misses
        compulsory_misses := r.args.compulsory_misses
        conflict_misses := r.args.conflict_misses
        cpi_cycles := wrap32 (s.args.cpi_cycles + access_cost s.args k) }) :
    access_frame s.args r.args := by
  unfold access_frame
  rw [h]


theorem wrap32_val (x : Int) : ((wrap32 x : Nat) : Int) = x % 4294967296 := by
  unfold wrap32
  exact Int.toNat_of_nonneg (Int.emod_nonneg _ (by decide))

theorem access_frame_fields {a b : _args} (h : access_frame a b) :
    b.associativity = a.associativity ∧ b.num_blocks = a.num_blocks ∧
    b.block_size = a.block_size ∧ b.replacement_policy = a.replacement_policy ∧
    b.num_instructions = a.num_instructions ∧ b.total_addresses = a.total_addresses ∧
    b.cpu_cycle = a.cpu_cycle ∧ b.tag_size = a.tag_size ∧ b.index_size = a.index_size ∧
    b.offset_size = a.offset_size := by
  unfold access_frame at h
  rw [h]
  simp only [and_self]

theorem log_cost_congr {a b : _args} (h : b.block_size = a.block_size) (events : List Event) :
    log_cost b events = log_cost a events := by
  unfold log_cost access_cost
  rw [h]

theorem log_cost_append (a : _args) (xs ys : List Event) :
    log_cost a (xs ++ ys) = log_cost a xs + log_cost a ys := by
  simp only [log_cost, List.map_append, List.sum_append]

theorem log_cost_single (a : _args) (e : Event) : log_cost a [e] = access_cost a e.kind := by
  simp [log_cost]

/-- The cache-access loop, when it returns after `n` iterations from iteration `i`, has
recorded `n` events, the `k`-th for index value `index_value + i + k`, has added `n` to
`total_cache_accesses` and their cost to `cpi_cycles` (modulo `2^32`), and has changed
nothing in the argument structure but the six access statistics. -/
theorem overrun_loop_events (rnd : Nat → Nat) (tag : List Char) (index_value : Int)
    (n i : Nat) (s r : State) (h : overrun_loop rnd tag index_value n i s = .ok r) :
    ∃ events, r.log = events ++ s.log ∧ events.length = n ∧
      (∀ k, k < n → ∃ e, events.reverse[k]? = some e ∧ e.tag = tag ∧
        e.idx = index_value + ((i + k : Nat) : Int) ∧
        e.row = row_start s.args (index_value + ((i + k : Nat) : Int))) ∧
      access_frame s.args r.args ∧
      r.args.total_cache_accesses = s.args.total_cache_accesses + n ∧
      (r.args.cpi_cycles : Int) % 4294967296 =
        (s.args.cpi_cycles + log_cost s.args events) % 4294967296 := by
  induction n generalizing i s with
  | zero =>
    simp only [overrun_loop, Except.ok.injEq] at h
    subst h
    refine ⟨[], rfl, rfl, ?_, access_frame_refl _, by simp, by simp [log_cost]⟩
    intro k hk; omega
  | succ n ih =>
    simp only [overrun_loop] at h
    cases hc : cache_access rnd tag (index_value + i) s with
    | error e => rw [hc] at h; simp at h
    | ok s1 =>
      rw [hc] at h
      dsimp only at h
      obtain ⟨k0, hlog0, hargs0⟩ := cache_access_event rnd tag _ s s1 hc
      have hf0 := access_frame_of_event hargs0
      obtain ⟨fA, fN, fB, -⟩ := access_frame_fields hf0
      obtain ⟨events1, h1, h2, h3, h4, h5, h6⟩ := ih (i + 1) s1 h
      have hrs : ∀ x, row_start s1.args x = row_start s.args x :=
        fun x => row_start_congr s.args s1.args x fA fN
      refine ⟨events1 ++ [⟨tag, index_value + i, row_start s.args (index_value + i), k0⟩],
        ?_, ?_, ?_, access_frame_trans hf0 h4, ?_, ?_⟩
      · rw [h1, hlog0]; simp
      · simp [h2]
      · intro k hk
        rw [List.reverse_append]
        cases k with
        | zero =>
          exact ⟨⟨tag, index_value + i, row_start s.args (index_value + i), k0⟩,
            by simp, rfl, by simp, by simp⟩
        | succ k =>
          obtain ⟨e, e1, e2, e3, e4⟩ := h3 k (by omega)
          have ei : ((i + 1 + k : Nat) : Int) = ((i + (k + 1) : Nat) : Int) := by
            push_cast; ring
          refine ⟨e, by simpa using e1, e2, by rw [e3, ei], by rw [e4, hrs, ei]⟩
      · rw [h5, hargs0]; push_cast; ring
      · rw [h6, log_cost_append, log_cost_single, log_cost_congr fB]
        have hcp : s1.args.cpi_cycles = wrap32 (s.args.cpi_cycles + access_cost s.args k0) := by
          rw [hargs0]
        have hw := wrap32_val (s.args.cpi_cycles + access_cost s.args k0)
        rw [hcp]
        show _ = (_ + (_ + access_cost s.args k0)) % _
        generalize access_cost s.args k0 = c0 at hw ⊢
        generalize log_cost s.args events1 = c1 at hw ⊢
        omega

theorem decode_congr (g a : _args) (bin : List Char) (h : same_geometry g a) :
    decode a bin = decode g bin := by
  obtain ⟨-, -, -, -, e5, e6, e7⟩ := h
  simp only [decode, tag_field, index_field, offset_field, e5, e6, e7]

theorem num_overruns_congr (g a : _args) (x w : Int) (h : a.block_size = g.block_size) :
    num_overruns a x w = num_overruns g x w := by
  simp only [num_overruns, h]

/-- Line 243 computes a ceiling: for a positive block size, `num_overruns` is the least
integer `n` with `offset_value + bytes_read ≤ block_size * n`. -/
theorem num_overruns_ceil (g : _args) (x w : Int) (hbs : 0 < g.block_size) :
    g.block_size * (num_overruns g x w - 1) < x + w ∧
      x + w ≤ g.block_size * num_overruns g x w := by
  unfold num_overruns
  rw [Int.fdiv_eq_ediv _ (le_of_lt hbs)]
  have h1 := Int.emod_add_ediv (-(x + w)) g.block_size
  have h2 := Int.emod_nonneg (-(x + w)) (ne_of_gt hbs)
  have h3 := Int.emod_lt_of_pos (-(x + w)) hbs
  constructor
  · have : g.block_size * (-(-(x + w) / g.block_size) - 1) =
        -(g.block_size * (-(x + w) / g.block_size)) - g.block_size := by ring
    rw [this]; omega
  · have : g.block_size * -(-(x + w) / g.block_size) =
        -(g.block_size * (-(x + w) / g.block_size)) := by ring
    rw [this]; omega

theorem num_overruns_pos (g : _args) (x w : Int) (hbs : 0 < g.block_size) (h : 1 ≤ x + w) :
    1 ≤ num_overruns g x w := by
  have h2 := (num_overruns_ceil g x w hbs).2
  by_contra hc
  have : g.block_size * num_overruns g x w ≤ 0 :=
    Int.mul_nonpos_of_nonneg_of_nonpos (le_of_lt hbs) (by omega)
  omega

theorem num_overruns_nonneg (g : _args) (x w : Int) (hbs : 0 < g.block_size) (h : 0 ≤ x + w) :
    0 ≤ num_overruns g x w := by
  have h1 := (num_overruns_ceil g x w hbs).2
  by_contra hc
  have : g.block_size * num_overruns g x w ≤ g.block_size * (-1) :=
    Int.mul_le_mul_of_nonneg_left (by omega) (le_of_lt hbs)
  omega

theorem num_overruns_one (g : _args) (x w : Int) (hbs : 0 < g.block_size) (h : 1 ≤ x + w)
    (h2 : x + w ≤ g.block_size) : num_overruns g x w = 1 := by
  have h1 := (num_overruns_ceil g x w hbs).1
  have hp := num_overruns_pos g x w hbs h
  by_contra hc
  have : g.block_size * 1 ≤ g.block_size * (num_overruns g x w - 1) :=
    Int.mul_le_mul_of_nonneg_left (by omega) (le_of_lt hbs)
  omega

theorem num_overruns_two (g : _args) (x w : Int) (hbs : 0 < g.block_size)
    (h : g.block_size < x + w) (h2 : x + w ≤ 2 * g.block_size) : num_overruns g x w = 2 := by
  obtain ⟨h1, h3⟩ := num_overruns_ceil g x w hbs
  by_contra hc
  rcases Int.lt_or_gt_of_ne hc with hlt | hgt
  · have : g.block_size * num_overruns g x w ≤ g.block_size * 1 :=
      Int.mul_le_mul_of_nonneg_left (by omega) (le_of_lt hbs)
    omega
  · have : g.block_size * 2 ≤ g.block_size * (num_overruns g x w - 1) :=
      Int.mul_le_mul_of_nonneg_left (by omega) (le_of_lt hbs)
    omega

theorem num_overruns_zero (g : _args) (hbs : 0 < g.block_size) : num_overruns g 0 0 = 0 := by
  obtain ⟨h1, h3⟩ := num_overruns_ceil g 0 0 hbs
  by_contra hc
  rcases Int.lt_or_gt_of_ne hc with hlt | hgt
  · have : g.block_size * num_overruns g 0 0 ≤ g.block_size * (-1) :=
      Int.mul_le_mul_of_nonneg_left (by omega) (le_of_lt hbs)
    omega
  · have : g.block_size * 0 ≤ g.block_size * (num_overruns g 0 0 - 1) :=
      Int.mul_le_mul_of_nonneg_left (by omega) (le_of_lt hbs)
    omega

/-- Under the run invariant and a policy that is implemented, `handle_address` on an
address that `hex2bin` accepts runs the cache-access loop to its end and returns: the
result is the loop's final state with the closing cycles of lines 331-335. -/
theorem handle_address_run (rnd : Nat → Nat) (g : _args) (s : State) (address bin : List Char)
    (bytes_read : Int) (is_eip : Bool) (hI : Inv g s) (hfit : fields_fit g)
    (hbs : g.block_size ≠ 0) (hp : g.replacement_policy = RR ∨ g.replacement_policy = RND)
    (hbin : hex2bin address = some bin) :
    ∃ s1, overrun_loop rnd (decode g bin).1 (decode g bin).2.2.1
        (num_overruns g (decode g bin).2.2.2 bytes_read).toNat 0 (tick s) = .ok s1 ∧
      Inv g s1 ∧ handle_address rnd s address bytes_read is_eip = .ok (retire is_eip s1) := by
  have hI0 : Inv g (tick s) := Inv_frame g s _ hI rfl
  have hsg := hI.1
  obtain ⟨-, -, -, e4, e5, e6, e7⟩ := hI.1
  have hfit2 : fields_fit s.args := by
    unfold fields_fit at hfit ⊢
    simp only [e5, e6, e7]
    exact hfit
  have hbs2 : ¬ (s.args.block_size = 0) := by rw [e4]; exact hbs
  obtain ⟨s1, h1, hI1⟩ := overrun_loop_ok rnd g (decode g bin).1 (decode g bin).2.2.1
    (decode_index_nonneg _ bin) hp
    (num_overruns g (decode g bin).2.2.2 bytes_read).toNat 0 _ hI0
  refine ⟨s1, h1, hI1, ?_⟩
  have hd := decode_congr g s.args bin hsg
  have hn := num_overruns_congr g s.args (decode g bin).2.2.2 bytes_read e4
  rw [handle_address_eq, hbin]
  simp only [hfit2, not_true_eq_false, if_false, hbs2]
  have t1 : tag_field s.args bin = (decode g bin).1 := by rw [← hd]; rfl
  have t2 : to_decimal (index_field s.args bin) = (decode g bin).2.2.1 := by rw [← hd]; rfl
  have t3 : to_decimal (offset_field s.args bin) = (decode g bin).2.2.2 := by rw [← hd]; rfl
  rw [t1, t2, t3, hn, h1]

/-- The hit and miss counters after a cache access that returns, by the branch its event
names. -/
theorem cache_access_event_counts (rnd : Nat → Nat) (tag : List Char) (idx : Int) (s r : State)
    (h : cache_access rnd tag idx s = .ok r) :
    ∃ k, r.log = ⟨tag, idx, row_start s.args idx, k⟩ :: s.log ∧
      r.args.cache_hits = s.args.cache_hits + hit_delta k ∧
      r.args.cache_misses = s.args.cache_misses + (1 - hit_delta k) := by
  unfold cache_access at h
  simp only at h
  split at h
  · simp at h
  · split at h
    · simp at h
    · simp only [Except.ok.injEq] at h
      rw [← h]
      exact ⟨_, rfl, rfl, by simp [hit_delta]⟩
    · split at h
      · simp at h
      · split at h
        · simp at h
        · simp only [Except.ok.injEq] at h
          rw [← h]
          exact ⟨_, rfl, by simp [hit_delta], by simp [hit_delta]⟩
      · obtain ⟨h1, off, h2⟩ := replace_block_shape rnd tag idx _ _ r h
        refine ⟨_, h2, ?_, ?_⟩
        · rw [h1]; simp [hit_delta]
        · rw [h1]; simp [hit_delta]

theorem retire_args (is_eip : Bool) (s : State) :
    (retire is_eip s).log = s.log ∧ (retire is_eip s).cache = s.cache ∧
    (retire is_eip s).args.total_cache_accesses = s.args.total_cache_accesses ∧
    (retire is_eip s).args.cache_hits = s.args.cache_hits ∧
    (retire is_eip s).args.cache_misses = s.args.cache_misses ∧
    (retire is_eip s).args.cpi_cycles =
      wrap32 (s.args.cpi_cycles + (if is_eip then 2 else 1)) ∧
    (retire is_eip s).args.num_instructions =
      (if is_eip then wrap32 (s.args.num_instructions + 1) else s.args.num_instructions) ∧
    (retire is_eip s).args.total_addresses = s.args.total_addresses ∧
    (retire is_eip s).args.compulsory_misses = s.args.compulsory_misses := by
  cases is_eip <;> simp [retire]

theorem wrap32_congr (x y : Int) (h : x % 4294967296 = y % 4294967296) : wrap32 x = wrap32 y := by
  unfold wrap32
  rw [h]

/-- C12 (counterexample): an instruction fetch of width `00` at an address with offset 0.
Offset plus width does not exceed the block size, yet `handle_address` makes no cache
access; it only charges the 2 closing cycles and counts the instruction.  The same is
seen on the whole record `EIP (00): 7c809764`. -/
theorem fetch_width_zero_counterexample :
    atoi (['0', '0'].takeWhile (fun c => c ≠ NUL)) = 0 ∧
    (∃ bin, hex2bin example_address = some bin ∧
      (decode direct_mapped_1k bin).2.2.2 + 0 ≤ direct_mapped_1k.block_size) ∧
    (handle_address (fun _ => 0) (init_state direct_mapped_1k) example_address 0 true).toOption.map
        (fun r => (r.args.total_cache_accesses, r.args.cpi_cycles, r.args.num_instructions,
          r.log)) = some (0, 2, 1, []) ∧
    (trace_line (fun _ => 0) (fgets [] zero_width_line) (init_state direct_mapped_1k)).toOption.map
        (fun r => (r.args.total_cache_accesses, r.args.cpi_cycles, r.args.num_instructions,
          r.args.total_addresses, r.log)) = some (0, 2, 1, 1, []) := by
  refine ⟨by decide, ⟨_, rfl, by decide⟩, by rfl, by rfl⟩

/-- C16. Malformed addresses are fatal: for every 8-character address with at least
one character outside `0-9a-f` (in particular every character that is not a hexadecimal
digit), `hex2bin` takes its `default` branch, so `handle_address` ends in the fatal exit
for every state, width and record kind; at the exit no cache block, no history entry, no
random draw and no statistic has changed: the argument structure differs from the one
before the call only in `cpu_cycle`, which line 193 advances before the conversion. -/
theorem malformed_address_fatal (rnd : Nat → Nat) (s : State) (address : List Char)
    (bytes_read : Int) (is_eip : Bool) (hlen : address.length = 8)
    (hbad : ∃ c ∈ address, c ∉ lower_hex_digits) :
    hex2bin address = none ∧
    ∃ r, handle_address rnd s address bytes_read is_eip = .error (.exit .unknown_hex r) ∧
      r.cache = s.cache ∧ r.log = s.log ∧ r.rand_calls = s.rand_calls ∧
      r.args = { s.args with cpu_cycle := s.args.cpu_cycle + 1 } := by
  have h : hex2bin address = none := hex2bin_loop_bad address 8 hlen.symm hbad
  exact ⟨h, _, handle_address_bad_hex rnd s address bytes_read is_eip h, rfl, rfl, rfl, rfl⟩

theorem malformed_address_fatal_witness :
    hex2bin malformed_address = none ∧
    ∃ r, handle_address (fun _ => 0) (init_state direct_mapped_1k) malformed_address 4 false =
        .error (.exit .unknown_hex r) ∧
      r.cache = (init_state direct_mapped_1k).cache ∧ r.log = [] ∧ r.rand_calls = 0 ∧
      r.args = { direct_mapped_1k with cpu_cycle := 1 } :=
  malformed_address_fatal (fun _ => 0) (init_state direct_mapped_1k) malformed_address 4 false
    (by decide) ⟨'g', by decide, by decide⟩

theorem strlen_fgets (buffer line : List Char) (hnul : NUL ∉ line) :
    strlen (fgets buffer line) = line.length := by
  unfold strlen fgets
  have : ∀ (xs rest : List Char), NUL ∉ xs →
      (xs ++ NUL :: rest).takeWhile (fun c => c ≠ NUL) = xs := by
    intro xs rest h
    induction xs with
    | nil => simp [List.takeWhile]
    | cons x xs ih =>
      simp only [List.mem_cons, not_or] at h
      simp only [List.cons_append, List.takeWhile]
      have hx : decide (x ≠ NUL) = true := by
        simp only [decide_eq_true_eq]
        exact fun e => h.1 e.symm
      rw [hx]
      show x :: List.takeWhile (fun c => decide (c ≠ NUL)) (xs ++ NUL :: rest) = x :: xs
      rw [ih h.2]
  rw [this line _ hnul]

theorem address_at_fgets (buffer line : List Char) (i : Nat) (h : i + 8 ≤ line.length) :
    address_at (fgets buffer line) i = (line.drop i).take 8 := by
  unfold address_at fgets
  apply List.ext_getElem?
  intro n
  simp only [List.getElem?_map, List.getElem?_range, List.getElem?_take, List.getElem?_drop]
  by_cases hn : n < 8
  · have h1 : i + n < line.length := by omega
    obtain ⟨c, h2⟩ : ∃ c, (line)[i + n]? = some c := ⟨_, List.getElem?_eq_getElem h1⟩
    simp [hn, List.getD, List.getElem?_append_left h1, h2]
  · simp [hn, List.getElem?_range]
    omega

theorem take_fgets (buffer line : List Char) (n : Nat) (h : n ≤ line.length) :
    (fgets buffer line).take n = line.take n := by
  unfold fgets
  exact List.take_append_of_le_length h

/-- What `handle_address` leaves alone when it returns: `total_addresses`, and
`num_instructions` but for the instruction count of line 333. -/
theorem handle_address_frame (rnd : Nat → Nat) (s r : State) (address : List Char)
    (bytes_read : Int) (is_eip : Bool)
    (h : handle_address rnd s address bytes_read is_eip = .ok r) :
    r.args.total_addresses = s.args.total_addresses ∧
    r.args.num_instructions =
      (if is_eip then wrap32 (s.args.num_instructions + 1) else s.args.num_instructions) := by
  rw [handle_address_eq] at h
  cases hb : hex2bin address with
  | none => rw [hb] at h; simp at h
  | some bin =>
    rw [hb] at h
    simp only at h
    split at h
    · simp at h
    · split at h
      · simp at h
      · split at h
        · simp at h
        · rename_i s1 hl
          simp only [Except.ok.injEq] at h
          obtain ⟨events, -, -, -, hfr, -, -⟩ := overrun_loop_events rnd _ _ _ 0 _ s1 hl
          obtain ⟨-, -, -, -, f5, f6, -⟩ := access_frame_fields hfr
          obtain ⟨-, -, -, -, -, -, r7, r8, -⟩ := retire_args is_eip s1
          rw [← h, r7, r8, f5, f6]
          exact ⟨rfl, rfl⟩

theorem no_operand_eq : no_operand = ['0', '0', '0', '0', '0', '0', '0', '0'] := rfl

/-- The loop body on a memory-operand line: the destination field, if present, is
handled and counted, then the source field likewise. -/
theorem trace_line_operands (rnd : Nat → Nat) (buffer line : List Char) (s : State)
    (hlen : 41 ≤ line.length) (hnul : NUL ∉ line) (heip : line.take 3 ≠ ['E', 'I', 'P']) :
    trace_line rnd (fgets buffer line) s =
      Except.bind
        (if (line.drop 6).take 8 = no_operand then .ok s
          else (handle_address rnd s ((line.drop 6).take 8) 4 false).map count_address)
        (fun s1 =>
          if (line.drop 33).take 8 = no_operand then .ok s1
          else (handle_address rnd s1 ((line.drop 33).take 8) 4 false).map count_address) := by
  unfold trace_line
  rw [strlen_fgets buffer line hnul, take_fgets buffer line 3 (by omega),
    address_at_fgets buffer line 6 (by omega), address_at_fgets buffer line 33 (by omega),
    ← no_operand_eq]
  have h5 : ¬ (line.length ≤ 5) := by omega
  simp only [h5, heip, if_false, ne_eq, ite_not]
  by_cases hd : (line.drop 6).take 8 = no_operand
  · simp only [hd, if_true, Except.bind]
    by_cases hs : (line.drop 33).take 8 = no_operand
    · simp only [hs, if_true]
    · simp only [hs, if_false]
      cases handle_address rnd s ((line.drop 33).take 8) 4 false <;> rfl
  · simp only [hd, if_false]
    cases handle_address rnd s ((line.drop 6).take 8) 4 false with
    | error e => rfl
    | ok s1 =>
      simp only [Except.map, Except.bind]
      by_cases hs : (line.drop 33).take 8 = no_operand
      · simp only [hs, if_true]
        rfl
      · simp only [hs, if_false]
        show (match handle_address rnd (count_address s1) ((line.drop 33).take 8) 4 false with
          | .error e => (.error e : Except Fault State)
          | .ok s2 => .ok (count_address s2)) = _
        cases handle_address rnd (count_address s1) ((line.drop 33).take 8) 4 false <;> rfl

theorem counted_operand_frame (rnd : Nat → Nat) (s r : State) (address : List Char)
    (h : (handle_address rnd s address 4 false).map count_address = .ok r) :
    r.args.total_addresses = s.args.total_addresses + 1 ∧
    r.args.num_instructions = s.args.num_instructions := by
  cases hh : handle_address rnd s address 4 false with
  | error e => rw [hh] at h; simp [Except.map] at h
  | ok s1 =>
    rw [hh] at h
    simp only [Except.map, Except.ok.injEq] at h
    obtain ⟨h1, h2⟩ := handle_address_frame rnd s s1 address 4 false hh
    rw [← h]
    exact ⟨by simp only [count_address, h1], by simp only [count_address, h2]; rfl⟩

theorem counted_operand_ok (rnd : Nat → Nat) (g : _args) (s : State) (address : List Char)
    (hI : Inv g s) (hfit : fields_fit g) (hbs : g.block_size ≠ 0)
    (hp : g.replacement_policy = RR ∨ g.replacement_policy = RND)
    (hlen : address.length = 8) (hhex : ∀ c ∈ address, c ∈ lower_hex_digits) :
    ∃ r, (handle_address rnd s address 4 false).map count_address = .ok r ∧ Inv g r := by
  obtain ⟨r, h, hr⟩ := handle_address_ok rnd g s address 4 false hI hfit hbs hp hlen hhex
  exact ⟨count_address r, by rw [h]; rfl, Inv_frame g r _ hr rfl⟩

/-- What one returning cache access does to the block array, in a state satisfying the
run invariant under `RR` or `RND`: afterwards a block of the accessed row is valid with
the accessed tag, and either no block's `valid` flag has changed and `compulsory_misses`
is unchanged, or one block went from invalid to valid and `compulsory_misses` grew by 1. -/
theorem cache_access_effect (rnd : Nat → Nat) (g : _args) (tag : List Char) (idx : Int)
    (s r : State) (hidx : 0 ≤ idx) (hI : Inv g s)
    (hp : g.replacement_policy = RR ∨ g.replacement_policy = RND)
    (h : cache_access rnd tag idx s = .ok r) :
    (∃ a m j b2, g.associativity = ((a : Nat) : Int) ∧
      row_start g idx = ((a * m : Nat) : Int) ∧ j < a ∧ a * m + a ≤ r.cache.length ∧
      r.cache[a * m + j]? = some b2 ∧ b2.tag = tag ∧ b2.valid = 1) ∧
    ((r.args.compulsory_misses = s.args.compulsory_misses ∧
        r.cache.length = s.cache.length ∧
        ∀ i : Nat, (r.cache[i]?).map (fun b : block => b.valid) =
          (s.cache[i]?).map (fun b : block => b.valid)) ∨
      (r.args.compulsory_misses = s.args.compulsory_misses + 1 ∧
        ∃ i b b2, s.cache[i]? = some b ∧ b.valid = 0 ∧ b2.valid = 1 ∧
          r.cache = s.cache.set i b2)) := by
  obtain ⟨a, n, hA, hN, ha, hn, hdvd, hlen⟩ := well_formed_nat hI.2.1
  have hsg := hI.1
  have hval := hI.2.2.2.1
  have hgA : g.associativity = a := by rw [← hsg.1, hA]
  have hrs : row_start s.args idx = row_start g idx :=
    row_start_congr g s.args idx hsg.1 hsg.2.1
  obtain ⟨m, hm, hmb, hcases⟩ := cache_access_cases rnd tag idx s a n hA hN ha hn hdvd hlen hidx
  rw [hrs] at hm
  rcases hcases with ⟨j, b, h1, h2, h3, h4, -, h6⟩ | ⟨-, hc2⟩
  · rw [h6] at h
    simp only [Except.ok.injEq] at h
    subst h
    refine ⟨⟨a, m, j, b, hgA, hm, h1, by simp only; omega, h2, h3, h4⟩, Or.inl ⟨rfl, rfl, ?_⟩⟩
    intro i; rfl
  · rcases hc2 with ⟨j, b, h1, h2, h3, -, h5⟩ | ⟨hfull, h5⟩
    · rw [h5] at h
      simp only [Except.ok.injEq] at h
      subst h
      have hlt : a * m + j < s.cache.length := by omega
      refine ⟨⟨a, m, j, (⟨1, tag, s.args.cpu_cycle, b.rr⟩ : block), hgA, hm, h1,
          by simp only [List.length_set]; omega, ?_, rfl, rfl⟩,
        Or.inr ⟨rfl, a * m + j, b, (⟨1, tag, s.args.cpu_cycle, b.rr⟩ : block), h2, h3, rfl, rfl⟩⟩
      simp only [List.getElem?_set_self, hlt, if_true]
    · rw [h5] at h
      have hIc : Inv g { s with
          args := { s.args with
            total_cache_accesses := s.args.total_cache_accesses + 1
            cpi_cycles := wrap32 (s.args.cpi_cycles + 4 * Int.tdiv s.args.block_size 4)
            cache_misses := s.args.cache_misses + 1
            conflict_misses := s.args.conflict_misses + 1 } } := Inv_args g s _ hI hsg
      obtain ⟨o, rc, cache2, b0, ho, -, -, h4, hl2, hc⟩ :=
        replace_block_ok rnd g _ tag idx a m hIc hgA ha (by simp only; omega) hp
      rw [h4] at h
      simp only [Except.ok.injEq] at h
      subst h
      have hl3 : cache2.length = s.cache.length := hl2
      have hlt : a * m + o < s.cache.length := by omega
      obtain ⟨bo, hbo⟩ : ∃ bo, s.cache[a * m + o]? = some bo :=
        ⟨_, List.getElem?_eq_getElem hlt⟩
      refine ⟨⟨a, m, o, (⟨1, tag, s.args.cpu_cycle, Int.tmod (b0.rr + 1) a⟩ : block), hgA, hm, ho,
        by simp only; omega, ?_, rfl, rfl⟩, Or.inl ⟨rfl, hl3, ?_⟩⟩
      · simp only
        rw [hc (a * m + o)]
        have : a * m ≤ a * m + o ∧ a * m + o < a * m + a := ⟨by omega, by omega⟩
        simp only [this, and_self, if_true, hbo, Option.map_some']
      · intro i
        simp only
        rw [hc i]
        by_cases hin : a * m ≤ i ∧ i < a * m + a
        · simp only [hin, and_self, if_true, Option.map_map]
          cases hbi : s.cache[i]? with
          | none => rfl
          | some bi =>
            simp only [Option.map_some', Function.comp, Option.some.injEq]
            by_cases hio : i = a * m + o
            · simp only [hio, if_true]
              have hk := hfull (i - a * m) (by omega) bi (by
                have : a * m + (i - a * m) = i := by omega
                rw [this]; exact hbi)
              rcases hval i bi hbi with h0 | ⟨h1, -⟩
              · exact absurd h0 hk
              · exact h1.symm
            · simp only [hio, if_false]
        · simp only [hin, if_false]

/-- A cache access to a row that holds a valid block with the accessed tag is a hit. -/
theorem hit_of_resident (rnd : Nat → Nat) (tag : List Char) (idx : Int) (s : State)
    (a n m j : Nat) (b : block) (hA : s.args.associativity = a) (hN : s.args.num_blocks = n)
    (ha : 0 < a) (hn : 0 < n) (hdvd : a ∣ n) (hlen : s.cache.length = n) (hidx : 0 ≤ idx)
    (hrow : row_start s.args idx = ((a * m : Nat) : Int)) (hj : j < a)
    (hb : s.cache[a * m + j]? = some b) (ht : b.tag = tag) (hv : b.valid = 1) :
    ∃ j2, cache_access rnd tag idx s = .ok { s with
      args := { s.args with
        total_cache_accesses := s.args.total_cache_accesses + 1
        cache_hits := s.args.cache_hits + 1
        cpi_cycles := wrap32 (s.args.cpi_cycles + 1) }
      log := ⟨tag, idx, ((a * m : Nat) : Int), .hit j2⟩ :: s.log } := by
  obtain ⟨m2, hm, -, hcases⟩ := cache_access_cases rnd tag idx s a n hA hN ha hn hdvd hlen hidx
  rw [hrow] at hm
  have hmm : m2 = m := by
    have h1 : a * m = a * m2 := by exact_mod_cast hm
    exact (Nat.eq_of_mul_eq_mul_left ha h1).symm
  subst hmm
  rcases hcases with ⟨j2, b2, -, -, -, -, -, h6⟩ | ⟨hno, -⟩
  · exact ⟨j2, h6⟩
  · exact absurd ⟨ht, hv⟩ (hno j hj b hb)

/-- C19. An access makes its tag resident.  For a geometry with positive associativity
dividing a positive number of blocks and policy `RR` or `RND` (any stream of random
draws), every state a run reaches from the initial cache satisfies the run invariant,
and in every state satisfying it a cache access with tag `t` to index value `idx`
returns a state whose row `row_start idx` holds a valid block with tag `t`; repeating
the same access at once returns too, is counted as a hit and not as a miss, and leaves
the block array unchanged. -/
theorem access_makes_tag_resident (rnd : Nat → Nat) (g : _args)
    (hA : 0 < g.associativity) (hN : 0 < g.num_blocks)
    (hdvd : g.associativity ∣ g.num_blocks) (hfit : fields_fit g) (hbs : g.block_size ≠ 0)
    (hp : g.replacement_policy = RR ∨ g.replacement_policy = RND) :
    (∀ accesses, ∃ s, final_state (handle_addresses rnd accesses (init_state g)) = some s ∧
      Inv g s) ∧
    ∀ s, Inv g s → ∀ (tag : List Char) (idx : Int), 0 ≤ idx →
      ∃ s1, cache_access rnd tag idx s = .ok s1 ∧ Inv g s1 ∧
        (∃ (j : Nat) (b : block), (j : Int) < g.associativity ∧
          read s1.cache (row_start g idx + (j : Int)) = some b ∧ b.valid = 1 ∧ b.tag = tag) ∧
        ∃ s2 j2, cache_access rnd tag idx s1 = .ok s2 ∧ s2.cache = s1.cache ∧
          s2.args.cache_hits = s1.args.cache_hits + 1 ∧
          s2.args.cache_misses = s1.args.cache_misses ∧
          s2.log = ⟨tag, idx, row_start g idx, .hit j2⟩ :: s1.log := by
  refine ⟨fun accesses => run_Inv rnd g accesses hA hN hdvd hfit hbs, ?_⟩
  intro s hI tag idx hidx
  obtain ⟨s1, h1, hI1⟩ := cache_access_ok rnd g tag idx s hidx hI hp
  obtain ⟨⟨a, m, j, b, e1, e2, e3, e4, e5, e6, e7⟩, -⟩ :=
    cache_access_effect rnd g tag idx s s1 hidx hI hp h1
  obtain ⟨a2, n, hA2, hN2, ha, hn, hd, hlen⟩ := well_formed_nat hI1.2.1
  have hsg := hI1.1
  have haa : a2 = a := by
    have : (a2 : Int) = a := by rw [← hA2, hsg.1, e1]
    exact_mod_cast this
  subst haa
  have hrs : row_start s1.args idx = ((a2 * m : Nat) : Int) := by
    rw [row_start_congr g s1.args idx hsg.1 hsg.2.1, e2]
  obtain ⟨j2, h2⟩ := hit_of_resident rnd tag idx s1 a2 n m j b hA2 hN2 ha hn hd hlen hidx hrs
    e3 e5 e6 e7
  refine ⟨s1, h1, hI1, ⟨j, b, ?_, ?_, e7, e6⟩, _, j2, h2, rfl, rfl, rfl, ?_⟩
  · rw [e1]; exact_mod_cast e3
  · rw [e2, read_nat]; exact e5
  · rw [e2]

theorem access_makes_tag_resident_witness :
    ∃ s1, cache_access (fun _ => 0) example_tag 217 (init_state direct_mapped_1k) = .ok s1 ∧
      ∃ s2 j2, cache_access (fun _ => 0) example_tag 217 s1 = .ok s2 ∧ s2.cache = s1.cache ∧
        s2.args.cache_hits = s1.args.cache_hits + 1 ∧
        s2.log = ⟨example_tag, 217, 217, .hit j2⟩ :: s1.log := by
  obtain ⟨hrun, hacc⟩ := access_makes_tag_resident (fun _ => 0) direct_mapped_1k
    (by decide) (by decide) ⟨256, by decide⟩ (by decide) (by decide) (Or.inl rfl)
  obtain ⟨s, hs, hI⟩ := hrun []
  have hs0 : s = init_state direct_mapped_1k := by
    have : final_state (handle_addresses (fun _ => 0) [] (init_state direct_mapped_1k)) =
        some (init_state direct_mapped_1k) := rfl
    rw [this] at hs
    exact (Option.some.inj hs).symm
  subst hs0
  obtain ⟨s1, h1, -, -, s2, j2, h2, h3, h4, -, h5⟩ := hacc _ hI example_tag 217 (by decide)
  exact ⟨s1, h1, s2, j2, h2, h3, h4, h5⟩

/-- The loop body on an instruction-fetch line: one call of `handle_address` on the
address at columns 10-17, as an instruction, followed by `total_addresses++`. -/
theorem trace_line_fetch (rnd : Nat → Nat) (buffer line : List Char) (s : State)
    (hlen : 18 ≤ line.length) (hnul : NUL ∉ line) (heip : line.take 3 = ['E', 'I', 'P']) :
    trace_line rnd (fgets buffer line) s =
      (handle_address rnd s ((line.drop 10).take 8)
        (atoi ([(fgets buffer line).getD 5 NUL, (fgets buffer line).getD 6 NUL].takeWhile
          (fun c => c ≠ NUL))) true).map count_address := by
  unfold trace_line
  rw [strlen_fgets buffer line hnul, take_fgets buffer line 3 (by omega),
    address_at_fgets buffer line 10 (by omega)]
  have h5 : ¬ (line.length ≤ 5) := by omega
  simp only [h5, heip, if_false, if_true]
  cases handle_address rnd s ((line.drop 10).take 8)
    (atoi ([(fgets buffer line).getD 5 NUL, (fgets buffer line).getD 6 NUL].takeWhile
      (fun c => c ≠ NUL))) true <;> rfl

theorem trace_line_blank (rnd : Nat → Nat) (buffer line : List Char) (s : State)
    (hlen : line.length ≤ 5) (hnul : NUL ∉ line) :
    trace_line rnd (fgets buffer line) s = .ok s := by
  unfold trace_line
  rw [strlen_fgets buffer line hnul]
  simp only [hlen, if_true]

/-- Lifting to the loop body of `trace_cache` of a property that every returning call of
`handle_address` followed by `total_addresses++` preserves. -/
theorem trace_line_lift (rnd : Nat → Nat) (P : State → Prop)
    (hstep : ∀ s r address w e, P s → handle_address rnd s address w e = .ok r →
      P (count_address r))
    (buffer : List Char) (s r : State) (hP : P s) (h : trace_line rnd buffer s = .ok r) :
    P r := by
  unfold trace_line at h
  split at h
  · simp only [Except.ok.injEq] at h
    rw [← h]; exact hP
  · split at h
    · simp only at h
      split at h
      · simp at h
      · rename_i s1 h1
        simp only [Except.ok.injEq] at h
        rw [← h]
        exact hstep s s1 _ _ _ hP h1
    · simp only at h
      have key : ∀ s1, P s1 → ∀ r,
          (if address_at buffer 33 ≠ ['0', '0', '0', '0', '0', '0', '0', '0'] then
            match handle_address rnd s1 (address_at buffer 33) 4 false with
            | .error e => (.error e : Except Fault State)
            | .ok s2 => .ok { s2 with args := { s2.args with
                total_addresses := s2.args.total_addresses + 1 } }
          else .ok s1) = .ok r → P r := by
        intro s1 hP1 r hr
        split at hr
        · split at hr
          · simp at hr
          · rename_i s2 h2
            simp only [Except.ok.injEq] at hr
            rw [← hr]
            exact hstep s1 s2 _ _ _ hP1 h2
        · simp only [Except.ok.injEq] at hr
          rw [← hr]; exact hP1
      split at h
      · simp at h
      · rename_i s1 h1
        refine key s1 ?_ r h
        split at h1
        · split at h1
          · simp at h1
          · rename_i s0 h0
            simp only [Except.ok.injEq] at h1
            rw [← h1]
            exact hstep s s0 _ _ _ hP h0
        · simp only [Except.ok.injEq] at h1
          rw [← h1]; exact hP

theorem trace_loop_lift (rnd : Nat → Nat) (P : State → Prop)
    (hstep : ∀ s r address w e, P s → handle_address rnd s address w e = .ok r →
      P (count_address r))
    (trace : List (List Char)) (buffer : List Char) (s r : State) (hP : P s)
    (h : trace_loop rnd trace buffer s = .ok r) : P r := by
  induction trace generalizing buffer s with
  | nil =>
    simp only [trace_loop, Except.ok.injEq] at h
    rw [← h]; exact hP
  | cons line rest ih =>
    simp only [trace_loop] at h
    cases h1 : trace_line rnd (fgets buffer line) s with
    | error e => rw [h1] at h; simp at h
    | ok s1 =>
      rw [h1] at h
      exact ih _ s1 (trace_line_lift rnd P hstep _ s s1 hP h1) h

/-- On a complete record the loop body returns, in every state satisfying the run
invariant under `RR` or `RND`. -/
theorem trace_line_ok (rnd : Nat → Nat) (g : _args) (buffer line : List Char) (s : State)
    (hI : Inv g s) (hfit : fields_fit g) (hbs : g.block_size ≠ 0)
    (hp : g.replacement_policy = RR ∨ g.replacement_policy = RND)
    (hline : complete_record line) :
    ∃ r, trace_line rnd (fgets buffer line) s = .ok r ∧ Inv g r := by
  obtain ⟨hnul, hblank | ⟨heip, hlen, hx⟩ | ⟨heip, hlen, hx6, hx33⟩⟩ := hline
  · exact ⟨s, trace_line_blank rnd buffer line s hblank hnul, hI⟩
  · rw [trace_line_fetch rnd buffer line s hlen hnul heip]
    have l10 : ((line.drop 10).take 8).length = 8 := by
      rw [List.length_take, List.length_drop]; omega
    obtain ⟨r, h, hr⟩ := handle_address_ok rnd g s _
      (atoi ([(fgets buffer line).getD 5 NUL, (fgets buffer line).getD 6 NUL].takeWhile
        (fun c => c ≠ NUL))) true hI hfit hbs hp l10 hx
    exact ⟨count_address r, by rw [h]; rfl, Inv_frame g r _ hr rfl⟩
  · have l6 : ((line.drop 6).take 8).length = 8 := by
      rw [List.length_take, List.length_drop]; omega
    have l33 : ((line.drop 33).take 8).length = 8 := by
      rw [List.length_take, List.length_drop]; omega
    rw [trace_line_operands rnd buffer line s hlen hnul heip]
    by_cases hd : (line.drop 6).take 8 = no_operand
    · simp only [hd, if_true, Except.bind]
      by_cases hs : (line.drop 33).take 8 = no_operand
      · simp only [hs, if_true]
        exact ⟨s, rfl, hI⟩
      · simp only [hs, if_false]
        exact counted_operand_ok rnd g s _ hI hfit hbs hp l33 hx33
    · simp only [hd, if_false]
      obtain ⟨s1, h1, hI1⟩ := counted_operand_ok rnd g s _ hI hfit hbs hp l6 hx6
      rw [h1]
      simp only [Except.bind]
      by_cases hs : (line.drop 33).take 8 = no_operand
      · simp only [hs, if_true]
        exact ⟨s1, rfl, hI1⟩
      · simp only [hs, if_false]
        exact counted_operand_ok rnd g s1 _ hI1 hfit hbs hp l33 hx33

theorem trace_loop_ok (rnd : Nat → Nat) (g : _args) (trace : List (List Char))
    (buffer : List Char) (s : State) (hI : Inv g s) (hfit : fields_fit g)
    (hbs : g.block_size ≠ 0) (hp : g.replacement_policy = RR ∨ g.replacement_policy = RND)
    (htrace : ∀ line ∈ trace, complete_record line) :
    ∃ r, trace_loop rnd trace buffer s = .ok r ∧ Inv g r := by
  induction trace generalizing buffer s with
  | nil => exact ⟨s, rfl, hI⟩
  | cons line rest ih =>
    obtain ⟨s1, h1, hI1⟩ := trace_line_ok rnd g buffer line s hI hfit hbs hp
      (htrace line (List.mem_cons_self _ _))
    obtain ⟨r, h2, hI2⟩ := ih (fgets buffer line) s1 hI1
      (fun l hl => htrace l (List.mem_cons_of_mem _ hl))
    exact ⟨r, by simp only [trace_loop, h1, h2], hI2⟩

/-- On a trace of complete records `trace_cache` returns, for a geometry with positive
associativity dividing a positive number of blocks and policy `RR` or `RND`. -/
theorem trace_cache_ok (rnd : Nat → Nat) (g : _args) (trace : List (List Char))
    (buffer : List Char) (hA : 0 < g.associativity) (hN : 0 < g.num_blocks)
    (hdvd : g.associativity ∣ g.num_blocks) (hfit : fields_fit g) (hbs : g.block_size ≠ 0)
    (hp : g.replacement_policy = RR ∨ g.replacement_policy = RND)
    (htrace : ∀ line ∈ trace, complete_record line) :
    ∃ s, trace_loop rnd trace buffer (init_state g) = .ok s ∧ Inv g s ∧
      trace_cache rnd trace buffer g =
        .ok { s with args := { s.args with unused_cache_blocks := num_blocks_wasted s.cache } } := by
  obtain ⟨s, h, hI⟩ := trace_loop_ok rnd g trace buffer _ (Inv_init g hA hN hdvd) hfit hbs hp
    htrace
  exact ⟨s, h, hI, by simp only [trace_cache, h]⟩

/-- What `trace_cache` returns is the final state of its loop with `unused_cache_blocks`
filled in. -/
theorem trace_cache_eq (rnd : Nat → Nat) (g : _args) (trace : List (List Char))
    (buffer : List Char) (r : State) (h : trace_cache rnd trace buffer g = .ok r) :
    ∃ s, trace_loop rnd trace buffer (init_state g) = .ok s ∧
      r = { s with args := { s.args with unused_cache_blocks := num_blocks_wasted s.cache } } := by
  unfold trace_cache at h
  cases h1 : trace_loop rnd trace buffer (init_state g) with
  | error e => rw [h1] at h; simp at h
  | ok s =>
    rw [h1] at h
    simp only [Except.ok.injEq] at h
    exact ⟨s, rfl, h.symm⟩

theorem wasted_cons (x : block) (xs : List block) :
    num_blocks_wasted (x :: xs) =
      (if x.valid = 0 then 1 else 0) + num_blocks_wasted xs := by
  unfold num_blocks_wasted
  by_cases h : x.valid = 0
  · simp [List.filter, h]; ring
  · simp [List.filter, h]

theorem valid_cons (x : block) (xs : List block) :
    num_blocks_valid (x :: xs) =
      (if x.valid = 1 then 1 else 0) + num_blocks_valid xs := by
  unfold num_blocks_valid
  by_cases h : x.valid = 1
  · simp [List.filter, h]; ring
  · simp [List.filter, h]

theorem wasted_set (cache : List block) (i : Nat) (b b2 : block) (h : cache[i]? = some b)
    (hb : b.valid = 0) (hb2 : b2.valid = 1) :
    num_blocks_wasted (cache.set i b2) + 1 = num_blocks_wasted cache := by
  induction cache generalizing i with
  | nil => simp at h
  | cons x xs ih =>
    cases i with
    | zero =>
      simp only [List.getElem?_cons_zero, Option.some.injEq] at h
      subst h
      simp only [List.set_cons_zero, wasted_cons, hb, hb2, if_true]
      simp
      ring
    | succ i =>
      simp only [List.getElem?_cons_succ] at h
      simp only [List.set_cons_succ, wasted_cons]
      have := ih i h
      omega

theorem wasted_congr (l1 l2 : List block)
    (h : ∀ i : Nat, (l1[i]?).map (fun b : block => b.valid) =
      (l2[i]?).map (fun b : block => b.valid)) :
    num_blocks_wasted l1 = num_blocks_wasted l2 := by
  induction l1 generalizing l2 with
  | nil =>
    cases l2 with
    | nil => rfl
    | cons y ys => have := h 0; simp at this
  | cons x xs ih =>
    cases l2 with
    | nil => have := h 0; simp at this
    | cons y ys =>
      have h0 := h 0
      simp only [List.getElem?_cons_zero, Option.map_some', Option.some.injEq] at h0
      have ht := ih ys (fun i => by simpa using h (i + 1))
      rw [wasted_cons, wasted_cons, h0, ht]

theorem wasted_add_valid (cache : List block)
    (h : ∀ (i : Nat) (b : block), cache[i]? = some b → b.valid = 0 ∨ b.valid = 1) :
    num_blocks_wasted cache + num_blocks_valid cache = (cache.length : Int) := by
  induction cache with
  | nil => rfl
  | cons x xs ih =>
    have hx := h 0 x (by simp)
    have ht := ih (fun i b hb => h (i + 1) b (by simpa using hb))
    rw [wasted_cons, valid_cons, List.length_cons]
    push_cast
    rcases hx with hx | hx
    · simp only [hx, if_true]; simp; omega
    · simp only [hx, if_true]; simp; omega

theorem wasted_nonneg (cache : List block) : 0 ≤ num_blocks_wasted cache := by
  unfold num_blocks_wasted; exact Int.ofNat_nonneg _

theorem valid_nonneg (cache : List block) : 0 ≤ num_blocks_valid cache := by
  unfold num_blocks_valid; exact Int.ofNat_nonneg _

theorem wasted_init (g : _args) (hN : 0 ≤ g.num_blocks) :
    num_blocks_wasted (init_cache g) = g.num_blocks := by
  have hn : ((g.num_blocks.toNat : Nat) : Int) = g.num_blocks := Int.toNat_of_nonneg hN
  have key : ∀ (n : Nat) (b : block), b.valid = 0 →
      num_blocks_wasted (List.replicate n b) = (n : Int) := by
    intro n b hb
    induction n with
    | zero => rfl
    | succ n ih =>
      rw [List.replicate_succ, wasted_cons, ih]
      simp only [hb, if_true]
      push_cast; ring
  unfold init_cache
  rw [key _ _ rfl, hn]

theorem blocks_accounted_frame (g : _args) (s : State) (args2 : _args)
    (h : blocks_accounted g s) (hc : same_core s.args args2) :
    blocks_accounted g { s with args := args2 } := by
  refine ⟨Inv_frame g s args2 h.1 hc, ?_⟩
  have := h.2
  unfold same_core at hc
  rw [hc]
  exact this

theorem blocks_accounted_step (rnd : Nat → Nat) (g : _args)
    (hp : g.replacement_policy = RR ∨ g.replacement_policy = RND)
    (tag : List Char) (idx : Int) (s r : State) (hidx : 0 ≤ idx) (h : blocks_accounted g s)
    (hr : final_state (cache_access rnd tag idx s) = some r) : blocks_accounted g r := by
  obtain ⟨r2, h2, hI2⟩ := cache_access_ok rnd g tag idx s hidx h.1 hp
  rw [h2] at hr
  simp only [final_state, Option.some.injEq] at hr
  subst hr
  refine ⟨hI2, ?_⟩
  have hacc := h.2
  rcases (cache_access_effect rnd g tag idx s r2 hidx h.1 hp h2).2 with
    ⟨e1, -, e3⟩ | ⟨e1, i, b, b2, e2, e3, e4, e5⟩
  · rw [wasted_congr _ _ e3, e1]; exact hacc
  · have := wasted_set s.cache i b b2 e2 e3 e4
    rw [e5, e1]
    omega

theorem blocks_accounted_init (g : _args) (hA : 0 < g.associativity) (hN : 0 < g.num_blocks)
    (hdvd : g.associativity ∣ g.num_blocks) : blocks_accounted g (init_state g) := by
  refine ⟨Inv_init g hA hN hdvd, ?_⟩
  show num_blocks_wasted (init_cache g) + g.compulsory_misses = _
  rw [wasted_init g (le_of_lt hN)]

theorem blocks_accounted_counts (g : _args) (s : State) (h : blocks_accounted g s)
    (hz : g.compulsory_misses = 0) :
    num_blocks_valid s.cache = s.args.compulsory_misses ∧
    num_blocks_wasted s.cache = g.num_blocks - s.args.compulsory_misses ∧
    0 ≤ s.args.compulsory_misses ∧ s.args.compulsory_misses ≤ g.num_blocks := by
  obtain ⟨hI, hacc⟩ := h
  have hlen : (s.cache.length : Int) = g.num_blocks := by
    rw [hI.2.1.2.2.2, hI.1.2.1]
  have hsum := wasted_add_valid s.cache (fun i b hb => by
    rcases hI.2.2.2.1 i b hb with h0 | ⟨h1, -⟩
    · exact Or.inl h0
    · exact Or.inr h1)
  have hw := wasted_nonneg s.cache
  have hv := valid_nonneg s.cache
  rw [hz] at hacc
  omega

/-- C17. Valid blocks are counted by compulsory misses.  For a geometry with positive
associativity dividing a positive number of blocks, policy `RR` or `RND`, and
`compulsory_misses` zero at the start: after `handle_address` has run over any sequence
of addresses from the initial all-invalid cache, the number of blocks with `valid == 1`
is `compulsory_misses`, the number with `valid == 0` is `num_blocks - compulsory_misses`,
and `compulsory_misses ≤ num_blocks`; in every state satisfying the run invariant a cache
access returns and every block valid before it is valid after it; whenever `trace_cache`
returns, the `unused_cache_blocks` it has stored is `num_blocks - compulsory_misses`; and
on a trace of complete records `trace_cache` does return. -/
theorem valid_blocks_counted (rnd : Nat → Nat) (g : _args)
    (hA : 0 < g.associativity) (hN : 0 < g.num_blocks)
    (hdvd : g.associativity ∣ g.num_blocks) (hfit : fields_fit g) (hbs : g.block_size ≠ 0)
    (hp : g.replacement_policy = RR ∨ g.replacement_policy = RND)
    (hz : g.compulsory_misses = 0) :
    (∀ accesses, ∃ s, final_state (handle_addresses rnd accesses (init_state g)) = some s ∧
      Inv g s ∧ num_blocks_valid s.cache = s.args.compulsory_misses ∧
      num_blocks_wasted s.cache = g.num_blocks - s.args.compulsory_misses ∧
      s.args.compulsory_misses ≤ g.num_blocks) ∧
    (∀ s, Inv g s → ∀ (tag : List Char) (idx : Int), 0 ≤ idx →
      ∃ r, cache_access rnd tag idx s = .ok r ∧
        ∀ (i : Nat) (b : block), s.cache[i]? = some b → b.valid = 1 →
          ∃ b2, r.cache[i]? = some b2 ∧ b2.valid = 1) ∧
    (∀ trace buffer r, trace_cache rnd trace buffer g = .ok r →
      r.args.unused_cache_blocks = g.num_blocks - r.args.compulsory_misses ∧
      num_blocks_valid r.cache = r.args.compulsory_misses ∧
      r.args.compulsory_misses ≤ g.num_blocks) ∧
    (∀ trace buffer, (∀ line ∈ trace, complete_record line) →
      ∃ r, trace_cache rnd trace buffer g = .ok r) := by
  have hframe := blocks_accounted_frame g
  have hstep := fun tag idx s r (hidx : 0 ≤ idx) (h : blocks_accounted g s)
      (hr : final_state (cache_access rnd tag idx s) = some r) =>
    blocks_accounted_step rnd g hp tag idx s r hidx h hr
  have hinit := blocks_accounted_init g hA hN hdvd
  refine ⟨?_, ?_, ?_, ?_⟩
  · intro accesses
    obtain ⟨s, hs, hI⟩ := run_Inv rnd g accesses hA hN hdvd hfit hbs
    have hb := handle_addresses_lift rnd (blocks_accounted g) hframe hstep accesses _ s hinit hs
    obtain ⟨c1, c2, -, c4⟩ := blocks_accounted_counts g s hb hz
    exact ⟨s, hs, hI, c1, c2, c4⟩
  · intro s hI tag idx hidx
    obtain ⟨r, hr, -⟩ := cache_access_ok rnd g tag idx s hidx hI hp
    refine ⟨r, hr, ?_⟩
    intro i b hb hv
    rcases (cache_access_effect rnd g tag idx s r hidx hI hp hr).2 with
      ⟨-, -, e3⟩ | ⟨-, i0, b0, b2, e2, e3, e4, e5⟩
    · have := e3 i
      rw [hb] at this
      cases hri : r.cache[i]? with
      | none => rw [hri] at this; simp at this
      | some b2 =>
        rw [hri] at this
        simp only [Option.map_some', Option.some.injEq] at this
        exact ⟨b2, rfl, by rw [this]; exact hv⟩
    · rw [e5]
      by_cases hi : i0 = i
      · subst hi
        have hlt : i0 < s.cache.length := by
          by_contra hc
          rw [List.getElem?_eq_none (by omega)] at hb
          simp at hb
        exact ⟨b2, by simp [List.getElem?_set_self, hlt], e4⟩
      · exact ⟨b, by rw [List.getElem?_set_ne hi]; exact hb, hv⟩
  · intro trace buffer r hr
    obtain ⟨s, hs, rfl⟩ := trace_cache_eq rnd g trace buffer r hr
    have hb := trace_loop_lift rnd (blocks_accounted g)
      (fun s r address w e hP h =>
        hframe r _ (handle_address_lift rnd (blocks_accounted g) hframe hstep s r address w e hP
          (by rw [h]; rfl)) rfl)
      trace buffer _ s hinit hs
    obtain ⟨c1, c2, -, c4⟩ := blocks_accounted_counts g s hb hz
    exact ⟨c2, c1, c4⟩
  · intro trace buffer htrace
    obtain ⟨s, -, -, h⟩ := trace_cache_ok rnd g trace buffer hA hN hdvd hfit hbs hp htrace
    exact ⟨_, h⟩

theorem valid_blocks_counted_witness :
    (∃ s, final_state (handle_addresses (fun _ => 0)
        [⟨example_address, 4, true⟩, ⟨spanning_address, 4, false⟩]
        (init_state direct_mapped_1k)) = some s ∧
      num_blocks_valid s.cache = s.args.compulsory_misses ∧
      num_blocks_wasted s.cache = 256 - s.args.compulsory_misses) ∧
    ∃ r, trace_cache (fun _ => 0) example_trace [] direct_mapped_1k = .ok r ∧
      r.args.unused_cache_blocks = 256 - r.args.compulsory_misses := by
  obtain ⟨h1, -, h3, h4⟩ := valid_blocks_counted (fun _ => 0) direct_mapped_1k
    (by decide) (by decide) ⟨256, by decide⟩ (by decide) (by decide) (Or.inl rfl) rfl
  obtain ⟨s, hs, -, c1, c2, -⟩ := h1 [⟨example_address, 4, true⟩, ⟨spanning_address, 4, false⟩]
  obtain ⟨r, hr⟩ := h4 example_trace [] (by decide)
  exact ⟨⟨s, hs, c1, c2⟩, r, hr, (h3 _ _ r hr).1⟩

/-- The cycles the cache-access loop charges, when it returns: one per hit counted and
`4 * (block_size / 4)` per miss counted, modulo `2^32`. -/
theorem overrun_loop_cost (rnd : Nat → Nat) (tag : List Char) (index_value : Int)
    (n i : Nat) (s r : State) (h : overrun_loop rnd tag index_value n i s = .ok r) :
    (r.args.cpi_cycles : Int) % 4294967296 =
      (s.args.cpi_cycles + (r.args.cache_hits - s.args.cache_hits) +
        (r.args.cache_misses - s.args.cache_misses) * (4 * Int.tdiv s.args.block_size 4)) %
        4294967296 := by
  induction n generalizing i s with
  | zero =>
    simp only [overrun_loop, Except.ok.injEq] at h
    subst h
    simp
  | succ n ih =>
    simp only [overrun_loop] at h
    cases hc : cache_access rnd tag (index_value + i) s with
    | error e => rw [hc] at h; simp at h
    | ok s1 =>
      rw [hc] at h
      dsimp only at h
      have h1 := ih (i + 1) s1 h
      have hcnt := cache_access_counters rnd tag (index_value + i) s s1 (by rw [hc]; rfl)
      have hm : ∀ x y : Int, (x - y) * (4 * Int.tdiv s.args.block_size 4) =
          (x - (y + 1)) * (4 * Int.tdiv s.args.block_size 4) +
            4 * Int.tdiv s.args.block_size 4 := by
        intro x y; ring
      rcases hcnt with e | e | e
      · have b1 : s1.args.block_size = s.args.block_size := by rw [e]
        have b2 : s1.args.cache_hits = s.args.cache_hits + 1 := by rw [e]
        have b3 : s1.args.cache_misses = s.args.cache_misses := by rw [e]
        have b4 : s1.args.cpi_cycles = wrap32 (s.args.cpi_cycles + 1) := by rw [e]
        have hw := wrap32_val (s.args.cpi_cycles + 1)
        rw [b1, b2, b3, b4] at h1
        generalize (r.args.cache_misses - s.args.cache_misses) *
          (4 * Int.tdiv s.args.block_size 4) = p at h1 ⊢
        omega
      · have b1 : s1.args.block_size = s.args.block_size := by rw [e]
        have b2 : s1.args.cache_hits = s.args.cache_hits := by rw [e]
        have b3 : s1.args.cache_misses = s.args.cache_misses + 1 := by rw [e]
        have b4 : s1.args.cpi_cycles =
            wrap32 (s.args.cpi_cycles + 4 * Int.tdiv s.args.block_size 4) := by rw [e]
        have hw := wrap32_val (s.args.cpi_cycles + 4 * Int.tdiv s.args.block_size 4)
        rw [b1, b2, b3, b4] at h1
        rw [hm r.args.cache_misses s.args.cache_misses]
        generalize (r.args.cache_misses - (s.args.cache_misses + 1)) *
          (4 * Int.tdiv s.args.block_size 4) = p at h1 ⊢
        generalize Int.tdiv s.args.block_size 4 = c at h1 hw ⊢
        omega
      · have b1 : s1.args.block_size = s.args.block_size := by rw [e]
        have b2 : s1.args.cache_hits = s.args.cache_hits := by rw [e]
        have b3 : s1.args.cache_misses = s.args.cache_misses + 1 := by rw [e]
        have b4 : s1.args.cpi_cycles =
            wrap32 (s.args.cpi_cycles + 4 * Int.tdiv s.args.block_size 4) := by rw [e]
        have hw := wrap32_val (s.args.cpi_cycles + 4 * Int.tdiv s.args.block_size 4)
        rw [b1, b2, b3, b4] at h1
        rw [hm r.args.cache_misses s.args.cache_misses]
        generalize (r.args.cache_misses - (s.args.cache_misses + 1)) *
          (4 * Int.tdiv s.args.block_size 4) = p at h1 ⊢
        generalize Int.tdiv s.args.block_size 4 = c at h1 hw ⊢
        omega

/-- The closed form of `cpi_cycles` survives one returning call of `handle_address`
followed by `total_addresses++`. -/
theorem cycle_closed_form_step (rnd : Nat → Nat) (s r : State) (address : List Char)
    (w : Int) (e : Bool) (hQ : cycle_closed_form s.args)
    (h : handle_address rnd s address w e = .ok r) :
    cycle_closed_form (count_address r).args := by
  rw [handle_address_eq] at h
  cases hb : hex2bin address with
  | none => rw [hb] at h; simp at h
  | some bin =>
    rw [hb] at h
    simp only at h
    split at h
    · simp at h
    · split at h
      · simp at h
      · split at h
        · simp at h
        · rename_i s1 hl
          simp only [Except.ok.injEq] at h
          have hcost := overrun_loop_cost rnd _ _ _ 0 _ s1 hl
          obtain ⟨events, -, -, -, hfr, -, -⟩ := overrun_loop_events rnd _ _ _ 0 _ s1 hl
          obtain ⟨-, -, f3, -, f5, f6, -⟩ := access_frame_fields hfr
          obtain ⟨-, -, -, r4, r5, r6, r7, r8, -⟩ := retire_args e s1
          have rb : (retire e s1).args.block_size = s1.args.block_size := by
            cases e <;> rfl
          have t1 : (tick s).args.cpi_cycles = s.args.cpi_cycles := rfl
          have t2 : (tick s).args.cache_hits = s.args.cache_hits := rfl
          have t3 : (tick s).args.cache_misses = s.args.cache_misses := rfl
          have t4 : (tick s).args.block_size = s.args.block_size := rfl
          have t5 : (tick s).args.num_instructions = s.args.num_instructions := rfl
          have t6 : (tick s).args.total_addresses = s.args.total_addresses := rfl
          rw [t1, t2, t3, t4] at hcost
          rw [t4] at f3
          rw [t5] at f5
          rw [t6] at f6
          unfold cycle_closed_form at hQ ⊢
          rw [← h]
          show ((retire e s1).args.cpi_cycles : Int) % 4294967296 =
            ((retire e s1).args.cache_hits + (retire e s1).args.cache_misses *
              (4 * Int.tdiv (retire e s1).args.block_size 4) +
              2 * ((retire e s1).args.num_instructions : Int) +
              ((retire e s1).args.total_addresses + 1 -
                ((retire e s1).args.num_instructions : Int))) % 4294967296
          rw [r4, r5, r6, r7, r8, rb, f3, f5, f6, wrap32_val]
          have hm : (s1.args.cache_misses - s.args.cache_misses) *
              (4 * Int.tdiv s.args.block_size 4) =
              s1.args.cache_misses * (4 * Int.tdiv s.args.block_size 4) -
                s.args.cache_misses * (4 * Int.tdiv s.args.block_size 4) := by ring
          rw [hm] at hcost
          generalize s1.args.cache_misses * (4 * Int.tdiv s.args.block_size 4) = p at hcost ⊢
          generalize s.args.cache_misses * (4 * Int.tdiv s.args.block_size 4) = q at hcost hQ ⊢
          cases e with
          | true =>
            have hw := wrap32_val ((s.args.num_instructions : Int) + 1)
            simp only [if_true]
            rw [hw]
            omega
          | false =>
            simp only [Bool.false_eq_true, if_false]
            omega

theorem wrap32_lt (x : Int) : wrap32 x < 4294967296 := by
  have h1 := wrap32_val x
  have h2 := Int.emod_lt_of_pos x (show (0 : Int) < 4294967296 by decide)
  omega

theorem handle_address_cpi_lt (rnd : Nat → Nat) (s r : State) (address : List Char)
    (w : Int) (e : Bool) (h : handle_address rnd s address w e = .ok r) :
    r.args.cpi_cycles < 4294967296 := by
  rw [handle_address_eq] at h
  cases hb : hex2bin address with
  | none => rw [hb] at h; simp at h
  | some bin =>
    rw [hb] at h
    simp only at h
    split at h
    · simp at h
    · split at h
      · simp at h
      · split at h
        · simp at h
        · rename_i s1 hl
          simp only [Except.ok.injEq] at h
          rw [← h, (retire_args e s1).2.2.2.2.2.1]
          exact wrap32_lt _

/-- C18. Closed form of the cycle counter.  Starting from zeroed counters, whenever
`trace_cache` returns, `cpi_cycles` equals
`cache_hits + cache_misses * (4 * (block_size / 4)) + 2 * num_instructions +
(total_addresses - num_instructions)` reduced modulo `2^32`; and `trace_cache` does
return on every trace of complete records, for a geometry with positive associativity
dividing a positive number of blocks and policy `RR` or `RND`. -/
theorem cycle_counter_closed_form (rnd : Nat → Nat) (g : _args) (trace : List (List Char))
    (buffer : List Char) (hz : zeroed g) :
    (∀ r, trace_cache rnd trace buffer g = .ok r →
      (r.args.cpi_cycles : Int) =
        (r.args.cache_hits + r.args.cache_misses * (4 * Int.tdiv r.args.block_size 4) +
          2 * (r.args.num_instructions : Int) +
          (r.args.total_addresses - (r.args.num_instructions : Int))) % 4294967296) ∧
    (0 < g.associativity → 0 < g.num_blocks → g.associativity ∣ g.num_blocks →
      fields_fit g → g.block_size ≠ 0 →
      (g.replacement_policy = RR ∨ g.replacement_policy = RND) →
      (∀ line ∈ trace, complete_record line) →
      ∃ r, trace_cache rnd trace buffer g = .ok r) := by
  constructor
  · intro r hr
    obtain ⟨s, hs, rfl⟩ := trace_cache_eq rnd g trace buffer r hr
    obtain ⟨z1, z2, z3, z4, z5⟩ := hz
    have hinit : cycle_closed_form (init_state g).args ∧
        (init_state g).args.cpi_cycles < 4294967296 := by
      constructor
      · show cycle_closed_form g
        unfold cycle_closed_form
        rw [z1, z2, z3, z4, z5]
        simp
      · show g.cpi_cycles < 4294967296
        rw [z1]; decide
    have hfin := trace_loop_lift rnd
      (fun s => cycle_closed_form s.args ∧ s.args.cpi_cycles < 4294967296)
      (fun s r address w e hP h =>
        ⟨cycle_closed_form_step rnd s r address w e hP.1 h,
          handle_address_cpi_lt rnd s r address w e h⟩)
      trace buffer _ s hinit hs
    obtain ⟨hq, hlt⟩ := hfin
    unfold cycle_closed_form at hq
    show (s.args.cpi_cycles : Int) = _
    have hlt2 : (s.args.cpi_cycles : Int) < 4294967296 := by exact_mod_cast hlt
    rw [← hq]
    exact (Int.emod_eq_of_lt (Int.ofNat_nonneg _) hlt2).symm
  · intro hA hN hdvd hfit hbs hp htrace
    obtain ⟨s, -, -, h⟩ := trace_cache_ok rnd g trace buffer hA hN hdvd hfit hbs hp htrace
    exact ⟨_, h⟩

theorem cycle_counter_closed_form_witness :
    ∃ r, trace_cache (fun _ => 0) example_trace [] direct_mapped_1k = .ok r ∧
      (r.args.cpi_cycles : Int) =
        (r.args.cache_hits + r.args.cache_misses * (4 * Int.tdiv r.args.block_size 4) +
          2 * (r.args.num_instructions : Int) +
          (r.args.total_addresses - (r.args.num_instructions : Int))) % 4294967296 ∧
      r.args.cpi_cycles = 11 ∧ r.args.cache_hits = 0 ∧ r.args.cache_misses = 2 ∧
      r.args.num_instructions = 1 ∧ r.args.total_addresses = 2 := by
  obtain ⟨h1, h2⟩ := cycle_counter_closed_form (fun _ => 0) direct_mapped_1k example_trace []
    (by decide)
  obtain ⟨r, hr⟩ := h2 (by decide) (by decide) ⟨256, by decide⟩ (by decide) (by decide)
    (Or.inl rfl) (by decide)
  have hev : (trace_cache (fun _ => 0) example_trace [] direct_mapped_1k).toOption.map
      (fun r => (r.args.cpi_cycles, r.args.cache_hits, r.args.cache_misses,
        r.args.num_instructions, r.args.total_addresses)) = some (11, 0, 2, 1, 2) := by rfl
  rw [hr] at hev
  simp only [Except.toOption, Option.map_some', Option.some.injEq, Prod.mk.injEq] at hev
  obtain ⟨e1, e2, e3, e4, e5⟩ := hev
  exact ⟨r, hr, h1 r hr, e1, e2, e3, e4, e5⟩

theorem parse_arg_of_flag (p : ParseState) (arg : List Char) (hc : no_flag_hit p)
    (hf : is_flag arg) :
    ∃ q, parse_arg p arg = .ok q ∧ flag_hit arg q ∧ q.num_filled = p.num_filled := by
  obtain ⟨c1, c2, c3, c4, c5, c6⟩ := hc
  rcases hf with h | h | h | h | h <;> subst h
  · refine ⟨{ p with hit_f := true, hit_any := true }, ?_, ?_, rfl⟩
    · simp [parse_arg, c6]
    · simp [flag_hit, c2, c3, c4, c5]
  · refine ⟨{ p with hit_s := true, hit_any := true }, ?_, ?_, rfl⟩
    · simp [parse_arg, c6]
    · simp [flag_hit, c1, c3, c4, c5]
  · refine ⟨{ p with hit_b := true, hit_any := true }, ?_, ?_, rfl⟩
    · simp [parse_arg, c6]
    · simp [flag_hit, c1, c2, c4, c5]
  · refine ⟨{ p with hit_a := true, hit_any := true }, ?_, ?_, rfl⟩
    · simp [parse_arg, c6]
    · simp [flag_hit, c1, c2, c3, c5]
  · refine ⟨{ p with hit_r := true, hit_any := true }, ?_, ?_, rfl⟩
    · simp [parse_arg, c6]
    · simp [flag_hit, c1, c2, c3, c4]

theorem parse_arg_clean_ok (p q : ParseState) (arg : List Char) (hc : no_flag_hit p)
    (h : parse_arg p arg = .ok q) : is_flag arg := by
  obtain ⟨c1, c2, c3, c4, c5, c6⟩ := hc
  unfold parse_arg at h
  by_cases h1 : arg = "-f".toList
  · exact Or.inl h1
  · by_cases h2 : arg = "-s".toList
    · exact Or.inr (Or.inl h2)
    · by_cases h3 : arg = "-b".toList
      · exact Or.inr (Or.inr (Or.inl h3))
      · by_cases h4 : arg = "-a".toList
        · exact Or.inr (Or.inr (Or.inr (Or.inl h4)))
        · by_cases h5 : arg = "-r".toList
          · exact Or.inr (Or.inr (Or.inr (Or.inr h5)))
          · rw [if_neg h1, if_neg h2, if_neg h3, if_neg h4, if_neg h5] at h
            simp [c6] at h

theorem flag_hit_cases (f : List Char) (p : ParseState) (hp : flag_hit f p) (hf : is_flag f) :
    (f = "-f".toList ∧ p.hit_f = true) ∨
    (f = "-s".toList ∧ p.hit_f = false ∧ p.hit_s = true) ∨
    (f = "-b".toList ∧ p.hit_f = false ∧ p.hit_s = false ∧ p.hit_b = true) ∨
    (f = "-a".toList ∧ p.hit_f = false ∧ p.hit_s = false ∧ p.hit_b = false ∧ p.hit_a = true) ∨
    (f = "-r".toList ∧ p.hit_f = false ∧ p.hit_s = false ∧ p.hit_b = false ∧
      p.hit_a = false ∧ p.hit_r = true) := by
  obtain ⟨-, b1, b2, b3, b4, b5⟩ := hp
  rcases hf with h | h | h | h | h <;> subst h
  · exact Or.inl ⟨rfl, by rw [b1]; decide⟩
  · exact Or.inr (Or.inl ⟨rfl, by rw [b1]; decide, by rw [b2]; decide⟩)
  · exact Or.inr (Or.inr (Or.inl ⟨rfl, by rw [b1]; decide, by rw [b2]; decide,
      by rw [b3]; decide⟩))
  · exact Or.inr (Or.inr (Or.inr (Or.inl ⟨rfl, by rw [b1]; decide, by rw [b2]; decide,
      by rw [b3]; decide, by rw [b4]; decide⟩)))
  · exact Or.inr (Or.inr (Or.inr (Or.inr ⟨rfl, by rw [b1]; decide, by rw [b2]; decide,
      by rw [b3]; decide, by rw [b4]; decide, by rw [b5]; decide⟩)))

theorem parse_policy_some (v : List Char) :
    (∃ x, parse_policy v = some x) ↔
      (v = "RR".toList ∨ v = "RND".toList ∨ v = "LRU".toList) := by
  unfold parse_policy
  by_cases h1 : v = "RR".toList
  · rw [if_pos h1]; exact ⟨fun _ => Or.inl h1, fun _ => ⟨_, rfl⟩⟩
  · rw [if_neg h1]
    by_cases h2 : v = "RND".toList
    · rw [if_pos h2]; exact ⟨fun _ => Or.inr (Or.inl h2), fun _ => ⟨_, rfl⟩⟩
    · rw [if_neg h2]
      by_cases h3 : v = "LRU".toList
      · rw [if_pos h3]; exact ⟨fun _ => Or.inr (Or.inr h3), fun _ => ⟨_, rfl⟩⟩
      · rw [if_neg h3]
        constructor
        · rintro ⟨x, hx⟩; simp at hx
        · rintro (h | h | h)
          · exact absurd h h1
          · exact absurd h h2
          · exact absurd h h3

/-- The value branch of `parse_args` stores `v` exactly when it is within the bounds
checked for the flag that was hit. -/
theorem assign_value_iff (f v : List Char) (p : ParseState) (hp : flag_hit f p)
    (hf : is_flag f) :
    (∃ q, assign_value p v = .ok q) ↔
      ((f = "-f".toList → v.length < 64) ∧
       (f = "-s".toList → 1 ≤ atoi v ∧ atoi v ≤ 8192) ∧
       (f = "-b".toList → 4 ≤ atoi v ∧ atoi v ≤ 64) ∧
       (f = "-a".toList → atoi v = 1 ∨ atoi v = 2 ∨ atoi v = 4 ∨ atoi v = 8 ∨ atoi v = 16) ∧
       (f = "-r".toList → v = "RR".toList ∨ v = "RND".toList ∨ v = "LRU".toList)) := by
  have d1 : ¬ ("-s".toList = "-f".toList) := by decide
  have d2 : ¬ ("-b".toList = "-f".toList) := by decide
  have d3 : ¬ ("-a".toList = "-f".toList) := by decide
  have d4 : ¬ ("-r".toList = "-f".toList) := by decide
  have d5 : ¬ ("-f".toList = "-s".toList) := by decide
  have d6 : ¬ ("-b".toList = "-s".toList) := by decide
  have d7 : ¬ ("-a".toList = "-s".toList) := by decide
  have d8 : ¬ ("-r".toList = "-s".toList) := by decide
  have d9 : ¬ ("-f".toList = "-b".toList) := by decide
  have d10 : ¬ ("-s".toList = "-b".toList) := by decide
  have d11 : ¬ ("-a".toList = "-b".toList) := by decide
  have d12 : ¬ ("-r".toList = "-b".toList) := by decide
  have d13 : ¬ ("-f".toList = "-a".toList) := by decide
  have d14 : ¬ ("-s".toList = "-a".toList) := by decide
  have d15 : ¬ ("-b".toList = "-a".toList) := by decide
  have d16 : ¬ ("-r".toList = "-a".toList) := by decide
  have d17 : ¬ ("-f".toList = "-r".toList) := by decide
  have d18 : ¬ ("-s".toList = "-r".toList) := by decide
  have d19 : ¬ ("-b".toList = "-r".toList) := by decide
  have d20 : ¬ ("-a".toList = "-r".toList) := by decide
  unfold assign_value
  rcases flag_hit_cases f p hp hf with ⟨e, a1⟩ | ⟨e, a1, a2⟩ | ⟨e, a1, a2, a3⟩ |
      ⟨e, a1, a2, a3, a4⟩ | ⟨e, a1, a2, a3, a4, a5⟩ <;> subst e
  · simp only [a1, if_true, d5, d9, d13, d17, false_implies, true_implies, and_true]
    by_cases hl : v.length < 64
    · simp only [hl, if_true, iff_true]; exact ⟨_, rfl⟩
    · simp only [hl, if_false, iff_false]; rintro ⟨q, hq⟩; simp at hq
  · simp only [a1, a2, if_true, Bool.false_eq_true, if_false, d1, d10, d14, d18,
      false_implies, true_implies, and_true, true_and]
    by_cases hl : atoi v < 1 ∨ atoi v > 8192
    · simp only [hl, if_true]
      constructor
      · rintro ⟨q, hq⟩; simp at hq
      · intro h; omega
    · simp only [hl, if_false]
      exact ⟨fun _ => by omega, fun _ => ⟨_, rfl⟩⟩
  · simp only [a1, a2, a3, if_true, Bool.false_eq_true, if_false, d2, d6, d15, d19,
      false_implies, true_implies, and_true, true_and]
    by_cases hl : atoi v < 4 ∨ atoi v > 64
    · simp only [hl, if_true]
      constructor
      · rintro ⟨q, hq⟩; simp at hq
      · intro h; omega
    · simp only [hl, if_false]
      exact ⟨fun _ => by omega, fun _ => ⟨_, rfl⟩⟩
  · simp only [a1, a2, a3, a4, if_true, Bool.false_eq_true, if_false, d3, d7, d11, d20,
      false_implies, true_implies, and_true, true_and]
    by_cases hl : atoi v ≠ 1 ∧ atoi v ≠ 2 ∧ atoi v ≠ 4 ∧ atoi v ≠ 8 ∧ atoi v ≠ 16
    · rw [if_pos hl]
      constructor
      · rintro ⟨q, hq⟩; simp at hq
      · intro h; omega
    · rw [if_neg hl]
      exact ⟨fun _ => by omega, fun _ => ⟨_, rfl⟩⟩
  · simp only [a1, a2, a3, a4, a5, if_true, Bool.false_eq_true, if_false, d4, d8, d12, d16,
      false_implies, true_implies, true_and]
    rw [← parse_policy_some]
    cases parse_policy v with
    | none => simp
    | some x => simp

theorem assign_value_num_filled (p q : ParseState) (v : List Char)
    (h : assign_value p v = .ok q) : q.num_filled = p.num_filled := by
  unfold assign_value at h
  split at h
  · split at h
    · simp only [Except.ok.injEq] at h; rw [← h]
    · simp at h
  · split at h
    · split at h
      · simp at h
      · simp only [Except.ok.injEq] at h; rw [← h]
    · split at h
      · split at h
        · simp at h
        · simp only [Except.ok.injEq] at h; rw [← h]
      · split at h
        · split at h
          · simp at h
          · simp only [Except.ok.injEq] at h; rw [← h]
        · split at h
          · split at h
            · simp only [Except.ok.injEq] at h; rw [← h]
            · simp at h
          · simp at h

theorem assign_value_undefined (p : ParseState) (v : List Char)
    (h : assign_value p v = .error .undefined) : 64 ≤ v.length := by
  unfold assign_value at h
  split at h
  · split at h
    · simp at h
    · omega
  · split at h
    · split at h <;> simp at h
    · split at h
      · split at h <;> simp at h
      · split at h
        · split at h <;> simp at h
        · split at h
          · split at h <;> simp at h
          · simp at h

theorem parse_arg_value_eq (p : ParseState) (v : List Char) (hnf : ¬ is_flag v)
    (ha : p.hit_any = true) :
    parse_arg p v =
      match assign_value { p with num_filled := p.num_filled + 1 } v with
      | .error e => .error e
      | .ok q =>
        .ok { q with
          hit_f := false, hit_s := false, hit_b := false, hit_a := false, hit_r := false,
          hit_any := false } := by
  unfold is_flag at hnf
  simp only [not_or] at hnf
  obtain ⟨h1, h2, h3, h4, h5⟩ := hnf
  unfold parse_arg
  rw [if_neg h1, if_neg h2, if_neg h3, if_neg h4, if_neg h5, if_pos ha]

theorem parse_arg_flag_pending (p : ParseState) (v : List Char) (hf : is_flag v)
    (ha : p.hit_any = true) : parse_arg p v = .error .usage := by
  unfold parse_arg
  rcases hf with h | h | h | h | h <;> subst h <;> simp [ha]

/-- The step of `parse_args` on the argument after a flag: it is stored exactly when it
is a good value for that flag, and then no flag is waiting and one more value is counted. -/
theorem parse_arg_value (p : ParseState) (f v : List Char) (hp : flag_hit f p)
    (hf : is_flag f) :
    ((∃ q, parse_arg p v = .ok q) ↔ value_ok f v) ∧
    ∀ q, parse_arg p v = .ok q → no_flag_hit q ∧ q.num_filled = p.num_filled + 1 := by
  have ha : p.hit_any = true := hp.1
  have hp2 : flag_hit f { p with num_filled := p.num_filled + 1 } := hp
  have hiff := assign_value_iff f v _ hp2 hf
  by_cases hv : is_flag v
  · rw [parse_arg_flag_pending p v hv ha]
    refine ⟨⟨fun ⟨q, hq⟩ => by simp at hq, fun h => absurd hv h.1⟩, fun q hq => by simp at hq⟩
  · rw [parse_arg_value_eq p v hv ha]
    cases hav : assign_value { p with num_filled := p.num_filled + 1 } v with
    | error e =>
      rw [hav] at hiff
      refine ⟨⟨fun ⟨q, hq⟩ => by simp at hq, fun h => ?_⟩, fun q hq => by simp at hq⟩
      obtain ⟨q, hq⟩ := hiff.2 h.2
      simp at hq
    | ok q1 =>
      rw [hav] at hiff
      have hnf := assign_value_num_filled _ q1 v hav
      refine ⟨⟨fun _ => ⟨hv, hiff.1 ⟨q1, rfl⟩⟩, fun _ => ⟨_, rfl⟩⟩, fun q hq => ?_⟩
      simp only [Except.ok.injEq] at hq
      rw [← hq]
      exact ⟨⟨rfl, rfl, rfl, rfl, rfl, rfl⟩, hnf⟩

theorem parse_arg_undefined (p : ParseState) (v : List Char)
    (h : parse_arg p v = .error .undefined) : 64 ≤ v.length := by
  unfold parse_arg at h
  split at h
  · split at h <;> simp at h
  · split at h
    · split at h <;> simp at h
    · split at h
      · split at h <;> simp at h
      · split at h
        · split at h <;> simp at h
        · split at h
          · split at h <;> simp at h
          · split at h
            · split at h
              · rename_i e he
                simp only [Except.error.injEq] at h
                subst h
                exact assign_value_undefined _ v he
              · simp at h
            · simp at h

theorem parse_loop_undefined (l : List (List Char)) (p : ParseState)
    (h : parse_loop l p = .error .undefined) : ∃ v ∈ l, 64 ≤ v.length := by
  induction l generalizing p with
  | nil => simp [parse_loop] at h
  | cons x rest ih =>
    simp only [parse_loop] at h
    cases hx : parse_arg p x with
    | error e =>
      rw [hx] at h
      simp only [Except.error.injEq] at h
      subst h
      exact ⟨x, List.mem_cons_self _ _, parse_arg_undefined p x hx⟩
    | ok q =>
      rw [hx] at h
      obtain ⟨v, hv, hl⟩ := ih q h
      exact ⟨v, List.mem_cons_of_mem _ hv, hl⟩

/-- The loop of `parse_args`, started with no flag waiting, returns only on a list of
flag/value pairs (possibly followed by one more flag), and has then counted the pairs. -/
theorem parse_loop_pairs (n : Nat) (l : List (List Char)) (p r : ParseState)
    (hn : l.length ≤ n) (hc : no_flag_hit p) (h : parse_loop l p = .ok r) :
    ∃ k : Nat, flag_value_pairs k l ∧ r.num_filled = p.num_filled + (k : Int) := by
  induction n generalizing l p with
  | zero =>
    have : l = [] := List.length_eq_zero.mp (by omega)
    subst this
    simp only [parse_loop, Except.ok.injEq] at h
    subst h
    exact ⟨0, Or.inl rfl, by simp⟩
  | succ n ih =>
    match l, hn, h with
    | [], _, h =>
      simp only [parse_loop, Except.ok.injEq] at h
      subst h
      exact ⟨0, Or.inl rfl, by simp⟩
    | [x], _, h =>
      simp only [parse_loop] at h
      cases hx : parse_arg p x with
      | error e => rw [hx] at h; simp at h
      | ok q =>
        rw [hx] at h
        simp only [Except.ok.injEq] at h
        subst h
        have hf := parse_arg_clean_ok p q x hc hx
        obtain ⟨q2, e1, -, e3⟩ := parse_arg_of_flag p x hc hf
        rw [hx] at e1
        simp only [Except.ok.injEq] at e1
        subst e1
        exact ⟨0, Or.inr ⟨x, hf, rfl⟩, by rw [e3]; simp⟩
    | x :: y :: rest, hn, h =>
      simp only [parse_loop] at h
      cases hx : parse_arg p x with
      | error e => rw [hx] at h; simp at h
      | ok q =>
        rw [hx] at h
        dsimp only at h
        have hf := parse_arg_clean_ok p q x hc hx
        obtain ⟨q2, e1, e2, e3⟩ := parse_arg_of_flag p x hc hf
        rw [hx] at e1
        simp only [Except.ok.injEq] at e1
        subst e1
        cases hy : parse_arg q y with
        | error e => rw [hy] at h; simp at h
        | ok q3 =>
          rw [hy] at h
          obtain ⟨hv1, hv2⟩ := parse_arg_value q x y e2 hf
          obtain ⟨c3, n3⟩ := hv2 q3 hy
          obtain ⟨k, hk, hnk⟩ := ih rest q3 (by simp only [List.length_cons] at hn; omega) c3 h
          refine ⟨k + 1, ⟨hf, hv1.1 ⟨q3, hy⟩, hk⟩, ?_⟩
          rw [hnk, n3, e3]; push_cast; ring

/-- On a list of flag/value pairs (possibly followed by one more flag) the loop of
`parse_args`, started with no flag waiting, returns and has counted the pairs. -/
theorem parse_loop_of_pairs (k : Nat) (l : List (List Char)) (p : ParseState)
    (hc : no_flag_hit p) (h : flag_value_pairs k l) :
    ∃ r, parse_loop l p = .ok r ∧ r.num_filled = p.num_filled + (k : Int) := by
  induction k generalizing l p with
  | zero =>
    rcases h with h | ⟨f, hf, h⟩
    · subst h; exact ⟨p, rfl, by simp⟩
    · subst h
      obtain ⟨q, e1, -, e3⟩ := parse_arg_of_flag p f hc hf
      exact ⟨q, by simp only [parse_loop, e1], by rw [e3]; simp⟩
  | succ k ih =>
    match l, h with
    | [], h => exact absurd h (by simp [flag_value_pairs])
    | [x], h => exact absurd h (by simp [flag_value_pairs])
    | x :: y :: rest, h =>
      obtain ⟨hf, hv, hrest⟩ := h
      obtain ⟨q, e1, e2, e3⟩ := parse_arg_of_flag p x hc hf
      obtain ⟨hv1, hv2⟩ := parse_arg_value q x y e2 hf
      obtain ⟨q3, hy⟩ := hv1.2 hv
      obtain ⟨c3, n3⟩ := hv2 q3 hy
      obtain ⟨r, hr, hnr⟩ := ih rest q3 c3 hrest
      exact ⟨r, by simp only [parse_loop, e1, hy, hr], by rw [hnr, n3, e3]; push_cast; ring⟩

/-- What `parse_args` accepts: exactly the argument vectors that, after `argv[0]`, are
five flag/value pairs, each value good for its flag, possibly followed by one more flag. -/
theorem parse_args_accepts_iff (args : _args) (trace_file : List Char)
    (argv : List (List Char)) :
    (∃ r, parse_args args trace_file argv = .ok r) ↔ flag_value_pairs 5 (argv.drop 1) := by
  have hc : no_flag_hit ⟨args, trace_file, 0, false, false, false, false, false, false⟩ :=
    ⟨rfl, rfl, rfl, rfl, rfl, rfl⟩
  unfold parse_args
  constructor
  · rintro ⟨r, hr⟩
    cases hl : parse_loop (argv.drop 1)
        ⟨args, trace_file, 0, false, false, false, false, false, false⟩ with
    | error e => rw [hl] at hr; simp at hr
    | ok p =>
      rw [hl] at hr
      simp only at hr
      split at hr
      · simp at hr
      · rename_i h5
        obtain ⟨k, hk, hnk⟩ := parse_loop_pairs _ _ _ p (le_refl _) hc hl
        have : k = 5 := by
          simp only [ne_eq, not_not] at h5
          rw [h5] at hnk
          simp only [zero_add] at hnk
          exact_mod_cast hnk.symm
        subst this
        exact hk
  · intro h
    obtain ⟨r, hr, hnr⟩ := parse_loop_of_pairs 5 _ _ hc h
    rw [hr]
    have h5 : r.num_filled = 5 := by rw [hnr]; rfl
    simp only [h5, ne_eq, not_true_eq_false, if_false]
    exact ⟨_, rfl⟩

theorem parse_args_undefined (args : _args) (trace_file : List Char)
    (argv : List (List Char)) (h : parse_args args trace_file argv = .error .undefined) :
    ∃ v ∈ argv.drop 1, 64 ≤ v.length := by
  unfold parse_args at h
  cases hl : parse_loop (argv.drop 1)
      ⟨args, trace_file, 0, false, false, false, false, false, false⟩ with
  | error e =>
    rw [hl] at h
    simp only [Except.error.injEq] at h
    subst h
    exact parse_loop_undefined _ _ hl
  | ok p =>
    rw [hl] at h
    simp only at h
    split at h <;> simp at h

/-- C14. Argument validation accepts a repeated flag.  For every content of the
structure and of its `trace_file` buffer before the call, `parse_args` returns on
`sim -s 1 -s 2 -s 3 -s 4 -s 5`, having stored only `cache_size = 5` (block size,
associativity, policy and trace file are left as they were), and returns on a command
line with the five flags once each followed by a sixth flag without a value.  In general
`parse_args` accepts exactly the argument vectors made of five flag/value pairs with
each value good for its own flag, possibly followed by one more flag; on every other
vector whose arguments are shorter than the 64 bytes of `trace_file` it ends in the
usage error.  A numeric value is good when the 32-bit `int` that `atoi` returns for it is
in range: the cache size `4294967297` is accepted and stored as 1. -/
theorem parse_args_accepts_repeated_flag (args : _args) (trace_file : List Char) :
    parse_args args trace_file repeated_flag_argv =
      .ok ({ args with cache_size := 5 }, trace_file) ∧
    parse_args args trace_file (five_flags_argv ++ ["-f".toList]) =
      parse_args args trace_file five_flags_argv ∧
    parse_args args trace_file five_flags_argv =
      .ok ({ args with
        cache_size := 1
        block_size := 4
        associativity := 1
        replacement_policy := RR }, "trace.trc".toList) ∧
    (atoi "4294967297".toList = 1 ∧
      parse_args args trace_file wrapped_size_argv =
        parse_args args trace_file five_flags_argv) ∧
    (∀ argv, (∃ r, parse_args args trace_file argv = .ok r) ↔
      flag_value_pairs 5 (argv.drop 1)) ∧
    (∀ argv, (∀ v ∈ argv.drop 1, v.length < 64) → ¬ flag_value_pairs 5 (argv.drop 1) →
      parse_args args trace_file argv = .error .usage) := by
  refine ⟨rfl, rfl, rfl, ⟨by decide, rfl⟩,
    fun argv => parse_args_accepts_iff args trace_file argv, ?_⟩
  intro argv hshort hnot
  cases h : parse_args args trace_file argv with
  | ok r => exact absurd ((parse_args_accepts_iff args trace_file argv).1 ⟨r, h⟩) hnot
  | error e =>
    cases e with
    | usage => rfl
    | undefined =>
      obtain ⟨v, hv, hl⟩ := parse_args_undefined args trace_file argv h
      have := hshort v hv
      omega

theorem parse_args_accepts_repeated_flag_witness :
    (∃ r, parse_args (config 0 0 0 0) [] repeated_flag_argv = .ok r ∧ r.1.cache_size = 5 ∧
      r.1.block_size = 0 ∧ r.1.associativity = 0) ∧
    parse_args (config 0 0 0 0) [] ["sim".toList, "-x".toList] = .error .usage := by
  obtain ⟨h1, -, -, -, -, h5⟩ := parse_args_accepts_repeated_flag (config 0 0 0 0) []
  exact ⟨⟨_, h1, rfl, rfl, rfl⟩, h5 _ (by decide) (fun h => h)⟩

/-- The conflict branch exits only in the `LRU` and `default` cases of the `switch`, and
then in the state it was entered in. -/
theorem replace_block_exit (rnd : Nat → Nat) (tag : List Char) (idx r0 : Int) (s r : State)
    (c : ExitCode) (h : replace_block rnd tag idx r0 s = .error (.exit c r)) :
    r = s ∧ (c = .lru_not_implemented ∨ c = .invalid_policy) := by
  unfold replace_block at h
  split at h
  · rename_i e he
    simp only [Except.error.injEq] at h
    subst h
    unfold replacement_offset at he
    split at he
    · split at he <;> simp at he
    · split at he
      · split at he <;> simp at he
      · split at he
        · simp only [Except.error.injEq, Fault.exit.injEq] at he
          exact ⟨he.2.symm, Or.inl he.1.symm⟩
        · simp only [Except.error.injEq, Fault.exit.injEq] at he
          exact ⟨he.2.symm, Or.inr he.1.symm⟩
  · split at h
    · simp at h
    · split at h
      · simp at h
      · split at h
        · simp at h
        · simp only at h
          split at h <;> simp at h

/-- A cache access exits only at a conflict miss, after the access and the miss have been
counted and before any block is touched or any event recorded. -/
theorem cache_access_exit (rnd : Nat → Nat) (tag : List Char) (idx : Int) (s r : State)
    (c : ExitCode) (h : cache_access rnd tag idx s = .error (.exit c r)) :
    r.log = s.log ∧ r.cache = s.cache ∧
    r.args = { s.args with
      total_cache_accesses := s.args.total_cache_accesses + 1
      cpi_cycles := wrap32 (s.args.cpi_cycles + 4 * Int.tdiv s.args.block_size 4)
      cache_misses := s.args.cache_misses + 1
      conflict_misses := s.args.conflict_misses + 1 } ∧
    (c = .lru_not_implemented ∨ c = .invalid_policy) := by
  unfold cache_access at h
  simp only at h
  split at h
  · simp at h
  · split at h
    · rename_i e he
      have := find_tag_error _ _ _ _ _ _ he
      subst this
      simp at h
    · simp at h
    · split at h
      · rename_i e he
        have := find_empty_error _ _ _ _ _ he
        subst this
        simp at h
      · split at h <;> simp at h
      · obtain ⟨h1, h2⟩ := replace_block_exit rnd tag idx _ _ r c h
        subst h1
        exact ⟨rfl, rfl, rfl, h2⟩

/-- The cache-access loop at an exit: the accesses completed before it are recorded, the
`k`-th for index value `index_value + i + k`, and the access that exits has been counted. -/
theorem overrun_loop_exit (rnd : Nat → Nat) (tag : List Char) (index_value : Int)
    (n i : Nat) (s r : State) (c : ExitCode)
    (h : overrun_loop rnd tag index_value n i s = .error (.exit c r)) :
    ∃ events, r.log = events ++ s.log ∧ events.length < n ∧
      (∀ k, k < events.length → ∃ e, events.reverse[k]? = some e ∧ e.tag = tag ∧
        e.idx = index_value + ((i + k : Nat) : Int) ∧
        e.row = row_start s.args (index_value + ((i + k : Nat) : Int))) ∧
      r.args.total_cache_accesses = s.args.total_cache_accesses + (events.length : Int) + 1 ∧
      (c = .lru_not_implemented ∨ c = .invalid_policy) := by
  induction n generalizing i s with
  | zero => simp [overrun_loop] at h
  | succ n ih =>
    simp only [overrun_loop] at h
    cases hc : cache_access rnd tag (index_value + i) s with
    | error e =>
      rw [hc] at h
      simp only [Except.error.injEq] at h
      subst h
      obtain ⟨e1, -, e3, e4⟩ := cache_access_exit rnd tag _ s r c hc
      refine ⟨[], by simpa using e1, by simp, ?_, by rw [e3]; simp, e4⟩
      intro k hk; simp at hk
    | ok s1 =>
      rw [hc] at h
      dsimp only at h
      obtain ⟨k0, hlog0, hargs0⟩ := cache_access_event rnd tag _ s s1 hc
      have hf0 := access_frame_of_event hargs0
      obtain ⟨fA, fN, -⟩ := access_frame_fields hf0
      obtain ⟨events1, h1, h2, h3, h5, h6⟩ := ih (i + 1) s1 h
      have hrs : ∀ x, row_start s1.args x = row_start s.args x :=
        fun x => row_start_congr s.args s1.args x fA fN
      refine ⟨events1 ++ [⟨tag, index_value + i, row_start s.args (index_value + i), k0⟩],
        ?_, ?_, ?_, ?_, h6⟩
      · rw [h1, hlog0]; simp
      · simp; omega
      · intro k hk
        rw [List.reverse_append]
        cases k with
        | zero =>
          exact ⟨⟨tag, index_value + i, row_start s.args (index_value + i), k0⟩,
            by simp, rfl, by simp, by simp⟩
        | succ k =>
          obtain ⟨e, e1, e2, e3, e4⟩ := h3 k (by simp at hk; omega)
          have ei : ((i + 1 + k : Nat) : Int) = ((i + (k + 1) : Nat) : Int) := by
            push_cast; ring
          refine ⟨e, by simpa using e1, e2, by rw [e3, ei], by rw [e4, hrs, ei]⟩
      · rw [h5, hargs0]; simp; ring

/-- A returning call of `handle_address` has converted the address, run the cache-access
loop to its end and added the closing cycles. -/
theorem handle_address_inv (rnd : Nat → Nat) (s r : State) (address : List Char) (w : Int)
    (e : Bool) (h : handle_address rnd s address w e = .ok r) :
    ∃ bin s1, hex2bin address = some bin ∧ s.args.block_size ≠ 0 ∧
      overrun_loop rnd (decode s.args bin).1 (decode s.args bin).2.2.1
        (num_overruns s.args (decode s.args bin).2.2.2 w).toNat 0 (tick s) = .ok s1 ∧
      r = retire e s1 := by
  rw [handle_address_eq] at h
  cases hb : hex2bin address with
  | none => rw [hb] at h; simp at h
  | some bin =>
    rw [hb] at h
    simp only at h
    split at h
    · simp at h
    · split at h
      · simp at h
      · rename_i hbs
        split at h
        · simp at h
        · rename_i s1 hl
          simp only [Except.ok.injEq] at h
          exact ⟨bin, s1, rfl, hbs, hl, h.symm⟩

/-- The effect of a returning call of `handle_address`, in any state and for any policy:
the sub-accesses it has recorded, the `k`-th for the decoded tag and index value
`index_value + k`, and what it has added to the counters. -/
theorem handle_address_effect (rnd : Nat → Nat) (s r : State) (address : List Char) (w : Int)
    (e : Bool) (h : handle_address rnd s address w e = .ok r) :
    ∃ bin events, hex2bin address = some bin ∧ s.args.block_size ≠ 0 ∧
      r.log = events ++ s.log ∧
      events.length = (num_overruns s.args (decode s.args bin).2.2.2 w).toNat ∧
      (∀ k, k < events.length → ∃ ev, events.reverse[k]? = some ev ∧
        ev.tag = (decode s.args bin).1 ∧ ev.idx = (decode s.args bin).2.2.1 + (k : Int) ∧
        ev.row = Int.tmod (((decode s.args bin).2.2.1 + (k : Int)) * s.args.associativity)
          s.args.num_blocks) ∧
      r.args.total_cache_accesses = s.args.total_cache_accesses + (events.length : Int) ∧
      r.args.cpi_cycles =
        wrap32 (s.args.cpi_cycles + log_cost s.args events + (if e then 2 else 1)) ∧
      r.args.num_instructions =
        (if e then wrap32 (s.args.num_instructions + 1) else s.args.num_instructions) ∧
      r.args.total_addresses = s.args.total_addresses ∧
      r.args.cpu_cycle = s.args.cpu_cycle + 1 := by
  obtain ⟨bin, s1, hbin, hbs, hloop, rfl⟩ := handle_address_inv rnd s r address w e h
  obtain ⟨events, hlog, hlen, hev, hfr, htot, hcpi⟩ :=
    overrun_loop_events rnd _ _ _ 0 _ s1 hloop
  obtain ⟨r1, -, r3, -, -, r6, r7, r8, -⟩ := retire_args e s1
  obtain ⟨-, -, -, -, f5, f6, f7, -⟩ := access_frame_fields hfr
  have rc : (retire e s1).args.cpu_cycle = s1.args.cpu_cycle := by cases e <;> rfl
  refine ⟨bin, events, hbin, hbs, by rw [r1, hlog]; rfl, hlen, ?_, by rw [r3, htot, hlen]; rfl, ?_,
    by rw [r7, f5]; rfl, by rw [r8, f6]; rfl, by rw [rc, f7]; rfl⟩
  · intro k hk
    obtain ⟨ev, e1, e2, e3, e4⟩ := hev k (by omega)
    simp only [Nat.zero_add] at e3 e4
    exact ⟨ev, e1, e2, e3, e4⟩
  · rw [r6]
    apply wrap32_congr
    have hcpi2 : (s1.args.cpi_cycles : Int) % 4294967296 =
        (s.args.cpi_cycles + log_cost s.args events) % 4294967296 := hcpi
    generalize (if e = true then (2 : Int) else 1) = c
    generalize log_cost s.args events = d at hcpi2 ⊢
    omega

/-- The state of `handle_address` at an exit: either the conversion of the address
failed before any access, or a conflict miss exited in the `switch` after the earlier
sub-accesses of the address had been completed. -/
theorem handle_address_exit (rnd : Nat → Nat) (s r : State) (address : List Char) (w : Int)
    (e : Bool) (c : ExitCode) (h : handle_address rnd s address w e = .error (.exit c r)) :
    (c = .unknown_hex ∧ hex2bin address = none ∧ r = tick s) ∨
    (∃ bin events, hex2bin address = some bin ∧ r.log = events ++ s.log ∧
      events.length < (num_overruns s.args (decode s.args bin).2.2.2 w).toNat ∧
      (∀ k, k < events.length → ∃ ev, events.reverse[k]? = some ev ∧
        ev.tag = (decode s.args bin).1 ∧ ev.idx = (decode s.args bin).2.2.1 + (k : Int) ∧
        ev.row = Int.tmod (((decode s.args bin).2.2.1 + (k : Int)) * s.args.associativity)
          s.args.num_blocks) ∧
      r.args.total_cache_accesses = s.args.total_cache_accesses + (events.length : Int) + 1 ∧
      (c = .lru_not_implemented ∨ c = .invalid_policy)) := by
  rw [handle_address_eq] at h
  cases hb : hex2bin address with
  | none =>
    rw [hb] at h
    simp only [Except.error.injEq, Fault.exit.injEq] at h
    exact Or.inl ⟨h.1.symm, rfl, h.2.symm⟩
  | some bin =>
    rw [hb] at h
    simp only at h
    split at h
    · simp at h
    · split at h
      · simp at h
      · split at h
        · rename_i e2 hl
          simp only [Except.error.injEq] at h
          subst h
          obtain ⟨events, h1, h2, h3, h4, h5⟩ := overrun_loop_exit rnd _ _ _ 0 _ r c hl
          refine Or.inr ⟨bin, events, rfl, h1, h2, ?_, h4, h5⟩
          intro k hk
          obtain ⟨ev, e1, e2, e3, e4⟩ := h3 k hk
          simp only [Nat.zero_add] at e3 e4
          exact ⟨ev, e1, e2, e3, e4⟩
        · simp at h

/-- C11. Block spanning.  In any state, for any geometry and policy, whenever
`handle_address` returns it has performed exactly `num_overruns` sub-accesses, where
`num_overruns` is the ceiling of `(offset_value + bytes_read) / block_size` (none when
that is not positive): the `k`-th was made with the decoded tag against index value
`index_value + k`, in the row starting at
`((index_value + k) * associativity) mod num_blocks`, and `total_cache_accesses` has
grown by their number; there is at least one when `bytes_read ≥ 1`, and exactly two, for
`index_value` and `index_value + 1`, when
`block_size < offset_value + bytes_read ≤ 2 * block_size`.  When `handle_address` exits
instead, either the address was not hexadecimal and no sub-access was made, or a
conflict miss met the `LRU` or `default` case of the `switch`: the sub-accesses made by
then are the first ones of the same sequence, fewer than `num_overruns` completed.
`handle_address` does return in every state a run reaches from the initial cache when
the associativity divides `num_blocks` and the policy is `RR` or `RND`. -/
theorem block_spanning (rnd : Nat → Nat) (s : State) (address : List Char)
    (bytes_read : Int) (is_eip : Bool) :
    (∀ r, handle_address rnd s address bytes_read is_eip = .ok r →
      ∃ bin events, hex2bin address = some bin ∧ r.log = events ++ s.log ∧
        events.length = (num_overruns s.args (decode s.args bin).2.2.2 bytes_read).toNat ∧
        (∀ k, k < events.length → ∃ ev, events.reverse[k]? = some ev ∧
          ev.tag = (decode s.args bin).1 ∧ ev.idx = (decode s.args bin).2.2.1 + (k : Int) ∧
          ev.row = Int.tmod (((decode s.args bin).2.2.1 + (k : Int)) * s.args.associativity)
            s.args.num_blocks) ∧
        r.args.total_cache_accesses = s.args.total_cache_accesses + (events.length : Int) ∧
        (0 < s.args.block_size →
          s.args.block_size * (num_overruns s.args (decode s.args bin).2.2.2 bytes_read - 1) <
            (decode s.args bin).2.2.2 + bytes_read ∧
          (decode s.args bin).2.2.2 + bytes_read ≤
            s.args.block_size * num_overruns s.args (decode s.args bin).2.2.2 bytes_read ∧
          (0 ≤ bytes_read →
            (events.length : Int) = num_overruns s.args (decode s.args bin).2.2.2 bytes_read) ∧
          (1 ≤ bytes_read → 1 ≤ events.length) ∧
          (s.args.block_size < (decode s.args bin).2.2.2 + bytes_read →
            (decode s.args bin).2.2.2 + bytes_read ≤ 2 * s.args.block_size →
            ∃ e0 e1, events = [e1, e0] ∧ e0.idx = (decode s.args bin).2.2.1 ∧
              e1.idx = (decode s.args bin).2.2.1 + 1 ∧ e0.tag = (decode s.args bin).1 ∧
              e1.tag = (decode s.args bin).1))) ∧
    (∀ c r, handle_address rnd s address bytes_read is_eip = .error (.exit c r) →
      (c = .unknown_hex ∧ hex2bin address = none ∧ r.log = s.log ∧
        r.args.total_cache_accesses = s.args.total_cache_accesses) ∨
      (∃ bin events, hex2bin address = some bin ∧ r.log = events ++ s.log ∧
        events.length < (num_overruns s.args (decode s.args bin).2.2.2 bytes_read).toNat ∧
        (∀ k, k < events.length → ∃ ev, events.reverse[k]? = some ev ∧
          ev.tag = (decode s.args bin).1 ∧ ev.idx = (decode s.args bin).2.2.1 + (k : Int) ∧
          ev.row = Int.tmod (((decode s.args bin).2.2.1 + (k : Int)) * s.args.associativity)
            s.args.num_blocks) ∧
        r.args.total_cache_accesses =
          s.args.total_cache_accesses + (events.length : Int) + 1 ∧
        (c = .lru_not_implemented ∨ c = .invalid_policy))) ∧
    (∀ g, Inv g s → fields_fit g → g.block_size ≠ 0 →
      (g.replacement_policy = RR ∨ g.replacement_policy = RND) →
      address.length = 8 → (∀ ch ∈ address, ch ∈ lower_hex_digits) →
      ∃ r, handle_address rnd s address bytes_read is_eip = .ok r ∧ Inv g r) := by
  refine ⟨?_, ?_, ?_⟩
  · intro r h
    obtain ⟨bin, events, hbin, -, hlog, hlen, hkth, htot, -⟩ :=
      handle_address_effect rnd s r address bytes_read is_eip h
    refine ⟨bin, events, hbin, hlog, hlen, hkth, htot, ?_⟩
    intro hbs
    obtain ⟨hc1, hc2⟩ := num_overruns_ceil s.args (decode s.args bin).2.2.2 bytes_read hbs
    have hov : 0 ≤ (decode s.args bin).2.2.2 := (to_decimal_bounds _).1
    refine ⟨hc1, hc2, ?_, ?_, ?_⟩
    · intro hw
      have := num_overruns_nonneg s.args (decode s.args bin).2.2.2 bytes_read hbs (by omega)
      rw [hlen]; omega
    · intro hw
      have := num_overruns_pos s.args (decode s.args bin).2.2.2 bytes_read hbs (by omega)
      rw [hlen]; omega
    · intro h1 h2
      have h3 := num_overruns_two s.args (decode s.args bin).2.2.2 bytes_read hbs h1 h2
      have hl2 : events.length = 2 := by rw [hlen, h3]; rfl
      obtain ⟨e0, a1, a2, a3, -⟩ := hkth 0 (by omega)
      obtain ⟨e1, b1, b2, b3, -⟩ := hkth 1 (by omega)
      match events, hl2, a1, b1 with
      | [x, y], _, a1, b1 =>
        simp at a1 b1
        subst a1 b1
        exact ⟨_, _, rfl, by simpa using a3, by simpa using b3, a2, b2⟩
  · intro c r h
    rcases handle_address_exit rnd s r address bytes_read is_eip c h with
      ⟨h1, h2, h3⟩ | h1
    · subst h3
      exact Or.inl ⟨h1, h2, rfl, rfl⟩
    · exact Or.inr h1
  · intro g hI hfit hbs hp hlen hhex
    exact handle_address_ok rnd g s address bytes_read is_eip hI hfit hbs hp hlen hhex

theorem block_spanning_witness :
    ∃ r events, handle_address (fun _ => 0) (init_state direct_mapped_1k) spanning_address 4
        false = .ok r ∧
      r.log = events ++ [] ∧ events.length = 2 ∧ r.args.total_cache_accesses = 2 ∧
      ∃ e0 e1, events = [e1, e0] ∧ e0.idx = 217 ∧ e1.idx = 218 := by
  obtain ⟨hret, -, htotal⟩ := block_spanning (fun _ => 0) (init_state direct_mapped_1k)
    spanning_address 4 false
  obtain ⟨r, hr, -⟩ := htotal direct_mapped_1k
    (Inv_init _ (by decide) (by decide) ⟨256, by decide⟩) (by decide) (by decide)
    (Or.inl rfl) (by decide) (by decide)
  obtain ⟨bin, events, h1, h3, -, -, h4, h5⟩ := hret r hr
  have hb : hex2bin spanning_address = some ("01111100100000001001011101100110".toList) := by
    rfl
  rw [hb] at h1
  cases h1
  obtain ⟨-, -, -, -, h6⟩ := h5 (by decide)
  obtain ⟨e0, e1, h6, h7, h8, -⟩ := h6 (by decide) (by decide)
  refine ⟨r, events, hr, h3, by rw [h6]; rfl, ?_, e0, e1, h6, ?_, ?_⟩
  · rw [h4, h6]; rfl
  · rw [h7]; rfl
  · rw [h8]; rfl

/-- The width field of an instruction-fetch line: the two characters at columns 5 and 6. -/
theorem width_field_fgets (buffer line : List Char) (hlen : 7 ≤ line.length)
    (hnul : NUL ∉ line) :
    [(fgets buffer line).getD 5 NUL, (fgets buffer line).getD 6 NUL].takeWhile
      (fun c => c ≠ NUL) = (line.drop 5).take 2 := by
  have l5 : 5 < line.length := by omega
  have l6 : 6 < line.length := by omega
  obtain ⟨c5, h5, m5⟩ : ∃ c, (line)[5]? = some c ∧ c ∈ line :=
    ⟨_, List.getElem?_eq_getElem l5, List.getElem_mem l5⟩
  obtain ⟨c6, h6, m6⟩ : ∃ c, (line)[6]? = some c ∧ c ∈ line :=
    ⟨_, List.getElem?_eq_getElem l6, List.getElem_mem l6⟩
  have n5 : c5 ≠ NUL := fun e => hnul (e ▸ m5)
  have n6 : c6 ≠ NUL := fun e => hnul (e ▸ m6)
  have g5 : (fgets buffer line).getD 5 NUL = c5 := by
    unfold fgets
    simp [List.getD, List.getElem?_append_left (show 5 < line.length by omega), h5]
  have g6 : (fgets buffer line).getD 6 NUL = c6 := by
    unfold fgets
    simp [List.getD, List.getElem?_append_left (show 6 < line.length by omega), h6]
  have hd : (line.drop 5).take 2 = [c5, c6] := by
    apply List.ext_getElem?
    intro n
    simp only [List.getElem?_take, List.getElem?_drop]
    match n with
    | 0 => simp [h5]
    | 1 => simp [h6]
    | n + 2 => simp
  rw [g5, g6, hd]
  simp [List.takeWhile, n5, n6]

/-- The cycles `handle_address` has charged when it returns, by the hits and misses it has
counted. -/
theorem handle_address_cost (rnd : Nat → Nat) (s r : State) (address : List Char) (w : Int)
    (e : Bool) (h : handle_address rnd s address w e = .ok r) :
    r.args.cpi_cycles = wrap32 (s.args.cpi_cycles +
      (r.args.cache_hits - s.args.cache_hits) +
      (r.args.cache_misses - s.args.cache_misses) * (4 * Int.tdiv s.args.block_size 4) +
      (if e then 2 else 1)) := by
  obtain ⟨bin, s1, -, -, hloop, rfl⟩ := handle_address_inv rnd s r address w e h
  have hcost := overrun_loop_cost rnd _ _ _ 0 _ s1 hloop
  obtain ⟨-, -, -, r4, r5, r6, -⟩ := retire_args e s1
  have hcost2 : (s1.args.cpi_cycles : Int) % 4294967296 =
      (s.args.cpi_cycles + (s1.args.cache_hits - s.args.cache_hits) +
        (s1.args.cache_misses - s.args.cache_misses) *
          (4 * Int.tdiv s.args.block_size 4)) % 4294967296 := hcost
  rw [r4, r5, r6]
  apply wrap32_congr
  generalize (if e = true then (2 : Int) else 1) = c
  generalize (s1.args.cache_misses - s.args.cache_misses) *
    (4 * Int.tdiv s.args.block_size 4) = d at hcost2 ⊢
  omega

/-- C12 (amended). Per-record cycle accounting.  In any state, for any geometry and
policy, whenever `handle_address` returns: `cpi_cycles` has grown (as a 32-bit counter)
by the costs of the sub-accesses made, 1 for each hit counted and `4 * (block_size / 4)`
for each miss counted, plus 2 for an instruction fetch and 1 for a memory operand;
`num_instructions` has grown by 1 (as a 32-bit counter) for an instruction fetch and is
unchanged for a memory operand; and when `1 ≤ offset_value + bytes_read ≤ block_size`
exactly one sub-access was made, counted as a hit with cost 1 or as a miss with cost
`4 * (block_size / 4)`.  The loop body of `trace_cache` calls `handle_address` as an
instruction fetch, with the width read from columns 5-6, on a line starting with `EIP`,
and as a 4-byte memory operand on the operand fields of any other line.
`handle_address` does return in every state a run reaches from the initial cache when
the associativity divides `num_blocks` and the policy is `RR` or `RND`. -/
theorem record_cycle_accounting (rnd : Nat → Nat) (s : State) :
    (∀ address bytes_read is_eip r,
      handle_address rnd s address bytes_read is_eip = .ok r →
      ∃ bin events, hex2bin address = some bin ∧ r.log = events ++ s.log ∧
        r.args.cpi_cycles =
          wrap32 (s.args.cpi_cycles + log_cost s.args events + (if is_eip then 2 else 1)) ∧
        r.args.cpi_cycles = wrap32 (s.args.cpi_cycles +
          (r.args.cache_hits - s.args.cache_hits) +
          (r.args.cache_misses - s.args.cache_misses) * (4 * Int.tdiv s.args.block_size 4) +
          (if is_eip then 2 else 1)) ∧
        r.args.num_instructions =
          (if is_eip then wrap32 (s.args.num_instructions + 1)
            else s.args.num_instructions) ∧
        (0 < s.args.block_size → 1 ≤ (decode s.args bin).2.2.2 + bytes_read →
          (decode s.args bin).2.2.2 + bytes_read ≤ s.args.block_size →
          ∃ k, events = [⟨(decode s.args bin).1, (decode s.args bin).2.2.1,
                Int.tmod ((decode s.args bin).2.2.1 * s.args.associativity)
                  s.args.num_blocks, k⟩] ∧
            r.args.total_cache_accesses = s.args.total_cache_accesses + 1 ∧
            r.args.cache_hits = s.args.cache_hits + hit_delta k ∧
            r.args.cache_misses = s.args.cache_misses + (1 - hit_delta k) ∧
            r.args.cpi_cycles = wrap32 (s.args.cpi_cycles +
              (if hit_delta k = 1 then 1 else 4 * Int.tdiv s.args.block_size 4) +
              (if is_eip then 2 else 1)))) ∧
    (∀ buffer line, 18 ≤ line.length → NUL ∉ line → line.take 3 = ['E', 'I', 'P'] →
      trace_line rnd (fgets buffer line) s =
        (handle_address rnd s ((line.drop 10).take 8) (atoi ((line.drop 5).take 2))
          true).map count_address) ∧
    (∀ buffer line, 41 ≤ line.length → NUL ∉ line → line.take 3 ≠ ['E', 'I', 'P'] →
      trace_line rnd (fgets buffer line) s =
        Except.bind
          (if (line.drop 6).take 8 = no_operand then .ok s
            else (handle_address rnd s ((line.drop 6).take 8) 4 false).map count_address)
          (fun s1 =>
            if (line.drop 33).take 8 = no_operand then .ok s1
            else (handle_address rnd s1 ((line.drop 33).take 8) 4 false).map
              count_address)) ∧
    (∀ g address bytes_read is_eip, Inv g s → fields_fit g → g.block_size ≠ 0 →
      (g.replacement_policy = RR ∨ g.replacement_policy = RND) →
      address.length = 8 → (∀ ch ∈ address, ch ∈ lower_hex_digits) →
      ∃ r, handle_address rnd s address bytes_read is_eip = .ok r ∧ Inv g r) := by
  refine ⟨?_, ?_, ?_, ?_⟩
  · intro address bytes_read is_eip r h
    obtain ⟨bin, events, hbin, -, hlog, hlen, -, htot, hcpi, hni, -⟩ :=
      handle_address_effect rnd s r address bytes_read is_eip h
    refine ⟨bin, events, hbin, hlog, hcpi,
      handle_address_cost rnd s r address bytes_read is_eip h, hni, ?_⟩
    intro hbs h1 h2
    obtain ⟨bin2, s1, hbin2, -, hloop, hr⟩ :=
      handle_address_inv rnd s r address bytes_read is_eip h
    rw [hbin] at hbin2
    cases hbin2
    have hn1 := num_overruns_one s.args (decode s.args bin).2.2.2 bytes_read hbs h1 h2
    rw [hn1] at hloop
    have hone : cache_access rnd (decode s.args bin).1
        ((decode s.args bin).2.2.1 + ((0 : Nat) : Int)) (tick s) = .ok s1 := by
      have h := hloop
      simp only [Int.toNat_one, overrun_loop] at h
      cases hc : cache_access rnd (decode s.args bin).1
          ((decode s.args bin).2.2.1 + ((0 : Nat) : Int)) (tick s) with
      | error e => rw [hc] at h; simp at h
      | ok s2 =>
        rw [hc] at h
        simp only [Except.ok.injEq] at h
        rw [h]
    obtain ⟨k, hk1, hk2, hk3⟩ := cache_access_event_counts rnd _ _ _ s1 hone
    obtain ⟨r1, -, -, r4, r5, -⟩ := retire_args is_eip s1
    have hl1 : events.length = 1 := by rw [hlen, hn1]; rfl
    have hlog1 : s1.log = events ++ s.log := by rw [← r1, ← hr]; exact hlog
    rw [hlog1] at hk1
    have hrs : row_start (tick s).args ((decode s.args bin).2.2.1 + ((0 : Nat) : Int)) =
        Int.tmod ((decode s.args bin).2.2.1 * s.args.associativity) s.args.num_blocks := by
      simp [row_start, tick]
    rw [hrs] at hk1
    have hevs : events = [⟨(decode s.args bin).1, (decode s.args bin).2.2.1,
        Int.tmod ((decode s.args bin).2.2.1 * s.args.associativity) s.args.num_blocks,
        k⟩] := by
      match events, hl1, hk1 with
      | [x], _, hk1 =>
        have hk2 : [x] ++ s.log = x :: s.log := rfl
        rw [hk2] at hk1
        simp only [List.cons.injEq, and_true] at hk1
        simp at hk1
        rw [hk1.1]
    refine ⟨k, hevs, ?_, ?_, ?_, ?_⟩
    · rw [htot, hl1]; rfl
    · rw [hr, r4, hk2]; rfl
    · rw [hr, r5, hk3]; rfl
    · rw [hcpi, hevs, log_cost_single]
      cases k <;> simp [access_cost, hit_delta]
  · intro buffer line hlen hnul heip
    rw [trace_line_fetch rnd buffer line s hlen hnul heip,
      width_field_fgets buffer line (by omega) hnul]
  · intro buffer line hlen hnul heip
    exact trace_line_operands rnd buffer line s hlen hnul heip
  · intro g address bytes_read is_eip hI hfit hbs hp hlen hhex
    exact handle_address_ok rnd g s address bytes_read is_eip hI hfit hbs hp hlen hhex

theorem record_cycle_accounting_witness :
    ∃ r, trace_line (fun _ => 0) (fgets [] example_line) (init_state direct_mapped_1k) =
        .ok (count_address r) ∧
      handle_address (fun _ => 0) (init_state direct_mapped_1k) example_address 4 true =
        .ok r ∧
      r.args.num_instructions = 1 ∧ r.args.cpi_cycles = 6 ∧ r.args.total_cache_accesses = 1 ∧
      r.args.cache_misses = 1 ∧ r.args.cache_hits = 0 := by
  obtain ⟨h1, h2, -, h4⟩ := record_cycle_accounting (fun _ => 0) (init_state direct_mapped_1k)
  obtain ⟨r, hr, -⟩ := h4 direct_mapped_1k example_address 4 true
    (Inv_init _ (by decide) (by decide) ⟨256, by decide⟩) (by decide) (by decide)
    (Or.inl rfl) (by decide) (by decide)
  obtain ⟨bin, events, hb, -, -, -, hni, hone⟩ := h1 example_address 4 true r hr
  have hbin : hex2bin example_address = some ("01111100100000001001011101100100".toList) := by
    rfl
  rw [hbin] at hb
  cases hb
  obtain ⟨k, hev, htot, hhit, hmiss, hcpi⟩ := hone (by decide) (by decide) (by decide)
  have hline := h2 [] example_line (by decide) (by decide) (by decide)
  have hw : atoi ((example_line.drop 5).take 2) = 4 := by decide
  have ha : (example_line.drop 10).take 8 = example_address := by decide
  rw [hw, ha, hr] at hline
  have hv : handle_address (fun _ => 0) (init_state direct_mapped_1k) example_address 4 true =
      .ok one_access_state := by rfl
  rw [hv] at hr
  cases hr
  exact ⟨_, hline, hv, rfl, rfl, rfl, rfl, rfl⟩

/-- A returning call of `handle_address` for a memory operand, followed by
`total_addresses++`, has processed the operand. -/
theorem counted_operand_processed (rnd : Nat → Nat) (s r : State) (address : List Char)
    (h : (handle_address rnd s address 4 false).map count_address = .ok r) :
    operand_processed s r address := by
  cases hh : handle_address rnd s address 4 false with
  | error e => rw [hh] at h; simp [Except.map] at h
  | ok s1 =>
    rw [hh] at h
    simp only [Except.map, Except.ok.injEq] at h
    obtain ⟨bin, events, hbin, -, hlog, hlen, hkth, htot, -, hni, hta, hcc⟩ :=
      handle_address_effect rnd s s1 address 4 false hh
    have hcost := handle_address_cost rnd s s1 address 4 false hh
    have hov : 0 ≤ (decode s.args bin).2.2.2 := (to_decimal_bounds _).1
    subst h
    refine ⟨bin, events, hbin, hlog, hlen, ?_, hkth, htot, ?_, hcc, ?_, ?_⟩
    · intro hbs
      have := num_overruns_pos s.args (decode s.args bin).2.2.2 4 hbs (by omega)
      rw [hlen]; omega
    · simpa using hcost
    · show s1.args.total_addresses + 1 = _
      rw [hta]
    · simpa using hni

/-- C13. Absent operands are skipped.  On a memory-operand line (at least 41
characters, not starting with `EIP`) the loop body of `trace_cache` takes the destination
from columns 6-13 and the source from columns 33-40.  With both fields `00000000` the
state is returned unchanged: no cache access, no counter, cycle count or block changes.
Otherwise the loop body is one call of `handle_address`, 4 bytes wide and not an
instruction, followed by `total_addresses++`, for each field different from `00000000`,
destination first, and none for a field equal to it.  Whenever the loop body returns,
each such field has been processed once: its address converted and decoded, its
sub-accesses for 4 bytes from its offset on made and recorded (at least one, against the
decoded tag and index values), `total_cache_accesses` grown by their number,
`cpi_cycles` by their costs plus 1; `total_addresses` has grown by the number of fields
different from `00000000` and `num_instructions` is unchanged.  The loop body does return
in every state a run reaches from the initial cache when the associativity divides
`num_blocks`, the policy is `RR` or `RND` and the fields are lower-case hexadecimal. -/
theorem absent_operands_skipped (rnd : Nat → Nat) (buffer line : List Char) (s : State)
    (hlen : 41 ≤ line.length) (hnul : NUL ∉ line) (heip : line.take 3 ≠ ['E', 'I', 'P']) :
    ((line.drop 6).take 8 = no_operand → (line.drop 33).take 8 = no_operand →
      trace_line rnd (fgets buffer line) s = .ok s) ∧
    ((line.drop 6).take 8 = no_operand → (line.drop 33).take 8 ≠ no_operand →
      trace_line rnd (fgets buffer line) s =
        (handle_address rnd s ((line.drop 33).take 8) 4 false).map count_address) ∧
    ((line.drop 6).take 8 ≠ no_operand → (line.drop 33).take 8 = no_operand →
      trace_line rnd (fgets buffer line) s =
        (handle_address rnd s ((line.drop 6).take 8) 4 false).map count_address) ∧
    ((line.drop 6).take 8 ≠ no_operand → (line.drop 33).take 8 ≠ no_operand →
      trace_line rnd (fgets buffer line) s =
        Except.bind ((handle_address rnd s ((line.drop 6).take 8) 4 false).map count_address)
          (fun s1 =>
            (handle_address rnd s1 ((line.drop 33).take 8) 4 false).map count_address)) ∧
    (∀ r, trace_line rnd (fgets buffer line) s = .ok r →
      r.args.total_addresses = s.args.total_addresses +
        (if (line.drop 6).take 8 = no_operand then 0 else 1) +
        (if (line.drop 33).take 8 = no_operand then 0 else 1) ∧
      r.args.num_instructions = s.args.num_instructions ∧
      ((line.drop 6).take 8 = no_operand → (line.drop 33).take 8 = no_operand → r = s) ∧
      ((line.drop 6).take 8 = no_operand → (line.drop 33).take 8 ≠ no_operand →
        operand_processed s r ((line.drop 33).take 8)) ∧
      ((line.drop 6).take 8 ≠ no_operand → (line.drop 33).take 8 = no_operand →
        operand_processed s r ((line.drop 6).take 8)) ∧
      ((line.drop 6).take 8 ≠ no_operand → (line.drop 33).take 8 ≠ no_operand →
        ∃ r1, operand_processed s r1 ((line.drop 6).take 8) ∧
          operand_processed r1 r ((line.drop 33).take 8))) ∧
    (∀ g, Inv g s → fields_fit g → g.block_size ≠ 0 →
      (g.replacement_policy = RR ∨ g.replacement_policy = RND) →
      (∀ c ∈ (line.drop 6).take 8, c ∈ lower_hex_digits) →
      (∀ c ∈ (line.drop 33).take 8, c ∈ lower_hex_digits) →
      ∃ r, trace_line rnd (fgets buffer line) s = .ok r ∧ Inv g r) := by
  have key := trace_line_operands rnd buffer line s hlen hnul heip
  have l6 : ((line.drop 6).take 8).length = 8 := by
    rw [List.length_take, List.length_drop]; omega
  have l33 : ((line.drop 33).take 8).length = 8 := by
    rw [List.length_take, List.length_drop]; omega
  refine ⟨?_, ?_, ?_, ?_, ?_, ?_⟩
  · intro hd hs
    rw [key]; simp only [hd, hs, if_true, Except.bind]
  · intro hd hs
    rw [key]; simp only [hd, hs, if_true, if_false, Except.bind]
  · intro hd hs
    rw [key]; simp only [hd, hs, if_true, if_false]
    cases (handle_address rnd s ((line.drop 6).take 8) 4 false).map count_address with
    | error e => rfl
    | ok s1 => simp only [Except.bind, hs, if_true]
  · intro hd hs
    rw [key]; simp only [hd, hs, if_false]
  · intro r hr
    rw [key] at hr
    by_cases hd : (line.drop 6).take 8 = no_operand
    · rw [if_pos hd] at hr
      simp only [Except.bind] at hr
      by_cases hs : (line.drop 33).take 8 = no_operand
      · rw [if_pos hs] at hr
        simp only [Except.ok.injEq] at hr
        subst hr
        refine ⟨by rw [if_pos hd, if_pos hs]; ring, rfl, fun _ _ => rfl,
          fun _ h => absurd hs h, fun h => absurd hd h, fun h => absurd hd h⟩
      · rw [if_neg hs] at hr
        obtain ⟨h1, h2⟩ := counted_operand_frame rnd s r _ hr
        have hp := counted_operand_processed rnd s r _ hr
        refine ⟨by rw [if_pos hd, if_neg hs, h1]; ring, h2, fun _ h => absurd h hs,
          fun _ _ => hp, fun h => absurd hd h, fun h => absurd hd h⟩
    · rw [if_neg hd] at hr
      cases h1 : (handle_address rnd s ((line.drop 6).take 8) 4 false).map count_address with
      | error e => rw [h1] at hr; simp [Except.bind] at hr
      | ok s1 =>
        rw [h1] at hr
        simp only [Except.bind] at hr
        obtain ⟨a1, a2⟩ := counted_operand_frame rnd s s1 _ h1
        have hp1 := counted_operand_processed rnd s s1 _ h1
        by_cases hs : (line.drop 33).take 8 = no_operand
        · rw [if_pos hs] at hr
          simp only [Except.ok.injEq] at hr
          subst hr
          refine ⟨by rw [if_neg hd, if_pos hs, a1]; ring, a2, fun h => absurd h hd,
            fun h => absurd h hd, fun _ _ => hp1, fun _ h => absurd hs h⟩
        · rw [if_neg hs] at hr
          obtain ⟨b1, b2⟩ := counted_operand_frame rnd s1 r _ hr
          have hp2 := counted_operand_processed rnd s1 r _ hr
          refine ⟨by rw [if_neg hd, if_neg hs, b1, a1], by rw [b2, a2], fun h => absurd h hd,
            fun h => absurd h hd, fun _ h => absurd h hs, fun _ _ => ⟨s1, hp1, hp2⟩⟩
  · intro g hI hfit hbs hp hx6 hx33
    rw [key]
    by_cases hd : (line.drop 6).take 8 = no_operand
    · simp only [hd, if_true, Except.bind]
      by_cases hs : (line.drop 33).take 8 = no_operand
      · simp only [hs, if_true]
        exact ⟨s, rfl, hI⟩
      · simp only [hs, if_false]
        exact counted_operand_ok rnd g s _ hI hfit hbs hp l33 hx33
    · simp only [hd, if_false]
      obtain ⟨s1, h1, hI1⟩ := counted_operand_ok rnd g s _ hI hfit hbs hp l6 hx6
      rw [h1]
      simp only [Except.bind]
      by_cases hs : (line.drop 33).take 8 = no_operand
      · simp only [hs, if_true]
        exact ⟨s1, rfl, hI1⟩
      · simp only [hs, if_false]
        exact counted_operand_ok rnd g s1 _ hI1 hfit hbs hp l33 hx33

theorem absent_operands_skipped_witness :
    ∃ r, trace_line (fun _ => 0) (fgets [] operand_line) (init_state direct_mapped_1k) =
        .ok r ∧
      r.log.map (fun e => (e.idx, e.kind)) = [(106, .compulsory 0)] ∧
      r.args.total_cache_accesses = 1 ∧ r.args.cache_misses = 1 ∧ r.args.cpi_cycles = 5 ∧
      r.args.total_addresses = 1 ∧ r.args.num_instructions = 0 ∧
      operand_processed (init_state direct_mapped_1k) r "0012f9a8".toList := by
  obtain ⟨-, -, -, -, h5, h6⟩ := absent_operands_skipped (fun _ => 0) [] operand_line
    (init_state direct_mapped_1k) (by decide) (by decide) (by decide)
  obtain ⟨r, hr, -⟩ := h6 direct_mapped_1k
    (Inv_init _ (by decide) (by decide) ⟨256, by decide⟩) (by decide) (by decide)
    (Or.inl rfl) (by decide) (by decide)
  obtain ⟨-, -, -, hp, -, -⟩ := h5 r hr
  have hev : (trace_line (fun _ => 0) (fgets [] operand_line)
      (init_state direct_mapped_1k)).toOption.map
      (fun r => (r.log.map (fun e => (e.idx, e.kind)), r.args.total_cache_accesses,
        r.args.cache_misses, r.args.cpi_cycles, r.args.total_addresses,
        r.args.num_instructions)) = some ([(106, .compulsory 0)], 1, 1, 5, 1, 0) := by rfl
  rw [hr] at hev
  simp only [Except.toOption, Option.map_some', Option.some.injEq, Prod.mk.injEq] at hev
  obtain ⟨e1, e2, e3, e4, e5, e6⟩ := hev
  exact ⟨r, hr, e1, e2, e3, e4, e5, e6, hp (by decide) (by decide)⟩

theorem grows_refl (a : State) : grows a a := ⟨le_refl _, [], rfl⟩

theorem grows_trans {a b c : State} (h1 : grows a b) (h2 : grows b c) : grows a c := by
  obtain ⟨h1a, p1, h1b⟩ := h1
  obtain ⟨h2a, p2, h2b⟩ := h2
  exact ⟨le_trans h1a h2a, p2 ++ p1, by rw [h2b, h1b, List.append_assoc]⟩

theorem grows_frame (a s : State) (args2 : _args) (h : grows a s)
    (hc : same_core s.args args2) : grows a { s with args := args2 } := by
  obtain ⟨h1, p, h2⟩ := h
  refine ⟨?_, p, h2⟩
  unfold same_core at hc
  rw [hc]
  exact h1

/-- One cache access, returning or exiting, uncounts no conflict miss and only extends
the history. -/
theorem cache_access_grows (rnd : Nat → Nat) (tag : List Char) (idx : Int) (s r : State)
    (h : final_state (cache_access rnd tag idx s) = some r) : grows s r := by
  have hc := cache_access_counters rnd tag idx s r h
  have h1 : s.args.conflict_misses ≤ r.args.conflict_misses := by
    rcases hc with e | e | e <;> (rw [e]; try simp)
  refine ⟨h1, ?_⟩
  cases hr : cache_access rnd tag idx s with
  | ok r2 =>
    rw [hr] at h
    simp only [final_state, Option.some.injEq] at h
    subst h
    obtain ⟨k, hk, -⟩ := cache_access_event rnd tag idx s r2 hr
    exact ⟨[_], by rw [hk]; rfl⟩
  | error e =>
    cases e with
    | undefined => rw [hr] at h; simp [final_state] at h
    | exit c r2 =>
      rw [hr] at h
      simp only [final_state, Option.some.injEq] at h
      subst h
      exact ⟨[], (cache_access_exit rnd tag idx s r2 c hr).1⟩

theorem overrun_loop_grows (rnd : Nat → Nat) (tag : List Char) (index_value : Int)
    (n i : Nat) (s r : State)
    (h : final_state (overrun_loop rnd tag index_value n i s) = some r) : grows s r := by
  induction n generalizing i s with
  | zero =>
    simp only [overrun_loop] at h
    rw [← final_state_ok h]; exact grows_refl _
  | succ n ih =>
    simp only [overrun_loop] at h
    cases hc : cache_access rnd tag (index_value + i) s with
    | error e =>
      rw [hc] at h
      exact cache_access_grows rnd tag _ s r (by rw [hc]; exact h)
    | ok s1 =>
      rw [hc] at h
      exact grows_trans (cache_access_grows rnd tag _ s s1 (by rw [hc]; rfl)) (ih (i + 1) s1 h)

theorem handle_address_grows (rnd : Nat → Nat) (s r : State) (address : List Char) (w : Int)
    (e : Bool) (h : final_state (handle_address rnd s address w e) = some r) : grows s r :=
  handle_address_lift rnd (grows s) (fun s1 args2 h1 hc => grows_frame s s1 args2 h1 hc)
    (fun tag idx s1 r1 _ h1 hr => grows_trans h1 (cache_access_grows rnd tag idx s1 r1 hr))
    s r address w e (grows_refl s) h

theorem counted_grows (rnd : Nat → Nat) (s r : State) (address : List Char) (w : Int)
    (e : Bool)
    (h : final_state (match handle_address rnd s address w e with
      | .error x => .error x
      | .ok s1 => .ok { s1 with args := { s1.args with
          total_addresses := s1.args.total_addresses + 1 } }) = some r) : grows s r := by
  cases hh : handle_address rnd s address w e with
  | error x =>
    rw [hh] at h
    exact handle_address_grows rnd s r address w e (by rw [hh]; exact h)
  | ok s1 =>
    rw [hh] at h
    simp only [final_state, Option.some.injEq] at h
    subst h
    exact grows_frame s s1 _ (handle_address_grows rnd s s1 address w e (by rw [hh]; rfl)) rfl

theorem operand_grows (rnd : Nat → Nat) (s r : State) (address : List Char)
    (h : final_state (if address ≠ ['0', '0', '0', '0', '0', '0', '0', '0'] then
        match handle_address rnd s address 4 false with
        | .error x => (.error x : Except Fault State)
        | .ok s1 => .ok { s1 with args := { s1.args with
            total_addresses := s1.args.total_addresses + 1 } }
      else .ok s) = some r) : grows s r := by
  split at h
  · exact counted_grows rnd s r address 4 false h
  · rw [← final_state_ok h]; exact grows_refl _

theorem trace_line_grows (rnd : Nat → Nat) (buffer : List Char) (s r : State)
    (h : final_state (trace_line rnd buffer s) = some r) : grows s r := by
  unfold trace_line at h
  split at h
  · rw [← final_state_ok h]; exact grows_refl _
  · split at h
    · exact counted_grows rnd s r _ _ _ h
    · simp only at h
      split at h
      · rename_i x hx
        exact operand_grows rnd s r _ ((congrArg final_state hx).trans h)
      · rename_i s1 hx
        exact grows_trans (operand_grows rnd s s1 _ ((congrArg final_state hx).trans rfl))
          (operand_grows rnd s1 r _ h)

theorem trace_loop_grows (rnd : Nat → Nat) (trace : List (List Char)) (buffer : List Char)
    (s r : State) (h : final_state (trace_loop rnd trace buffer s) = some r) : grows s r := by
  induction trace generalizing buffer s with
  | nil =>
    simp only [trace_loop] at h
    rw [← final_state_ok h]; exact grows_refl _
  | cons line rest ih =>
    simp only [trace_loop] at h
    cases h1 : trace_line rnd (fgets buffer line) s with
    | error x =>
      rw [h1] at h
      exact trace_line_grows rnd _ s r (by rw [h1]; exact h)
    | ok s1 =>
      rw [h1] at h
      exact grows_trans (trace_line_grows rnd _ s s1 (by rw [h1]; rfl)) (ih _ s1 h)

theorem no_conflict_cons (e : Event) (log : List Event) (h : no_conflict log)
    (he : ∀ off, e.kind ≠ .conflict off) : no_conflict (e :: log) := by
  intro x hx off
  rcases List.mem_cons.mp hx with h1 | h1
  · rw [h1]; exact he off
  · exact h x h1 off

/-- Under `RR` the conflict branch does not exit: where it ends in a state, it has
recorded a conflict miss and left the counters as they were on entry. -/
theorem replace_block_final_RR (rnd : Nat → Nat) (tag : List Char) (idx r0 : Int)
    (s r : State) (hp : s.args.replacement_policy = RR)
    (h : final_state (replace_block rnd tag idx r0 s) = some r) :
    r.args = s.args ∧ ∃ off, r.log = ⟨tag, idx, r0, .conflict off⟩ :: s.log := by
  cases hr : replace_block rnd tag idx r0 s with
  | ok r2 =>
    rw [hr] at h
    simp only [final_state, Option.some.injEq] at h
    subst h
    exact replace_block_shape rnd tag idx r0 s r2 hr
  | error e =>
    cases e with
    | undefined => rw [hr] at h; simp [final_state] at h
    | exit c x =>
      exfalso
      unfold replace_block at hr
      split at hr
      · rename_i e2 he
        unfold replacement_offset at he
        rw [if_pos hp] at he
        split at he
        · simp only [Except.error.injEq] at he hr
          rw [← he] at hr
          simp at hr
        · simp at he
      · split at hr
        · simp at hr
        · split at hr
          · simp at hr
          · split at hr
            · simp at hr
            · simp only at hr
              split at hr <;> simp at hr

theorem lru_sim_bind (c0 : Int) (L1 R1 : Except Fault State) (k : State → Except Fault State) :
    lru_sim c0 L1 R1 →
    (∀ r1, r1.args.replacement_policy = RR → r1.args.conflict_misses = c0 →
      no_conflict r1.log → lru_sim c0 (k (with_policy LRU r1)) (k r1)) →
    (∀ r1 sR, final_state (k r1) = some sR → grows r1 sR) →
    lru_sim c0 (match L1 with | .error e => .error e | .ok s => k s)
      (match R1 with | .error e => .error e | .ok s => k s) := by
  intro h1 hk hmono
  rcases h1 with ⟨s, hs, hc, hn, hR⟩ | ⟨hL, hR⟩
  · left
    refine ⟨s, by rw [hs], hc, hn, ?_⟩
    intro sR hsR
    cases R1 with
    | ok r1 =>
      obtain ⟨a1, post, e, off, a2, a3⟩ := hR r1 rfl
      obtain ⟨g1, p2, g2⟩ := hmono r1 sR hsR
      exact ⟨lt_of_lt_of_le a1 g1, p2 ++ post, e, off,
        by rw [g2, a2, List.append_assoc], a3⟩
    | error e => exact hR sR hsR
  · cases R1 with
    | ok r1 =>
      obtain ⟨a1, a2, a3⟩ := hR r1 rfl
      rw [hL]
      exact hk r1 a2 a1 a3
    | error e =>
      cases e with
      | exit c s =>
        right
        rw [hL]
        exact ⟨rfl, hR⟩
      | undefined =>
        right
        rw [hL]
        exact ⟨rfl, hR⟩

theorem lru_sim_ok (c0 : Int) (r : State) (h1 : r.args.conflict_misses = c0)
    (h2 : r.args.replacement_policy = RR) (h3 : no_conflict r.log) :
    lru_sim c0 (.ok (with_policy LRU r)) (.ok r) := by
  right
  refine ⟨rfl, ?_⟩
  intro s hs
  rw [← final_state_ok hs]
  exact ⟨h1, h2, h3⟩

theorem lru_sim_undefined (c0 : Int) : lru_sim c0 (.error .undefined) (.error .undefined) := by
  right
  refine ⟨rfl, ?_⟩
  intro s hs
  simp [final_state] at hs

theorem lru_sim_exit (c0 : Int) (c : ExitCode) (r : State) (h1 : r.args.conflict_misses = c0)
    (h2 : r.args.replacement_policy = RR) (h3 : no_conflict r.log) :
    lru_sim c0 (.error (.exit c (with_policy LRU r))) (.error (.exit c r)) := by
  right
  refine ⟨rfl, ?_⟩
  intro s hs
  simp only [final_state, Option.some.injEq] at hs
  rw [← hs]
  exact ⟨h1, h2, h3⟩

/-- One cache access under `LRU` against the same access under `RR`. -/
theorem cache_access_lru_sim (rnd : Nat → Nat) (tag : List Char) (idx : Int) (r : State)
    (hp : r.args.replacement_policy = RR) (hn : no_conflict r.log) :
    lru_sim r.args.conflict_misses (cache_access rnd tag idx (with_policy LRU r))
      (cache_access rnd tag idx r) := by
  by_cases hN : r.args.num_blocks = 0
  · have e1 : cache_access rnd tag idx r = .error .undefined := by
      simp only [cache_access, hN, if_true]
    have e2 : cache_access rnd tag idx (with_policy LRU r) = .error .undefined := by
      simp only [cache_access, with_policy, hN, if_true]
    rw [e1, e2]
    exact lru_sim_undefined _
  · cases hft : find_tag r.cache (Int.tmod (idx * r.args.associativity) r.args.num_blocks) tag
        r.args.associativity.toNat 0 with
    | error e =>
      have he := find_tag_error _ _ _ _ _ _ hft
      subst he
      have e1 : cache_access rnd tag idx r = .error .undefined := by
        simp only [cache_access, row_start, hN, if_false, hft]
      have e2 : cache_access rnd tag idx (with_policy LRU r) = .error .undefined := by
        simp only [cache_access, with_policy, row_start, hN, if_false, hft]
      rw [e1, e2]
      exact lru_sim_undefined _
    | ok res =>
      cases res with
      | some j =>
        have e1 : cache_access rnd tag idx r = .ok { r with
            args := { r.args with
              total_cache_accesses := r.args.total_cache_accesses + 1
              cache_hits := r.args.cache_hits + 1
              cpi_cycles := wrap32 (r.args.cpi_cycles + 1) }
            log := ⟨tag, idx, row_start r.args idx, .hit j⟩ :: r.log } := by
          simp only [cache_access, row_start, hN, if_false, hft]
        have e2 : cache_access rnd tag idx (with_policy LRU r) = .ok (with_policy LRU { r with
            args := { r.args with
              total_cache_accesses := r.args.total_cache_accesses + 1
              cache_hits := r.args.cache_hits + 1
              cpi_cycles := wrap32 (r.args.cpi_cycles + 1) }
            log := ⟨tag, idx, row_start r.args idx, .hit j⟩ :: r.log }) := by
          simp only [cache_access, with_policy, row_start, hN, if_false, hft]
        rw [e1, e2]
        exact lru_sim_ok _ _ rfl hp (no_conflict_cons _ _ hn (fun off => by simp))
      | none =>
        cases hfe : find_empty r.cache (Int.tmod (idx * r.args.associativity) r.args.num_blocks)
            r.args.associativity.toNat 0 with
        | error e =>
          have he := find_empty_error _ _ _ _ _ hfe
          subst he
          have e1 : cache_access rnd tag idx r = .error .undefined := by
            simp only [cache_access, row_start, hN, if_false, hft, hfe]
          have e2 : cache_access rnd tag idx (with_policy LRU r) = .error .undefined := by
            simp only [cache_access, with_policy, row_start, hN, if_false, hft, hfe]
          rw [e1, e2]
          exact lru_sim_undefined _
        | ok res2 =>
          cases res2 with
          | some j =>
            cases hin : install r.cache
                (Int.tmod (idx * r.args.associativity) r.args.num_blocks + j) tag
                r.args.cpu_cycle with
            | none =>
              have e1 : cache_access rnd tag idx r = .error .undefined := by
                simp only [cache_access, row_start, hN, if_false, hft, hfe, hin]
              have e2 : cache_access rnd tag idx (with_policy LRU r) = .error .undefined := by
                simp only [cache_access, with_policy, row_start, hN, if_false, hft, hfe, hin]
              rw [e1, e2]
              exact lru_sim_undefined _
            | some cache2 =>
              have e1 : cache_access rnd tag idx r = .ok { r with
                  args := { r.args with
                    total_cache_accesses := r.args.total_cache_accesses + 1
                    cpi_cycles := wrap32 (r.args.cpi_cycles + 4 * Int.tdiv r.args.block_size 4)
                    cache_misses := r.args.cache_misses + 1
                    compulsory_misses := r.args.compulsory_misses + 1 }
                  cache := cache2
                  log := ⟨tag, idx, row_start r.args idx, .compulsory j⟩ :: r.log } := by
                simp only [cache_access, row_start, hN, if_false, hft, hfe, hin]
              have e2 : cache_access rnd tag idx (with_policy LRU r) =
                  .ok (with_policy LRU { r with
                  args := { r.args with
                    total_cache_accesses := r.args.total_cache_accesses + 1
                    cpi_cycles := wrap32 (r.args.cpi_cycles + 4 * Int.tdiv r.args.block_size 4)
                    cache_misses := r.args.cache_misses + 1
                    compulsory_misses := r.args.compulsory_misses + 1 }
                  cache := cache2
                  log := ⟨tag, idx, row_start r.args idx, .compulsory j⟩ :: r.log }) := by
                simp only [cache_access, with_policy, row_start, hN, if_false, hft, hfe, hin]
              rw [e1, e2]
              exact lru_sim_ok _ _ rfl hp (no_conflict_cons _ _ hn (fun off => by simp))
          | none =>
            have e2 : cache_access rnd tag idx (with_policy LRU r) =
                .error (.exit .lru_not_implemented (with_policy LRU { r with
                  args := { r.args with
                    total_cache_accesses := r.args.total_cache_accesses + 1
                    cpi_cycles := wrap32 (r.args.cpi_cycles + 4 * Int.tdiv r.args.block_size 4)
                    cache_misses := r.args.cache_misses + 1
                    conflict_misses := r.args.conflict_misses + 1 } })) := by
              simp only [cache_access, with_policy, row_start, hN, if_false, hft, hfe]
              exact replace_block_LRU rnd tag idx _ _ rfl
            have e1 : cache_access rnd tag idx r =
                replace_block rnd tag idx (row_start r.args idx) { r with
                  args := { r.args with
                    total_cache_accesses := r.args.total_cache_accesses + 1
                    cpi_cycles := wrap32 (r.args.cpi_cycles + 4 * Int.tdiv r.args.block_size 4)
                    cache_misses := r.args.cache_misses + 1
                    conflict_misses := r.args.conflict_misses + 1 } } := by
              simp only [cache_access, row_start, hN, if_false, hft, hfe]
            refine Or.inl ⟨_, e2, rfl, hn, ?_⟩
            intro sR hsR
            rw [e1] at hsR
            obtain ⟨a1, off, a2⟩ := replace_block_final_RR rnd tag idx _ _ sR (by exact hp) hsR
            refine ⟨by rw [a1]; simp, [], _, off, a2, rfl⟩

theorem overrun_loop_lru_sim (rnd : Nat → Nat) (tag : List Char) (index_value : Int)
    (n i : Nat) (r : State) (hp : r.args.replacement_policy = RR) (hn : no_conflict r.log) :
    lru_sim r.args.conflict_misses (overrun_loop rnd tag index_value n i (with_policy LRU r))
      (overrun_loop rnd tag index_value n i r) := by
  induction n generalizing i r with
  | zero => exact lru_sim_ok _ _ rfl hp hn
  | succ n ih =>
    exact lru_sim_bind _ _ _ (overrun_loop rnd tag index_value n (i + 1))
      (cache_access_lru_sim rnd tag (index_value + i) r hp hn)
      (fun r1 hp1 hc1 hn1 => by rw [← hc1]; exact ih (i + 1) r1 hp1 hn1)
      (fun r1 sR h => overrun_loop_grows rnd tag index_value n (i + 1) r1 sR h)

theorem retire_grows (e : Bool) (r1 sR : State)
    (h : final_state (.ok (retire e r1)) = some sR) : grows r1 sR := by
  rw [← final_state_ok h]
  cases e
  · exact ⟨le_refl _, [], rfl⟩
  · exact ⟨le_refl _, [], rfl⟩

theorem handle_address_lru_sim (rnd : Nat → Nat) (r : State) (address : List Char)
    (bytes_read : Int) (is_eip : Bool) (hp : r.args.replacement_policy = RR)
    (hn : no_conflict r.log) :
    lru_sim r.args.conflict_misses
      (handle_address rnd (with_policy LRU r) address bytes_read is_eip)
      (handle_address rnd r address bytes_read is_eip) := by
  rw [handle_address_eq, handle_address_eq]
  cases hex2bin address with
  | none => exact lru_sim_exit _ _ (tick r) rfl hp hn
  | some bin =>
    simp only
    by_cases hfit : fields_fit r.args
    · have hfitL : fields_fit (with_policy LRU r).args := hfit
      simp only [hfit, hfitL, not_true_eq_false, if_false]
      by_cases hbs : r.args.block_size = 0
      · have hbsL : (with_policy LRU r).args.block_size = 0 := hbs
        simp only [hbs, hbsL, if_true]
        exact lru_sim_undefined _
      · have hbsL : ¬ (with_policy LRU r).args.block_size = 0 := hbs
        simp only [hbs, hbsL, if_false]
        exact lru_sim_bind _ _ _ (fun s1 => .ok (retire is_eip s1))
          (overrun_loop_lru_sim rnd _ _ _ 0 (tick r) hp hn)
          (fun r1 hp1 hc1 hn1 => by
            cases is_eip
            · exact lru_sim_ok _ (retire false r1) hc1 hp1 hn1
            · exact lru_sim_ok _ (retire true r1) hc1 hp1 hn1)
          (fun r1 sR h => retire_grows is_eip r1 sR h)
    · have hfitL : ¬ fields_fit (with_policy LRU r).args := hfit
      simp only [hfit, hfitL, not_false_eq_true, if_true]
      exact lru_sim_undefined _

theorem handle_address_counted_lru_sim (rnd : Nat → Nat) (r : State) (address : List Char)
    (bytes_read : Int) (is_eip : Bool) (c0 : Int) (hc : r.args.conflict_misses = c0)
    (hp : r.args.replacement_policy = RR) (hn : no_conflict r.log) :
    lru_sim c0
      (match handle_address rnd (with_policy LRU r) address bytes_read is_eip with
        | .error e => .error e
        | .ok s1 =>
          .ok { s1 with args := { s1.args with total_addresses := s1.args.total_addresses + 1 } })
      (match handle_address rnd r address bytes_read is_eip with
        | .error e => .error e
        | .ok s1 =>
          .ok { s1 with args := { s1.args with total_addresses := s1.args.total_addresses + 1 } }) := by
  subst hc
  exact lru_sim_bind _ _ _
    (fun s1 => .ok { s1 with args := { s1.args with total_addresses := s1.args.total_addresses + 1 } })
    (handle_address_lru_sim rnd r address bytes_read is_eip hp hn)
    (fun r1 hp1 hc1 hn1 => lru_sim_ok _ (count_address r1) hc1 hp1 hn1)
    (fun r1 sR h => by rw [← final_state_ok h]; exact ⟨le_refl _, [], rfl⟩)

theorem trace_line_lru_sim (rnd : Nat → Nat) (buffer : List Char) (r : State)
    (hp : r.args.replacement_policy = RR) (hn : no_conflict r.log) :
    lru_sim r.args.conflict_misses (trace_line rnd buffer (with_policy LRU r))
      (trace_line rnd buffer r) := by
  unfold trace_line
  by_cases h1 : strlen buffer ≤ 5
  · simp only [h1, if_true]
    exact lru_sim_ok _ _ rfl hp hn
  · simp only [h1, if_false]
    by_cases h2 : buffer.take 3 = ['E', 'I', 'P']
    · simp only [h2, if_true]
      exact handle_address_counted_lru_sim rnd r _ _ _ _ rfl hp hn
    · simp only [h2, if_false]
      refine lru_sim_bind _ _ _
        (fun s1 =>
          if address_at buffer 33 ≠ ['0', '0', '0', '0', '0', '0', '0', '0'] then
            match handle_address rnd s1 (address_at buffer 33) 4 false with
            | .error e => .error e
            | .ok s2 =>
              .ok { s2 with args := { s2.args with total_addresses := s2.args.total_addresses + 1 } }
          else .ok s1) ?_ ?_ ?_
      · by_cases h3 : address_at buffer 6 = ['0', '0', '0', '0', '0', '0', '0', '0']
        · simp only [h3, ne_eq, not_true_eq_false, if_false]
          exact lru_sim_ok _ _ rfl hp hn
        · simp only [h3, ne_eq, not_false_eq_true, if_true]
          exact handle_address_counted_lru_sim rnd r _ _ _ _ rfl hp hn
      · intro r1 hp1 hc1 hn1
        by_cases h4 : address_at buffer 33 = ['0', '0', '0', '0', '0', '0', '0', '0']
        · simp only [h4, ne_eq, not_true_eq_false, if_false]
          exact lru_sim_ok _ _ hc1 hp1 hn1
        · simp only [h4, ne_eq, not_false_eq_true, if_true]
          exact handle_address_counted_lru_sim rnd r1 _ _ _ _ hc1 hp1 hn1
      · intro r1 sR h
        exact operand_grows rnd r1 sR _ h

theorem trace_loop_lru_sim (rnd : Nat → Nat) (trace : List (List Char)) (buffer : List Char)
    (r : State) (hp : r.args.replacement_policy = RR) (hn : no_conflict r.log) :
    lru_sim r.args.conflict_misses (trace_loop rnd trace buffer (with_policy LRU r))
      (trace_loop rnd trace buffer r) := by
  induction trace generalizing buffer r with
  | nil => exact lru_sim_ok _ _ rfl hp hn
  | cons line rest ih =>
    exact lru_sim_bind _ _ _ (trace_loop rnd rest (fgets buffer line))
      (trace_line_lru_sim rnd (fgets buffer line) r hp hn)
      (fun r1 hp1 hc1 hn1 => by rw [← hc1]; exact ih (fgets buffer line) r1 hp1 hn1)
      (fun r1 sR h => trace_loop_grows rnd rest (fgets buffer line) r1 sR h)

theorem trace_cache_lru_sim (rnd : Nat → Nat) (trace : List (List Char)) (buffer : List Char)
    (g : _args) :
    lru_sim g.conflict_misses
      (trace_cache rnd trace buffer { g with replacement_policy := LRU })
      (trace_cache rnd trace buffer { g with replacement_policy := RR }) := by
  exact lru_sim_bind _ _ _
    (fun s => .ok { s with args := { s.args with
      unused_cache_blocks := num_blocks_wasted s.cache } })
    (trace_loop_lru_sim rnd trace buffer (init_state { g with replacement_policy := RR }) rfl
      (fun e he => by simp [init_state] at he))
    (fun r1 hp1 hc1 hn1 => lru_sim_ok _
      ({ r1 with args := { r1.args with unused_cache_blocks := num_blocks_wasted r1.cache } })
      hc1 hp1 hn1)
    (fun r1 sR h => by rw [← final_state_ok h]; exact ⟨le_refl _, [], rfl⟩)


/-- C10 (amended): a run configured with `LRU` does not fail before the trace is read.
`parse_args` stores `LRU` without error.  For every trace the `LRU` run is compared with
the run of the same trace under `RR`.  If the `RR` run ends (by return or `exit`) having
counted no conflict miss, the `LRU` run ends exactly like it: same returned state or
same `exit`, up to the policy field.  If the `RR` run ends having counted a conflict
miss, the `LRU` run exits with the LRU-not-implemented error in the `switch` of that
run's first conflict miss: exactly one conflict miss has been counted, the history of
the `LRU` run holds no conflict, and the history of the `RR` run is that history, then
the conflict miss, then whatever followed.  One of the two always happens (if the `RR`
run has undefined behaviour, the `LRU` run has it too or has exited before).  The empty
trace is always processed to the end. -/
theorem lru_fails_at_first_conflict (rnd : Nat → Nat) (trace : List (List Char))
    (buffer : List Char) (g : _args) :
    parse_policy "LRU".toList = some LRU ∧
    ((∃ s, trace_cache rnd trace buffer { g with replacement_policy := LRU } =
          .error (.exit .lru_not_implemented s) ∧
        s.args.conflict_misses = g.conflict_misses + 1 ∧ no_conflict s.log ∧
        ∀ sR, final_state (trace_cache rnd trace buffer { g with replacement_policy := RR }) =
            some sR →
          g.conflict_misses < sR.args.conflict_misses ∧
          ∃ post e off, sR.log = post ++ e :: s.log ∧ e.kind = .conflict off) ∨
      (trace_cache rnd trace buffer { g with replacement_policy := LRU } =
          result_with_policy LRU (trace_cache rnd trace buffer { g with replacement_policy := RR }) ∧
        ∀ s, final_state (trace_cache rnd trace buffer { g with replacement_policy := RR }) =
          some s → s.args.conflict_misses = g.conflict_misses ∧ no_conflict s.log)) ∧
    (∀ sR, final_state (trace_cache rnd trace buffer { g with replacement_policy := RR }) =
        some sR →
      sR.args.conflict_misses = g.conflict_misses →
      trace_cache rnd trace buffer { g with replacement_policy := LRU } =
        result_with_policy LRU
          (trace_cache rnd trace buffer { g with replacement_policy := RR })) ∧
    (∀ sR, final_state (trace_cache rnd trace buffer { g with replacement_policy := RR }) =
        some sR →
      sR.args.conflict_misses ≠ g.conflict_misses →
      ∃ s post e off,
        trace_cache rnd trace buffer { g with replacement_policy := LRU } =
          .error (.exit .lru_not_implemented s) ∧
        s.args.conflict_misses = g.conflict_misses + 1 ∧ no_conflict s.log ∧
        sR.log = post ++ e :: s.log ∧ e.kind = .conflict off) ∧
    trace_cache rnd [] buffer { g with replacement_policy := LRU } =
      .ok { init_state { g with replacement_policy := LRU } with
        args := { g with
          replacement_policy := LRU
          unused_cache_blocks := num_blocks_wasted (init_cache g) } } := by
  have hsim := trace_cache_lru_sim rnd trace buffer g
  refine ⟨by decide, ?_, ?_, ?_, rfl⟩
  · rcases hsim with h | ⟨h1, h2⟩
    · exact Or.inl h
    · exact Or.inr ⟨h1, fun s hs => ⟨(h2 s hs).1, (h2 s hs).2.2⟩⟩
  · intro sR hsR hc
    rcases hsim with ⟨s, -, -, -, h4⟩ | ⟨h1, -⟩
    · have := (h4 sR hsR).1
      omega
    · exact h1
  · intro sR hsR hc
    rcases hsim with ⟨s, h1, h2, h3, h4⟩ | ⟨-, h2⟩
    · obtain ⟨-, post, e, off, a1, a2⟩ := h4 sR hsR
      exact ⟨s, post, e, off, h1, h2, h3, a1, a2⟩
    · exact absurd (h2 sR hsR).1 hc

theorem lru_fails_at_first_conflict_witness :
    ∃ s, trace_cache (fun _ => 0) conflict_trace []
        { direct_mapped_1k with replacement_policy := LRU } =
        .error (.exit .lru_not_implemented s) ∧
      s.args.conflict_misses = 1 ∧
      s.log.map (fun e => (e.idx, e.kind)) = [(217, .compulsory 0)] ∧
      s.args.total_cache_accesses = 2 ∧ s.args.total_addresses = 1 := by
  obtain ⟨-, -, -, h4, -⟩ := lru_fails_at_first_conflict (fun _ => 0) conflict_trace []
    direct_mapped_1k
  have hR : ∃ sR, trace_cache (fun _ => 0) conflict_trace []
      { direct_mapped_1k with replacement_policy := RR } = .ok sR ∧
      sR.args.conflict_misses = 1 := ⟨_, rfl, rfl⟩
  obtain ⟨sR, hR1, hR2⟩ := hR
  obtain ⟨s, post, e, off, hL, hc, -⟩ := h4 sR (by rw [hR1]; rfl) (by rw [hR2]; decide)
  have hev : (final_state (trace_cache (fun _ => 0) conflict_trace []
      { direct_mapped_1k with replacement_policy := LRU })).map
      (fun s => (s.log.map (fun e => (e.idx, e.kind)), s.args.total_cache_accesses,
        s.args.total_addresses)) = some ([(217, .compulsory 0)], 2, 1) := by rfl
  rw [hL] at hev
  simp only [final_state, Option.map_some', Option.some.injEq, Prod.mk.injEq] at hev
  exact ⟨s, hL, hc, hev.1, hev.2.1, hev.2.2⟩

end Sim
